import Mathlib

set_option maxRecDepth 100000

/-!
# Verification of the core-json streaming JSON deserializer

This file gives a shallow embedding, in Lean 4, of the `core-json` crate's
deserializer core (`src/core/src`): the bounded-precision number accumulator
(`number.rs`), the branch-minimized hex validator and string machinery
(`string.rs`, `string/hex.rs`), the packed parser stack (`stack/const.rs`,
`stack/mod.rs`), and the `BytesLike`-flavored pull engine (`lib.rs`,
`string.rs`).

Machine integers are embedded as `Nat`/`Int` with explicit wrapping
(`% 2 ^ w`) where the source relies on wrapping semantics; fallible Rust code
returns `Except`/`Option`.  Bytes are `Nat`s below 256; byte sources are
`List Nat` suffixes.  Loops whose termination is not structural take explicit
fuel, with sufficiency lemmas where needed.
-/

namespace CoreJson

/-- Errors from `JsonError` in `lib.rs`.  The opaque byte-source error
(`BytesError(B::Error)`, for slices a `SliceError::Short`) and the stack
error (`StackError`, for `ConstStack` a `StackTooDeep`) are collapsed to
single constructors, as the engine never inspects their payloads. -/
inductive JErr where
  | internalError
  | bytesError
  | stackError
  | reusedDeserializer
  | invalidKey
  | invalidKeyValueDelimiter
  | invalidValue
  | trailingComma
  | mismatchedDelimiter
  | typeError
deriving DecidableEq, Repr

/-! ## The number accumulator (`number.rs`) -/

/-- `u64::ilog10`, written with structural fuel (64 suffices for any
64-bit value) so that it evaluates by kernel reduction. -/
def ilog10A : Nat → Nat → Nat
  | 0, _ => 0
  | fuel + 1, n => if n < 10 then 0 else ilog10A fuel (n / 10) + 1

/-- `u64::ilog10` (the fuel 64 covers every 64-bit argument). -/
def ilog10 (n : Nat) : Nat := ilog10A 64 n

/-- `I64_SIGNIFICANT_DIGITS` from `number.rs`: `i64::MAX.ilog10() + 1 + 1`.
`i64::MAX = 9223372036854775807`, so this is `18 + 1 + 1 = 20`. -/
def I64_SIGNIFICANT_DIGITS : Nat := ilog10 9223372036854775807 + 1 + 1

/-- `F64_SIGNIFICANT_DIGITS` from `number.rs`: `f64::DIGITS = 15`. -/
def F64_SIGNIFICANT_DIGITS : Nat := 15

/-- `SIGNIFICANT_DIGITS` from `number.rs`: the larger of the two. -/
def SIGNIFICANT_DIGITS : Nat :=
  if I64_SIGNIFICANT_DIGITS > F64_SIGNIFICANT_DIGITS then I64_SIGNIFICANT_DIGITS
  else F64_SIGNIFICANT_DIGITS

/-- The state of `NumberSink` (`number.rs`).  `digits` models the
`[u8; 1 + SIGNIFICANT_DIGITS]` array (21 entries, initialized to `b'0'`);
`absoluteExponent` models the `Option<i16>` with checked arithmetic;
`exponentCorrection` models the `i64` correction (the source documents its
overflow as unreachable for physically possible inputs, so it is embedded
as an unbounded `Int`, with the `checked_add` bound kept where the source
checks it). -/
structure NumberSink where
  signCharacterAllowed : Bool
  digitsInCurrentPart : Bool
  negative : Bool
  digits : List Nat
  i : Nat
  beforeDecimal : Bool
  beforeExponent : Bool
  negativeExponent : Bool
  absoluteExponent : Option Int
  exponentCorrection : Int
  imprecise : Bool
  invalid : Bool
deriving Repr, DecidableEq

/-- `NumberSink::new` from `number.rs`. -/
def NumberSink.new : NumberSink where
  signCharacterAllowed := true
  digitsInCurrentPart := false
  negative := false
  digits := List.replicate (1 + SIGNIFICANT_DIGITS) 48
  i := 0
  beforeDecimal := true
  beforeExponent := true
  negativeExponent := false
  absoluteExponent := some 0
  exponentCorrection := 0
  imprecise := false
  invalid := false

/-- The byte values `b',' | b']' | b'}' | b'\x20' | b'\x09' | b'\x0A' | b'\x0D'`
on which `NumberSink::push_byte` stops (returns `false`). -/
def isNumberTerminator (c : Nat) : Bool :=
  c = 44 || c = 93 || c = 125 || c = 32 || c = 9 || c = 10 || c = 13

/-- An ASCII digit `b'0' ..= b'9'`. -/
def isDigitByte (c : Nat) : Bool := 48 ≤ c && c ≤ 57

/-- `i16` checked multiply: `a.checked_mul(b)`. -/
def checkedMulI16 (a b : Int) : Option Int :=
  let r := a * b
  if -32768 ≤ r ∧ r ≤ 32767 then some r else none

/-- `i16` checked add: `a.checked_add(b)`. -/
def checkedAddI16 (a b : Int) : Option Int :=
  let r := a + b
  if -32768 ≤ r ∧ r ≤ 32767 then some r else none

/-- The body of `NumberSink::push_byte` after the sign-character prologue
(the `before_decimal` / `before_exponent` / exponent sections of
`number.rs`).  The returned `Bool` is `push_byte`'s return value: `false`
means the byte is not part of the number. -/
def NumberSink.pushMain (s : NumberSink) (c : Nat) : Bool × NumberSink :=
  if s.beforeDecimal then
    if isDigitByte c then
      -- We do not allow leading zeroes for the integer part, unless it's solely zero
      let s := { s with
        invalid := s.invalid || (s.digitsInCurrentPart && (s.digits.getD 0 0 = 48)),
        digitsInCurrentPart := true }
      if s.i ≠ s.digits.length then
        (true, { s with digits := s.digits.set s.i c, i := s.i + 1 })
      else
        -- outside our precision: shift up by 1; truncating a non-'0' digit is imprecise
        (true, { s with
          exponentCorrection := s.exponentCorrection + 1,
          imprecise := s.imprecise || decide (c ≠ 48) })
    else if isNumberTerminator c then
      (false, s)
    else if c = 46 then
      (true, { s with
        invalid := s.invalid || !s.digitsInCurrentPart,
        digitsInCurrentPart := false,
        beforeDecimal := false })
    else if c = 101 ∨ c = 69 then
      (true, { s with
        invalid := s.invalid || !s.digitsInCurrentPart,
        signCharacterAllowed := true,
        digitsInCurrentPart := false,
        beforeDecimal := false,
        beforeExponent := false })
    else
      (true, { s with invalid := true })
  else if s.beforeExponent then
    if isDigitByte c then
      let s := { s with digitsInCurrentPart := true }
      if s.i ≠ s.digits.length then
        -- the source reads `digits[0]` after the write at `i`; for `i = 1`,
        -- where the read matters, the entry is unchanged by that write
        let leadingZero :=
          (c = 48) ∧ ((s.i = 0) ∨ ((s.i = 1) ∧ (s.digits.getD 0 0 = 48)))
        (true, { s with
          digits := s.digits.set s.i c,
          i := s.i + (if leadingZero then 0 else 1),
          exponentCorrection := s.exponentCorrection - 1 })
      else
        (true, { s with imprecise := true })
    else if isNumberTerminator c then
      (false, s)
    else if c = 101 ∨ c = 69 then
      (true, { s with
        invalid := s.invalid || !s.digitsInCurrentPart,
        signCharacterAllowed := true,
        digitsInCurrentPart := false,
        beforeDecimal := false,
        beforeExponent := false })
    else
      (true, { s with invalid := true })
  else
    if isDigitByte c then
      (true, { s with
        digitsInCurrentPart := true,
        absoluteExponent := s.absoluteExponent.bind fun ae =>
          (checkedMulI16 ae 10).bind fun m => checkedAddI16 m ((c : Int) - 48) })
    else if isNumberTerminator c then
      (false, s)
    else
      (true, { s with invalid := true })

/-- `NumberSink::push_byte` from `number.rs`. -/
def NumberSink.pushByte (s : NumberSink) (c : Nat) : Bool × NumberSink :=
  if s.signCharacterAllowed then
    let s1 := { s with signCharacterAllowed := false }
    if c = 45 then
      (true, { s1 with
        negative := s1.negative || s1.beforeExponent,
        negativeExponent := s1.negativeExponent || !s1.beforeExponent })
    else if c = 43 then
      (true, { s1 with invalid := s1.invalid || s1.beforeExponent })
    else
      s1.pushMain c
  else
    s.pushMain c

/-- The trailing-zero normalization loop in
`NumberSink::significant_digits_and_exponent`: while the exponent is
negative and the last significant digit is `'0'`, drop it and bump the
exponent. -/
def normLoop (digits : List Nat) : Nat → Int → Nat × Int
  | 0, e => (0, e)
  | sig + 1, e =>
    if e < 0 ∧ digits.getD sig 0 = 48 then normLoop digits sig (e + 1)
    else (sig + 1, e)

/-- `NumberSink::significant_digits_and_exponent` from `number.rs`. -/
def NumberSink.significantDigitsAndExponent (s : NumberSink) :
    Option (Nat × Int) :=
  match s.absoluteExponent with
  | none => none
  | some ae =>
    let embedded : Int := if s.negativeExponent then -ae else ae
    -- `i64::from(embedded_exponent).checked_add(self.exponent_correction)?`
    let e0 := embedded + s.exponentCorrection
    if -(2 ^ 63) ≤ e0 ∧ e0 ≤ 2 ^ 63 - 1 then some (normLoop s.digits s.i e0)
    else none

/-- `NumberSink::strictly_valid` from `number.rs`. -/
def NumberSink.strictlyValid (s : NumberSink) : Bool :=
  !s.invalid && s.digitsInCurrentPart

/-- `i64` wrapping normalization: the value of a wrapped 64-bit signed
result, `((x + 2^63) mod 2^64) - 2^63`. -/
def wrap64 (x : Int) : Int := (x + 2 ^ 63) % 2 ^ 64 - 2 ^ 63

/-- `i64` checked multiply. -/
def checkedMul64 (a b : Int) : Option Int :=
  let r := a * b
  if -(2 ^ 63) ≤ r ∧ r ≤ 2 ^ 63 - 1 then some r else none

/-- `i64` checked add. -/
def checkedAdd64 (a b : Int) : Option Int :=
  let r := a + b
  if -(2 ^ 63) ≤ r ∧ r ≤ 2 ^ 63 - 1 then some r else none

/-- `i64` checked subtract. -/
def checkedSub64 (a b : Int) : Option Int :=
  let r := a - b
  if -(2 ^ 63) ≤ r ∧ r ≤ 2 ^ 63 - 1 then some r else none

/-- The exponent shift at the end of `NumberSink::i64`:
`for _ in 0 .. exponent { accum = accum.checked_mul(10)?; }`. -/
def expShift (a : Int) : Nat → Option Int
  | 0 => some a
  | n + 1 => (checkedMul64 a 10).bind fun a2 => expShift a2 n

/-- `NumberSink::i64` from `number.rs` (lines 279–331).  The first loop uses
wrapping arithmetic over the leading `min sig (I64_SIGNIFICANT_DIGITS - 1)`
digits; the second uses checked arithmetic over
`digits[(I64_SIGNIFICANT_DIGITS - 1) .. max sig (I64_SIGNIFICANT_DIGITS - 1)]`. -/
def NumberSink.i64 (s : NumberSink) : Option Int :=
  match s.significantDigitsAndExponent with
  | none => none
  | some (sig, e) =>
    if s.imprecise || decide (e < 0) then none
    else
      let lead := s.digits.take (min sig (I64_SIGNIFICANT_DIGITS - 1))
      let tail := (s.digits.drop (I64_SIGNIFICANT_DIGITS - 1)).take
        (max sig (I64_SIGNIFICANT_DIGITS - 1) - (I64_SIGNIFICANT_DIGITS - 1))
      let accum : Option Int :=
        if s.negative then
          let a0 := lead.foldl (fun acc d => wrap64 (wrap64 (acc * 10) - ((d : Int) - 48))) 0
          tail.foldl
            (fun acc d => acc.bind fun a =>
              (checkedMul64 a 10).bind fun m => checkedSub64 m ((d : Int) - 48))
            (some a0)
        else
          let a0 := lead.foldl (fun acc d => wrap64 (wrap64 (acc * 10) + ((d : Int) - 48))) 0
          tail.foldl
            (fun acc d => acc.bind fun a =>
              (checkedMul64 a 10).bind fun m => checkedAdd64 m ((d : Int) - 48))
            (some a0)
      accum.bind fun a => expShift a e.toNat

/-- Push a whole byte string into a sink (the `core::fmt::Write`
implementation for `NumberSink`, which feeds `push_byte` and ignores its
return value). -/
def NumberSink.pushAll (s : NumberSink) (cs : List Nat) : NumberSink :=
  cs.foldl (fun s c => (s.pushByte c).2) s

/-! ## The branch-minimized hex validator (`string/hex.rs`, also duplicated
verbatim as `validate_hex` in `string.rs`) -/

/-- Replicate a constant into all four byte lanes of a `u32`, as the
source's `(C << 24) | (C << 16) | (C << 8) | C` constant definitions. -/
def lanes4 (c : Nat) : Nat := (c <<< 24) ||| (c <<< 16) ||| (c <<< 8) ||| c

/-- `HIGH_BITS` from `string/hex.rs` (`HIGH_BIT = 1 << 7` in each lane). -/
def HIGH_BITS : Nat := lanes4 (1 <<< 7)

/-- `ZERO_CHAR` from `string/hex.rs` (`b'0'` in each lane). -/
def ZERO_CHAR : Nat := lanes4 48

/-- `DISTANCES_AFTER_NINE` from `string/hex.rs`
(`HIGH_BIT - (b'9' + 1) = 70` in each lane). -/
def DISTANCES_AFTER_NINE : Nat := lanes4 (128 - 58)

/-- `FIFTH_BITS` from `string/hex.rs` (`1 << 5` in each lane). -/
def FIFTH_BITS : Nat := lanes4 (1 <<< 5)

/-- `A_CHAR` from `string/hex.rs` (`b'a'` in each lane). -/
def A_CHAR : Nat := lanes4 97

/-- `DISTANCES_AFTER_F` from `string/hex.rs`
(`HIGH_BIT - (b'f' + 1) = 25` in each lane). -/
def DISTANCES_AFTER_F : Nat := lanes4 (128 - 103)

/-- `u32::wrapping_add`. -/
def wadd32 (a b : Nat) : Nat := (a + b) % 2 ^ 32

/-- `u32::wrapping_sub` (`a - b` modulo `2^32`). -/
def wsub32 (a b : Nat) : Nat := (a + (2 ^ 32 - b % 2 ^ 32)) % 2 ^ 32

/-- Bitwise `u32` complement (`!x` in Rust): XOR with all-ones. -/
def not32 (x : Nat) : Nat := x ^^^ (2 ^ 32 - 1)

/-- `u32::from_ne_bytes` on four bytes, little-endian (the source notes the
lane order inside the `u32` is irrelevant: all constants and the final test
are symmetric across the four lanes). -/
def pack32 (b0 b1 b2 b3 : Nat) : Nat := b0 + 256 * (b1 + 256 * (b2 + 256 * b3))

/-- `validate_hex` from `string/hex.rs` lines 3–81 (the packed-`u32`
branch-minimized test that all four bytes are ASCII hex digits). -/
def validateHex (b0 b1 b2 b3 : Nat) : Bool :=
  let bytes := pack32 b0 b1 b2 b3
  let bytesWithHighBits := bytes ||| HIGH_BITS
  let gteZero := wsub32 bytesWithHighBits ZERO_CHAR
  let gteA := wsub32 (bytesWithHighBits ||| FIFTH_BITS) A_CHAR
  let lteNine := wadd32 bytes DISTANCES_AFTER_NINE
  let lteF := wadd32 (bytes ||| FIFTH_BITS) DISTANCES_AFTER_F
  let number := gteZero ^^^ lteNine
  let alpha := gteA ^^^ lteF
  let numberOrAlpha := number ||| alpha
  let ascii := (not32 bytes) &&& HIGH_BITS
  ascii &&& numberOrAlpha == HIGH_BITS

/-- The naive per-byte reference: `u8::is_ascii_hexdigit`
(`'0'..='9' | 'a'..='f' | 'A'..='F'`), as used in the source's
`test_validate_hex`. -/
def isHexDigitByte (c : Nat) : Bool :=
  (48 ≤ c && c ≤ 57) || (97 ≤ c && c ≤ 102) || (65 ≤ c && c ≤ 70)

/-! ### Lane decomposition machinery for `validateHex` -/

theorem lor_lt_256 {a b : Nat} (ha : a < 256) (hb : b < 256) : a ||| b < 256 := by
  have h : Nat.bitwise or a b < 2 ^ 8 := @Nat.bitwise_lt_two_pow a 8 b or ha hb
  exact h

theorem land_lt_256 {a b : Nat} (ha : a < 256) (hb : b < 256) : a &&& b < 256 := by
  have h : Nat.bitwise and a b < 2 ^ 8 := @Nat.bitwise_lt_two_pow a 8 b and ha hb
  exact h

theorem xor_lt_256 {a b : Nat} (ha : a < 256) (hb : b < 256) : a ^^^ b < 256 := by
  have h : Nat.bitwise bne a b < 2 ^ 8 := @Nat.bitwise_lt_two_pow a 8 b bne ha hb
  exact h

/-- Bit `j` of `a + 256 * X` for a byte `a`: low bits come from `a`, the
rest from `X`. -/
theorem testBit_byte_add (a X j : Nat) (ha : a < 256) :
    (a + 256 * X).testBit j =
      if j < 8 then a.testBit j else X.testBit (j - 8) := by
  rcases Nat.lt_or_ge j 8 with h | h
  · rw [if_pos h, Nat.testBit_to_div_mod, Nat.testBit_to_div_mod]
    have hj8 : j + (8 - j) = 8 := by omega
    have h256 : (256 : Nat) = 2 ^ j * 2 ^ (8 - j) := by
      rw [← pow_add, hj8]
      norm_num
    have hstep : (a + 256 * X) / 2 ^ j = a / 2 ^ j + 2 ^ (8 - j) * X := by
      rw [h256, mul_assoc, Nat.add_mul_div_left _ _ (Nat.pos_pow_of_pos j (by norm_num))]
    have h2 : (2 : Nat) ^ (8 - j) = 2 * 2 ^ (7 - j) := by
      rw [← pow_succ']
      congr 1
      omega
    rw [hstep, h2, mul_assoc, mul_comm 2 (2 ^ (7 - j) * X), Nat.add_mul_mod_self_right]
  · rw [if_neg (by omega), Nat.testBit_to_div_mod, Nat.testBit_to_div_mod]
    have h256 : (2 : Nat) ^ j = 256 * 2 ^ (j - 8) := by
      have hj8 : 8 + (j - 8) = j := by omega
      calc (2 : Nat) ^ j = 2 ^ (8 + (j - 8)) := by rw [hj8]
        _ = 2 ^ 8 * 2 ^ (j - 8) := pow_add 2 8 (j - 8)
        _ = 256 * 2 ^ (j - 8) := by norm_num
    have hdiv : (a + 256 * X) / 256 = X := by
      rw [Nat.add_mul_div_left _ _ (by norm_num : (0 : Nat) < 256),
        Nat.div_eq_of_lt ha, Nat.zero_add]
    rw [h256, ← Nat.div_div_eq_div_mul, hdiv]

/-- Bit `j` of a packed `u32` in terms of its byte lanes. -/
theorem pack32_testBit (b0 b1 b2 b3 j : Nat) (h0 : b0 < 256) (h1 : b1 < 256)
    (h2 : b2 < 256) :
    (pack32 b0 b1 b2 b3).testBit j =
      if j < 8 then b0.testBit j
      else if j < 16 then b1.testBit (j - 8)
      else if j < 24 then b2.testBit (j - 16)
      else b3.testBit (j - 24) := by
  unfold pack32
  rw [testBit_byte_add _ _ _ h0]
  rcases Nat.lt_or_ge j 8 with hj0 | hj0
  · rw [if_pos hj0, if_pos hj0]
  · rw [if_neg (Nat.not_lt.mpr hj0), if_neg (Nat.not_lt.mpr hj0),
      testBit_byte_add _ _ _ h1]
    rcases Nat.lt_or_ge j 16 with hj1 | hj1
    · rw [if_pos (by omega : j - 8 < 8), if_pos hj1]
    · rw [if_neg (by omega : ¬(j - 8 < 8)), if_neg (Nat.not_lt.mpr hj1),
        testBit_byte_add _ _ _ h2]
      rcases Nat.lt_or_ge j 24 with hj2 | hj2
      · rw [if_pos (by omega : j - 8 - 8 < 8), if_pos hj2,
          show j - 8 - 8 = j - 16 from by omega]
      · rw [if_neg (by omega : ¬(j - 8 - 8 < 8)), if_neg (Nat.not_lt.mpr hj2),
          show j - 8 - 8 - 8 = j - 24 from by omega]

theorem pack32_lt (b0 b1 b2 b3 : Nat) (h0 : b0 < 256) (h1 : b1 < 256)
    (h2 : b2 < 256) (h3 : b3 < 256) : pack32 b0 b1 b2 b3 < 2 ^ 32 := by
  unfold pack32
  omega

/-- A bitwise binary operation acting lanewise on packed `u32`s. -/
theorem pack32_lanewise (g : Bool → Bool → Bool) (F : Nat → Nat → Nat)
    (hF : ∀ x y k, (F x y).testBit k = g (x.testBit k) (y.testBit k))
    (hFlt : ∀ {x y : Nat}, x < 256 → y < 256 → F x y < 256)
    (a0 a1 a2 a3 c0 c1 c2 c3 : Nat)
    (ha0 : a0 < 256) (ha1 : a1 < 256) (ha2 : a2 < 256) (ha3 : a3 < 256)
    (hc0 : c0 < 256) (hc1 : c1 < 256) (hc2 : c2 < 256) (hc3 : c3 < 256) :
    F (pack32 a0 a1 a2 a3) (pack32 c0 c1 c2 c3) =
      pack32 (F a0 c0) (F a1 c1) (F a2 c2) (F a3 c3) := by
  apply Nat.eq_of_testBit_eq
  intro j
  rw [hF, pack32_testBit _ _ _ _ _ ha0 ha1 ha2,
    pack32_testBit _ _ _ _ _ hc0 hc1 hc2,
    pack32_testBit _ _ _ _ _ (hFlt ha0 hc0) (hFlt ha1 hc1) (hFlt ha2 hc2)]
  rcases Nat.lt_or_ge j 8 with h8 | h8
  · rw [if_pos h8, if_pos h8, if_pos h8, hF]
  · rcases Nat.lt_or_ge j 16 with h16 | h16
    · rw [if_neg (Nat.not_lt.mpr h8), if_neg (Nat.not_lt.mpr h8),
        if_neg (Nat.not_lt.mpr h8), if_pos h16, if_pos h16, if_pos h16, hF]
    · rcases Nat.lt_or_ge j 24 with h24 | h24
      · rw [if_neg (Nat.not_lt.mpr h8), if_neg (Nat.not_lt.mpr h8),
          if_neg (Nat.not_lt.mpr h8), if_neg (Nat.not_lt.mpr h16),
          if_neg (Nat.not_lt.mpr h16), if_neg (Nat.not_lt.mpr h16),
          if_pos h24, if_pos h24, if_pos h24, hF]
      · rw [if_neg (Nat.not_lt.mpr h8), if_neg (Nat.not_lt.mpr h8),
          if_neg (Nat.not_lt.mpr h8), if_neg (Nat.not_lt.mpr h16),
          if_neg (Nat.not_lt.mpr h16), if_neg (Nat.not_lt.mpr h16),
          if_neg (Nat.not_lt.mpr h24), if_neg (Nat.not_lt.mpr h24),
          if_neg (Nat.not_lt.mpr h24), hF]

/-- Bitwise OR of packed `u32`s acts lanewise. -/
theorem pack32_lor (a0 a1 a2 a3 c0 c1 c2 c3 : Nat)
    (ha0 : a0 < 256) (ha1 : a1 < 256) (ha2 : a2 < 256) (ha3 : a3 < 256)
    (hc0 : c0 < 256) (hc1 : c1 < 256) (hc2 : c2 < 256) (hc3 : c3 < 256) :
    pack32 a0 a1 a2 a3 ||| pack32 c0 c1 c2 c3 =
      pack32 (a0 ||| c0) (a1 ||| c1) (a2 ||| c2) (a3 ||| c3) :=
  pack32_lanewise or (fun x y => x ||| y) Nat.testBit_lor
    (fun hx hy => lor_lt_256 hx hy) _ _ _ _ _ _ _ _ ha0 ha1 ha2 ha3 hc0 hc1 hc2 hc3

/-- Bitwise AND of packed `u32`s acts lanewise. -/
theorem pack32_land (a0 a1 a2 a3 c0 c1 c2 c3 : Nat)
    (ha0 : a0 < 256) (ha1 : a1 < 256) (ha2 : a2 < 256) (ha3 : a3 < 256)
    (hc0 : c0 < 256) (hc1 : c1 < 256) (hc2 : c2 < 256) (hc3 : c3 < 256) :
    pack32 a0 a1 a2 a3 &&& pack32 c0 c1 c2 c3 =
      pack32 (a0 &&& c0) (a1 &&& c1) (a2 &&& c2) (a3 &&& c3) :=
  pack32_lanewise and (fun x y => x &&& y) Nat.testBit_land
    (fun hx hy => land_lt_256 hx hy) _ _ _ _ _ _ _ _ ha0 ha1 ha2 ha3 hc0 hc1 hc2 hc3

/-- Bitwise XOR of packed `u32`s acts lanewise. -/
theorem pack32_xor (a0 a1 a2 a3 c0 c1 c2 c3 : Nat)
    (ha0 : a0 < 256) (ha1 : a1 < 256) (ha2 : a2 < 256) (ha3 : a3 < 256)
    (hc0 : c0 < 256) (hc1 : c1 < 256) (hc2 : c2 < 256) (hc3 : c3 < 256) :
    pack32 a0 a1 a2 a3 ^^^ pack32 c0 c1 c2 c3 =
      pack32 (a0 ^^^ c0) (a1 ^^^ c1) (a2 ^^^ c2) (a3 ^^^ c3) :=
  pack32_lanewise xor (fun x y => x ^^^ y) Nat.testBit_xor
    (fun hx hy => xor_lt_256 hx hy) _ _ _ _ _ _ _ _ ha0 ha1 ha2 ha3 hc0 hc1 hc2 hc3

/-- Wrapping `u32` addition of packed values with carry-free lanes acts
lanewise. -/
theorem wadd32_pack (a0 a1 a2 a3 c0 c1 c2 c3 : Nat)
    (h0 : a0 + c0 < 256) (h1 : a1 + c1 < 256) (h2 : a2 + c2 < 256)
    (h3 : a3 + c3 < 256) :
    wadd32 (pack32 a0 a1 a2 a3) (pack32 c0 c1 c2 c3) =
      pack32 (a0 + c0) (a1 + c1) (a2 + c2) (a3 + c3) := by
  unfold wadd32 pack32
  rw [Nat.mod_eq_of_lt (by omega)]
  ring

/-- Wrapping `u32` subtraction of packed values with borrow-free lanes acts
lanewise. -/
theorem wsub32_pack (a0 a1 a2 a3 c0 c1 c2 c3 : Nat)
    (ha0 : a0 < 256) (ha1 : a1 < 256) (ha2 : a2 < 256) (ha3 : a3 < 256)
    (h0 : c0 ≤ a0) (h1 : c1 ≤ a1) (h2 : c2 ≤ a2) (h3 : c3 ≤ a3) :
    wsub32 (pack32 a0 a1 a2 a3) (pack32 c0 c1 c2 c3) =
      pack32 (a0 - c0) (a1 - c1) (a2 - c2) (a3 - c3) := by
  unfold wsub32 pack32
  have hc : c0 + 256 * (c1 + 256 * (c2 + 256 * c3)) < 2 ^ 32 := by omega
  rw [Nat.mod_eq_of_lt hc]
  omega

theorem not32_pack (b0 b1 b2 b3 : Nat) (h0 : b0 < 256) (h1 : b1 < 256)
    (h2 : b2 < 256) (h3 : b3 < 256) :
    not32 (pack32 b0 b1 b2 b3) =
      pack32 (255 - b0) (255 - b1) (255 - b2) (255 - b3) := by
  unfold not32
  have h255 : (2 ^ 32 - 1 : Nat) = pack32 255 255 255 255 := by decide
  rw [h255, pack32_xor _ _ _ _ _ _ _ _ h0 h1 h2 h3 (by norm_num) (by norm_num)
    (by norm_num) (by norm_num)]
  have hx : ∀ b < 256, b ^^^ 255 = 255 - b := by decide
  rw [hx b0 h0, hx b1 h1, hx b2 h2, hx b3 h3]

theorem pack32_inj (a0 a1 a2 a3 c0 c1 c2 c3 : Nat)
    (ha0 : a0 < 256) (ha1 : a1 < 256) (ha2 : a2 < 256)
    (hc0 : c0 < 256) (hc1 : c1 < 256) (hc2 : c2 < 256) :
    pack32 a0 a1 a2 a3 = pack32 c0 c1 c2 c3 ↔
      a0 = c0 ∧ a1 = c1 ∧ a2 = c2 ∧ a3 = c3 := by
  unfold pack32
  omega

/-! ### Per-lane facts, decided over all byte values -/

/-- The per-lane value of `number ||| alpha` for a lane holding an ASCII
byte `b < 128` (so `b ||| HIGH_BIT = b + 128`). -/
def laneNumberOrAlpha (b : Nat) : Nat :=
  (((b + 128) - 48) ^^^ (b + 70)) |||
    ((((b + 128) ||| 32) - 97) ^^^ ((b ||| 32) + 25))

theorem lane_bounds : ∀ b < 128,
    (b ||| 128 = b + 128) ∧ ((b + 128) ||| 32 < 256) ∧ (97 ≤ (b + 128) ||| 32) ∧
      (b ||| 32 < 128) ∧ (laneNumberOrAlpha b < 256) := by decide

theorem lane_result : ∀ b < 128,
    ((255 - b) &&& 128) &&& laneNumberOrAlpha b =
      (if isHexDigitByte b then 128 else 0) := by decide

theorem lane_nonascii : ∀ b, 128 ≤ b → b < 256 → (255 - b) &&& 128 = 0 := by decide

theorem isHex_false_of_ge {b : Nat} (hb : 128 ≤ b) : isHexDigitByte b = false := by
  unfold isHexDigitByte
  simp only [Bool.or_eq_false_iff, Bool.and_eq_false_iff, decide_eq_false_iff_not,
    not_le]
  omega

/-- A packed word with a zero high-bit lane cannot equal `HIGH_BITS` after
masking. -/
theorem land_ne_high_of_lane_zero (l0 l1 l2 l3 X : Nat)
    (h0 : l0 < 256) (h1 : l1 < 256) (h2 : l2 < 256)
    (hz : l0 = 0 ∨ l1 = 0 ∨ l2 = 0 ∨ l3 = 0) :
    pack32 l0 l1 l2 l3 &&& X ≠ HIGH_BITS := by
  intro hc
  have hhb : ∀ j ∈ [7, 15, 23, 31], HIGH_BITS.testBit j = true := by decide
  rcases hz with hz | hz | hz | hz
  · have hb := congrArg (fun t => Nat.testBit t 7) hc
    simp only [Nat.testBit_land, pack32_testBit _ _ _ _ _ h0 h1 h2] at hb
    rw [hhb 7 (by norm_num)] at hb
    simp [hz] at hb
  · have hb := congrArg (fun t => Nat.testBit t 15) hc
    simp only [Nat.testBit_land, pack32_testBit _ _ _ _ _ h0 h1 h2] at hb
    rw [hhb 15 (by norm_num)] at hb
    simp [hz] at hb
  · have hb := congrArg (fun t => Nat.testBit t 23) hc
    simp only [Nat.testBit_land, pack32_testBit _ _ _ _ _ h0 h1 h2] at hb
    rw [hhb 23 (by norm_num)] at hb
    simp [hz] at hb
  · have hb := congrArg (fun t => Nat.testBit t 31) hc
    simp only [Nat.testBit_land, pack32_testBit _ _ _ _ _ h0 h1 h2] at hb
    rw [hhb 31 (by norm_num)] at hb
    simp [hz] at hb

/-! ### The equivalence theorem (claim C9) -/

/-- C9: the packed-`u32` `validate_hex` agrees with the naive per-byte
reference, `is_ascii_hexdigit` applied to each of the four bytes. -/
theorem validateHex_eq_naive (b0 b1 b2 b3 : Nat)
    (h0 : b0 < 256) (h1 : b1 < 256) (h2 : b2 < 256) (h3 : b3 < 256) :
    validateHex b0 b1 b2 b3 =
      (isHexDigitByte b0 && isHexDigitByte b1 && isHexDigitByte b2 &&
        isHexDigitByte b3) := by
  have hHB : HIGH_BITS = pack32 128 128 128 128 := by decide
  have hZC : ZERO_CHAR = pack32 48 48 48 48 := by decide
  have hDN : DISTANCES_AFTER_NINE = pack32 70 70 70 70 := by decide
  have hFB : FIFTH_BITS = pack32 32 32 32 32 := by decide
  have hAC : A_CHAR = pack32 97 97 97 97 := by decide
  have hDF : DISTANCES_AFTER_F = pack32 25 25 25 25 := by decide
  by_cases hall : b0 < 128 ∧ b1 < 128 ∧ b2 < 128 ∧ b3 < 128
  · obtain ⟨k0, k1, k2, k3⟩ := hall
    obtain ⟨e0, f0, g0, m0, n0⟩ := lane_bounds b0 k0
    obtain ⟨e1, f1, g1, m1, n1⟩ := lane_bounds b1 k1
    obtain ⟨e2, f2, g2, m2, n2⟩ := lane_bounds b2 k2
    obtain ⟨e3, f3, g3, m3, n3⟩ := lane_bounds b3 k3
    unfold validateHex
    simp only []
    rw [hZC, hDN, hFB, hAC, hDF]
    rw [show HIGH_BITS = pack32 128 128 128 128 from hHB]
    rw [pack32_lor _ _ _ _ _ _ _ _ h0 h1 h2 h3 (by norm_num) (by norm_num)
      (by norm_num) (by norm_num)]
    rw [e0, e1, e2, e3]
    rw [wsub32_pack _ _ _ _ _ _ _ _ (by omega) (by omega) (by omega) (by omega)
      (by omega) (by omega) (by omega) (by omega)]
    rw [pack32_lor _ _ _ _ _ _ _ _ (by omega) (by omega) (by omega) (by omega)
      (by norm_num) (by norm_num) (by norm_num) (by norm_num)]
    rw [wsub32_pack _ _ _ _ _ _ _ _ f0 f1 f2 f3 g0 g1 g2 g3]
    rw [wadd32_pack _ _ _ _ _ _ _ _ (by omega) (by omega) (by omega) (by omega)]
    rw [pack32_lor _ _ _ _ _ _ _ _ h0 h1 h2 h3 (by norm_num) (by norm_num)
      (by norm_num) (by norm_num)]
    rw [wadd32_pack _ _ _ _ _ _ _ _ (by omega) (by omega) (by omega) (by omega)]
    rw [pack32_xor _ _ _ _ _ _ _ _ (by omega) (by omega) (by omega) (by omega)
      (by omega) (by omega) (by omega) (by omega)]
    rw [pack32_xor _ _ _ _ _ _ _ _ (by omega) (by omega) (by omega) (by omega)
      (by omega) (by omega) (by omega) (by omega)]
    rw [pack32_lor _ _ _ _ _ _ _ _ (xor_lt_256 (by omega) (by omega))
      (xor_lt_256 (by omega) (by omega)) (xor_lt_256 (by omega) (by omega))
      (xor_lt_256 (by omega) (by omega)) (xor_lt_256 (by omega) (by omega))
      (xor_lt_256 (by omega) (by omega)) (xor_lt_256 (by omega) (by omega))
      (xor_lt_256 (by omega) (by omega))]
    rw [not32_pack _ _ _ _ h0 h1 h2 h3]
    rw [pack32_land _ _ _ _ _ _ _ _ (by omega) (by omega) (by omega) (by omega)
      (by norm_num) (by norm_num) (by norm_num) (by norm_num)]
    rw [pack32_land _ _ _ _ _ _ _ _
      (land_lt_256 (by omega) (by norm_num)) (land_lt_256 (by omega) (by norm_num))
      (land_lt_256 (by omega) (by norm_num)) (land_lt_256 (by omega) (by norm_num))
      (lor_lt_256 (xor_lt_256 (by omega) (by omega)) (xor_lt_256 (by omega) (by omega)))
      (lor_lt_256 (xor_lt_256 (by omega) (by omega)) (xor_lt_256 (by omega) (by omega)))
      (lor_lt_256 (xor_lt_256 (by omega) (by omega)) (xor_lt_256 (by omega) (by omega)))
      (lor_lt_256 (xor_lt_256 (by omega) (by omega)) (xor_lt_256 (by omega) (by omega)))]
    rw [show ∀ x y : Nat, (x == y) = decide (x = y) from fun x y => rfl]
    have r0 : (255 - b0 &&& 128) &&&
        ((b0 + 128 - 48 ^^^ b0 + 70) ||| (b0 + 128 ||| 32) - 97 ^^^ (b0 ||| 32) + 25)
        = if isHexDigitByte b0 then 128 else 0 := lane_result b0 k0
    have r1 : (255 - b1 &&& 128) &&&
        ((b1 + 128 - 48 ^^^ b1 + 70) ||| (b1 + 128 ||| 32) - 97 ^^^ (b1 ||| 32) + 25)
        = if isHexDigitByte b1 then 128 else 0 := lane_result b1 k1
    have r2 : (255 - b2 &&& 128) &&&
        ((b2 + 128 - 48 ^^^ b2 + 70) ||| (b2 + 128 ||| 32) - 97 ^^^ (b2 ||| 32) + 25)
        = if isHexDigitByte b2 then 128 else 0 := lane_result b2 k2
    have r3 : (255 - b3 &&& 128) &&&
        ((b3 + 128 - 48 ^^^ b3 + 70) ||| (b3 + 128 ||| 32) - 97 ^^^ (b3 ||| 32) + 25)
        = if isHexDigitByte b3 then 128 else 0 := lane_result b3 k3
    rw [r0, r1, r2, r3]
    by_cases x0 : isHexDigitByte b0 <;> by_cases x1 : isHexDigitByte b1 <;>
      by_cases x2 : isHexDigitByte b2 <;> by_cases x3 : isHexDigitByte b3 <;>
      simp only [x0, x1, x2, x3, if_true, if_false, Bool.true_and, Bool.false_and,
        Bool.and_true, Bool.and_false, Bool.and_self] <;> decide
  · have rhsF : (isHexDigitByte b0 && isHexDigitByte b1 && isHexDigitByte b2 &&
        isHexDigitByte b3) = false := by
      rcases Nat.lt_or_ge b0 128 with hb0 | hb0
      · rcases Nat.lt_or_ge b1 128 with hb1 | hb1
        · rcases Nat.lt_or_ge b2 128 with hb2 | hb2
          · rcases Nat.lt_or_ge b3 128 with hb3 | hb3
            · exact absurd ⟨hb0, hb1, hb2, hb3⟩ hall
            · rw [isHex_false_of_ge hb3, Bool.and_false]
          · rw [isHex_false_of_ge hb2, Bool.and_false, Bool.false_and]
        · rw [isHex_false_of_ge hb1, Bool.and_false, Bool.false_and, Bool.false_and]
      · rw [isHex_false_of_ge hb0, Bool.false_and, Bool.false_and, Bool.false_and]
    rw [rhsF]
    unfold validateHex
    simp only []
    have hascii : not32 (pack32 b0 b1 b2 b3) &&& HIGH_BITS =
        pack32 ((255 - b0) &&& 128) ((255 - b1) &&& 128) ((255 - b2) &&& 128)
          ((255 - b3) &&& 128) := by
      rw [not32_pack _ _ _ _ h0 h1 h2 h3, hHB]
      exact pack32_land _ _ _ _ _ _ _ _ (by omega) (by omega) (by omega) (by omega)
        (by norm_num) (by norm_num) (by norm_num) (by norm_num)
    simp only [hascii]
    rw [show ∀ x y : Nat, (x == y) = decide (x = y) from fun x y => rfl]
    rw [decide_eq_false_iff_not]
    apply land_ne_high_of_lane_zero _ _ _ _ _ (land_lt_256 (by omega) (by norm_num))
      (land_lt_256 (by omega) (by norm_num)) (land_lt_256 (by omega) (by norm_num))
    rcases Nat.lt_or_ge b0 128 with hb0 | hb0
    · rcases Nat.lt_or_ge b1 128 with hb1 | hb1
      · rcases Nat.lt_or_ge b2 128 with hb2 | hb2
        · rcases Nat.lt_or_ge b3 128 with hb3 | hb3
          · exact absurd ⟨hb0, hb1, hb2, hb3⟩ hall
          · exact Or.inr (Or.inr (Or.inr (lane_nonascii b3 hb3 h3)))
        · exact Or.inr (Or.inr (Or.inl (lane_nonascii b2 hb2 h2)))
      · exact Or.inr (Or.inl (lane_nonascii b1 hb1 h1))
    · exact Or.inl (lane_nonascii b0 hb0 h0)


/-- Witness for C9: the theorem applied at the concrete bytes
`['0', 'a', 'F', 'g']`. -/
theorem validateHex_eq_naive_witness :
    (48 : Nat) < 256 ∧ validateHex 48 97 70 103 =
      (isHexDigitByte 48 && isHexDigitByte 97 && isHexDigitByte 70 &&
        isHexDigitByte 103) :=
  ⟨by decide,
    validateHex_eq_naive 48 97 70 103 (by decide) (by decide) (by decide) (by decide)⟩

/-! ## The parser stack (`stack/mod.rs`, `stack/const.rs`) -/

/-- `State` from `stack/mod.rs`. -/
inductive State where
  | object
  | array
  | unknown
deriving DecidableEq, Repr

/-- `PackedStates::get` from `stack/const.rs`: extract the 2-bit entry `i`
from the byte array.  `none` models the `panic!` branch for the unused bit
pattern `3` (claim C10 shows it is unreachable for entries written through
`push`). -/
def PackedStates.get (items : List Nat) (i : Nat) : Option State :=
  match (items.getD (i / 4) 0 >>> ((i &&& 3) * 2)) &&& 3 with
  | 0 => some State.object
  | 1 => some State.array
  | 2 => some State.unknown
  | _ => none

/-- The 2-bit encoding of a `State` in `PackedStates::set`. -/
def State.twoBits : State → Nat
  | .object => 0
  | .array => 1
  | .unknown => 2

/-- `PackedStates::set` from `stack/const.rs`: clear the 2-bit slot and
store the new value.  The `u8` complement `!(0b11 << shift)` is
`255 - (3 <<< shift)`. -/
def PackedStates.set (items : List Nat) (i : Nat) (kind : State) : List Nat :=
  let shift := (i &&& 3) * 2
  let cleared := items.getD (i / 4) 0 &&& (255 - (3 <<< shift))
  items.set (i / 4) (cleared ||| (kind.twoBits <<< shift))

/-- `ConstStack<ONE_FOURTH_OF_MAX_DEPTH>` from `stack/const.rs`: `items` is
the `[u8; N]` array, `depth` the current depth. -/
structure ConstStack (N : Nat) where
  items : List Nat
  depth : Nat
deriving Repr, DecidableEq

/-- `ConstStack::empty`. -/
def ConstStack.empty (N : Nat) : ConstStack N := ⟨List.replicate N 0, 0⟩

/-- `ConstStack::peek`. -/
def ConstStack.peek {N : Nat} (s : ConstStack N) : Option State :=
  match s.depth with
  | 0 => none
  | d + 1 => PackedStates.get s.items d

/-- `ConstStack::pop` (returns the popped state and the stack with its
depth decremented; the packed entries are not erased). -/
def ConstStack.pop {N : Nat} (s : ConstStack N) : Option (State × ConstStack N) :=
  match s.depth with
  | 0 => none
  | d + 1 => (PackedStates.get s.items d).map fun st => (st, { s with depth := d })

/-- `ConstStack::push`: `none` models `Err(StackError::StackTooDeep)`,
returned exactly when the depth has reached `4 * N`. -/
def ConstStack.push {N : Nat} (s : ConstStack N) (state : State) :
    Option (ConstStack N) :=
  if s.depth = 4 * N then none
  else some { items := PackedStates.set s.items s.depth state, depth := s.depth + 1 }

/-! ### Packed-storage lemmas (decided per byte) -/

/-- The in-byte slot extraction used by `PackedStates.get`. -/
def byteGet (b p : Nat) : Nat := (b >>> (p * 2)) &&& 3

/-- The in-byte slot update used by `PackedStates.set`. -/
def byteSet (b p v : Nat) : Nat := (b &&& (255 - (3 <<< (p * 2)))) ||| (v <<< (p * 2))

theorem byteSet_get_same : ∀ b < 256, ∀ p < 4, ∀ v ≤ 2,
    byteGet (byteSet b p v) p = v := by decide

theorem byteSet_get_other : ∀ b < 256, ∀ p < 4, ∀ q < 4, p ≠ q → ∀ v ≤ 2,
    byteGet (byteSet b p v) q = byteGet b q := by decide

theorem byteSet_lt : ∀ b < 256, ∀ p < 4, ∀ v ≤ 2, byteSet b p v < 256 := by decide

theorem twoBits_le (st : State) : st.twoBits ≤ 2 := by cases st <;> decide

theorem decode_twoBits (st : State) :
    (match st.twoBits with
      | 0 => some State.object
      | 1 => some State.array
      | 2 => some State.unknown
      | _ => none) = some st := by cases st <;> rfl


theorem and_three_eq_mod (i : Nat) : i &&& 3 = i % 4 := by
  have h := Nat.and_pow_two_sub_one_eq_mod i 2
  norm_num at h
  exact h

/-- Reading slot `j` after writing slot `i`: the written slot holds the new
state, every other slot is untouched. -/
theorem PackedStates.get_set (items : List Nat) (i j : Nat) (st : State)
    (hrange : i / 4 < items.length) (hbytes : ∀ b ∈ items, b < 256) :
    PackedStates.get (PackedStates.set items i st) j =
      if j = i then some st else PackedStates.get items j := by
  have hb : items.getD (i / 4) 0 < 256 := by
    have hmem : items.getD (i / 4) 0 ∈ items := by
      rw [List.getD_eq_getElem?_getD, List.getElem?_eq_getElem hrange]
      exact List.getElem_mem hrange
    exact hbytes _ hmem
  have hi4 : i &&& 3 < 4 := by
    have := Nat.and_le_right (n := i) (m := 3)
    omega
  have hwrite : (PackedStates.set items i st).getD (i / 4) 0 =
      byteSet (items.getD (i / 4) 0) (i &&& 3) st.twoBits := by
    unfold PackedStates.set byteSet
    simp [List.getD, List.getElem?_set, hrange]
  by_cases hj : j = i
  · subst hj
    unfold PackedStates.get
    rw [if_pos rfl]
    have hsame := byteSet_get_same (items.getD (j / 4) 0) hb (j &&& 3) hi4
      st.twoBits (twoBits_le st)
    unfold byteGet at hsame
    rw [hwrite]
    unfold byteSet
    unfold byteSet at hsame
    rw [hsame]
    exact decode_twoBits st
  · rw [if_neg hj]
    unfold PackedStates.get
    by_cases hslot : j / 4 = i / 4
    · have hq : j &&& 3 ≠ i &&& 3 := by
        rw [and_three_eq_mod, and_three_eq_mod]
        omega
      have hq4 : j &&& 3 < 4 := by
        have := Nat.and_le_right (n := j) (m := 3)
        omega
      have hother := byteSet_get_other (items.getD (i / 4) 0) hb (i &&& 3) hi4
        (j &&& 3) hq4 (fun hc => hq hc.symm) st.twoBits (twoBits_le st)
      unfold byteGet byteSet at hother
      have hwrite2 : (PackedStates.set items i st).getD (j / 4) 0 =
          byteSet (items.getD (i / 4) 0) (i &&& 3) st.twoBits := by
        rw [hslot]
        exact hwrite
      rw [hwrite2]
      unfold byteSet
      rw [hother, hslot]
    · have hskip : (PackedStates.set items i st).getD (j / 4) 0 =
          items.getD (j / 4) 0 := by
        unfold PackedStates.set
        simp only [List.getD_eq_getElem?_getD, List.getElem?_set]
        rw [if_neg fun h => hslot h.symm]
      rw [hskip]

/-- C10: on a `ConstStack` with spare capacity, `push st` succeeds; `peek`
then returns `st`, `pop` returns `st` and restores the original depth, and
every packed entry below the pushed frame is unchanged — in particular the
packed 2-bit storage round-trips every `State` written through `push` and
never reaches its panic branch for such entries. -/
theorem constStack_push_roundtrip (N : Nat) (s : ConstStack N) (st : State)
    (hd : s.depth < 4 * N) (hlen : s.items.length = N)
    (hbytes : ∀ b ∈ s.items, b < 256) :
    ∃ s2, s.push st = some s2 ∧ s2.depth = s.depth + 1 ∧ s2.peek = some st ∧
      s2.pop = some (st, { items := s2.items, depth := s.depth }) ∧
      ∀ j < s.depth, PackedStates.get s2.items j = PackedStates.get s.items j := by
  have hrange : s.depth / 4 < s.items.length := by
    rw [hlen]
    omega
  have hget := PackedStates.get_set s.items s.depth s.depth st hrange hbytes
  rw [if_pos rfl] at hget
  refine ⟨⟨PackedStates.set s.items s.depth st, s.depth + 1⟩, ?_, rfl, ?_, ?_, ?_⟩
  · unfold ConstStack.push
    rw [if_neg (by omega)]
  · unfold ConstStack.peek
    exact hget
  · unfold ConstStack.pop
    simp only [hget]
    rfl
  · intro j hj
    have h := PackedStates.get_set s.items s.depth j st hrange hbytes
    rw [if_neg (by omega)] at h
    exact h

/-- Witness for C10: the theorem applied to a one-byte stack holding one
frame, pushing `State.array`. -/
theorem constStack_push_roundtrip_witness :
    ∃ s2, (ConstStack.empty 1).push State.array = some s2 ∧
      s2.depth = (ConstStack.empty 1).depth + 1 ∧ s2.peek = some State.array ∧
      s2.pop = some (State.array, { items := s2.items, depth := (ConstStack.empty 1).depth }) ∧
      ∀ j < (ConstStack.empty 1).depth,
        PackedStates.get s2.items j = PackedStates.get (ConstStack.empty 1).items j :=
  constStack_push_roundtrip 1 (ConstStack.empty 1) State.array (by decide) (by decide)
    (by decide)


/-! ## Byte sources

The `BytesLike` trait itself is not under `src/` (only the `Read`-flavored
`io.rs` is); the operations below are the slice-backed byte source.
Modelled from the spec: §6's random-access byte-source contract —
`peek(offset) -> byte`, `read(n) -> bytes`, `advance(n)` — over a `List Nat`
suffix, failing with the opaque byte-source error when the slice is too
short. -/

/-- A byte source: the remaining suffix of the input. -/
abbrev Bytes := List Nat

/-- Modelled from the spec: `BytesLike::peek(offset)` for slices. -/
def peekB (b : Bytes) (i : Nat) : Except JErr Nat :=
  match b.get? i with
  | some v => .ok v
  | none => .error JErr.bytesError

/-- Modelled from the spec: `BytesLike::advance(n)` for slices. -/
def advanceB (b : Bytes) (n : Nat) : Except JErr Bytes :=
  if n ≤ b.length then .ok (b.drop n) else .error JErr.bytesError

/-- Modelled from the spec: `read_byte` (read and consume one byte). -/
def readByteB (b : Bytes) : Except JErr (Nat × Bytes) :=
  match b with
  | [] => .error JErr.bytesError
  | c :: rest => .ok (c, rest)

/-- Modelled from the spec: `read_bytes(n)` (read and consume `n` bytes,
returning the byte count actually read together with them). -/
def readBytesB (b : Bytes) (n : Nat) : Except JErr (List Nat × Bytes) :=
  if n ≤ b.length then .ok (b.take n, b.drop n) else .error JErr.bytesError

/-! ## The string machinery (`string.rs`) -/

/-- Base-2 integer logarithm with structural fuel (8 suffices for any
byte), so that it evaluates by kernel reduction. -/
def log2A : Nat → Nat → Nat
  | 0, _ => 0
  | fuel + 1, n => if n < 2 then 0 else log2A fuel (n / 2) + 1

/-- `non_ascii_utf8_codepoint_len` from `string.rs`:
`((!(b | 0b0100_0000)) | 0b1111).leading_zeros()` on a `u8`, i.e.
`8 - bitlength` of `(255 - (b ||| 64)) ||| 15`. -/
def nonAsciiUtf8CodepointLen (b : Nat) : Nat :=
  8 - (log2A 8 ((255 - (b ||| 64)) ||| 15) + 1)

/-- A UTF-8 continuation byte `0x80 ..= 0xBF`. -/
def isContByte (b : Nat) : Bool := 128 ≤ b && b ≤ 191

/-- Models `core::str::from_utf8` on a 1–4 byte slice followed by taking
the first character's scalar value: standard UTF-8 validation per
RFC 3629 (continuation bytes, no overlong forms, no surrogates, at most
U+10FFFF). -/
def utf8DecodeSeq (bs : List Nat) : Option Nat :=
  match bs with
  | [b0] => if b0 < 128 then some b0 else none
  | [b0, b1] =>
    let v := (b0 - 192) * 64 + (b1 - 128)
    if 192 ≤ b0 ∧ b0 ≤ 223 ∧ isContByte b1 ∧ 128 ≤ v then some v else none
  | [b0, b1, b2] =>
    let v := ((b0 - 224) * 64 + (b1 - 128)) * 64 + (b2 - 128)
    if 224 ≤ b0 ∧ b0 ≤ 239 ∧ isContByte b1 ∧ isContByte b2 ∧ 2048 ≤ v ∧
        ¬(55296 ≤ v ∧ v ≤ 57343) then some v else none
  | [b0, b1, b2, b3] =>
    let v := (((b0 - 240) * 64 + (b1 - 128)) * 64 + (b2 - 128)) * 64 + (b3 - 128)
    if 240 ≤ b0 ∧ b0 ≤ 247 ∧ isContByte b1 ∧ isContByte b2 ∧ isContByte b3 ∧
        65536 ≤ v ∧ v ≤ 1114111 then some v else none
  | _ => none

/-- Peek `n` consecutive bytes starting at offset `i`. -/
def peekSeq (bytes : Bytes) (i : Nat) : Nat → Except JErr (List Nat)
  | 0 => .ok []
  | n + 1 =>
    match peekB bytes i with
    | .error e => .error e
    | .ok b =>
      match peekSeq bytes (i + 1) n with
      | .error e => .error e
      | .ok bs => .ok (b :: bs)

/-- `peek_utf8` from `string.rs`: length when encoded and the scalar value
of the character at byte offset `i`. -/
def peekUtf8 (bytes : Bytes) (i : Nat) : Except JErr (Nat × Nat) :=
  match peekB bytes i with
  | .error e => .error e
  | .ok b0 =>
    if b0 >>> 7 = 0 then .ok (1, b0)
    else
      let len := nonAsciiUtf8CodepointLen b0
      match peekSeq bytes (i + 1) (len - 1) with
      | .error e => .error e
      | .ok rest =>
        match utf8DecodeSeq (b0 :: rest) with
        | none => .error JErr.invalidValue
        | some c => .ok (len, c)

/-- `char::len_utf8` on a scalar value. -/
def charLenUtf8 (c : Nat) : Nat :=
  if c < 128 then 1 else if c < 2048 then 2 else if c < 65536 then 3 else 4

/-- The scan loop of `read_string` in `string.rs`, searching for the byte
offset of the terminating quote.  The two recursive tails specialize the
source's single loop tail to the current value of `escaping` (when
`escaping` is true the `unescaped || escaping || this == '\\'` test passes
trivially, and the next `escaping` value `(!escaping) && (this == '\\')` is
`false`).  Fuel decreases every iteration; each iteration advances `i` by
at least one, so `bytes.length + 1` fuel never runs out (the `0` case
returns `InternalError` and is unreachable from `readString`). -/
def findClose (bytes : Bytes) : Nat → Nat → Bool → Except JErr Nat
  | 0, _, _ => .error JErr.internalError
  | fuel + 1, i, escaping =>
    match peekUtf8 bytes i with
    | .error e => .error e
    | .ok (_, c) =>
      if escaping then
        if ¬(c = 34 ∨ c = 92 ∨ c = 47 ∨ c = 98 ∨ c = 102 ∨ c = 110 ∨
            c = 114 ∨ c = 116 ∨ c = 117) then
          .error JErr.invalidValue
        else
          match
            (if c = 117 then
              match peekB bytes (i + 1), peekB bytes (i + 2), peekB bytes (i + 3),
                peekB bytes (i + 4) with
              | .ok h0, .ok h1, .ok h2, .ok h3 =>
                if validateHex h0 h1 h2 h3 then .ok () else .error JErr.invalidValue
              | .error e, _, _, _ => .error e
              | _, .error e, _, _ => .error e
              | _, _, .error e, _ => .error e
              | _, _, _, .error e => .error e
            else .ok () : Except JErr Unit)
          with
          | .error e => .error e
          | .ok _ => findClose bytes fuel (i + charLenUtf8 c) false
      else if c = 34 then .ok i
      else
        let unescaped := (32 ≤ c ∧ c ≤ 33) ∨ (35 ≤ c ∧ c ≤ 91) ∨
          (93 ≤ c ∧ c ≤ 1114111)
        if ¬(unescaped ∨ c = 92) then .error JErr.invalidValue
        else findClose bytes fuel (i + charLenUtf8 c) (decide (c = 92))

/-- `read_string` from `string.rs`: scan for the terminating quote, read
the string body off the byte source, and advance past the closing `"`.
Returns the body bytes (the `String { len, bytes }` slice) and the byte
source positioned after the string. -/
def readString (bytes : Bytes) : Except JErr (List Nat × Bytes) :=
  match findClose bytes (bytes.length + 1) 0 false with
  | .error e => .error e
  | .ok i =>
    match readBytesB bytes i with
    | .error e => .error e
    | .ok (strBytes, rest) =>
      match advanceB rest 1 with
      | .error e => .error e
      | .ok rest2 => .ok (strBytes, rest2)

/-! ### `UnescapeString` (`string.rs`) -/

/-- The state of `UnescapeString`: the remaining slice of the string body
and the `remaining` byte counter. -/
structure UnescapeState where
  string : List Nat
  remaining : Nat
deriving Repr, DecidableEq

/-- The value of an ASCII hex digit. -/
def hexDigitVal (c : Nat) : Option Nat :=
  if 48 ≤ c ∧ c ≤ 57 then some (c - 48)
  else if 97 ≤ c ∧ c ≤ 102 then some (c - 87)
  else if 65 ≤ c ∧ c ≤ 70 then some (c - 55)
  else none

/-- The `read_hex` closure's parse step: models
`core::str::from_utf8(&hex)` followed by `u16::from_str_radix(hex, 16)`
on four bytes, both failure modes mapped to `InternalError` as in the
source.  (Rust's `from_str_radix` also accepts a leading sign character;
that case is unreachable here because every `\u` escape reaching this
code was validated as four hex digits by `read_string`, and the theorems
below carry hex-digit hypotheses.) -/
def readHexWord (h : List Nat) : Except JErr Nat :=
  match h with
  | [a, b, c, d] =>
    match hexDigitVal a, hexDigitVal b, hexDigitVal c, hexDigitVal d with
    | some x, some y, some z, some w => .ok (((x * 16 + y) * 16 + z) * 16 + w)
    | _, _, _, _ => .error JErr.internalError
  | _ => .error JErr.internalError

/-- `char::from_u32`: `some` exactly for scalar values (below `0x110000`
and not a surrogate). -/
def charFromU32 (v : Nat) : Option Nat :=
  if v < 1114112 ∧ ¬(55296 ≤ v ∧ v ≤ 57343) then some v else none

/-- The low-surrogate stage of `UnescapeString::next` (`string.rs` lines
258–287), over the string slice and `remaining` counter after the
`checked_sub(6)` bookkeeping point: `remaining.checked_sub(6)` (else
`InvalidValue`), `read_hex(true)` (expect `\\u` then four hex bytes), and
`low.checked_sub(0xdc00)` (else `InvalidValue`).  Note the source checks
only the lower bound `0xdc00` on `low`, never the upper bound `0xdfff`. -/
def unescapeLowSurrogate (high : Nat) (str : List Nat) (remaining : Nat) :
    Except JErr Nat × UnescapeState :=
  if remaining < 6 then (.error JErr.invalidValue, ⟨str, remaining⟩)
  else
    match readBytesB str 2 with
    | .error e => (.error e, ⟨str, remaining - 6⟩)
    | .ok (bu, s8) =>
      if bu ≠ [92, 117] then (.error JErr.invalidValue, ⟨s8, remaining - 6⟩)
      else
        match readBytesB s8 4 with
        | .error e => (.error e, ⟨s8, remaining - 6⟩)
        | .ok (hex2, s9) =>
          match readHexWord hex2 with
          | .error e => (.error e, ⟨s9, remaining - 6⟩)
          | .ok low =>
            if low < 56320 then (.error JErr.invalidValue, ⟨s9, remaining - 6⟩)
            else
              match charFromU32 (high + (low - 56320) + 65536) with
              | some cp => (.ok cp, ⟨s9, remaining - 6⟩)
              | none => (.error JErr.invalidValue, ⟨s9, remaining - 6⟩)

/-- The `\u` stage of `UnescapeString::next`: `remaining.checked_sub(4)`
(else `InternalError`), `read_hex(false)`, then either the surrogate-pair
path or the direct `char::from_u32`. -/
def unescapeUnicode (str : List Nat) (remaining : Nat) :
    Except JErr Nat × UnescapeState :=
  if remaining < 4 then (.error JErr.internalError, ⟨str, remaining⟩)
  else
    match readBytesB str 4 with
    | .error e => (.error e, ⟨str, remaining - 4⟩)
    | .ok (hex1, s6) =>
      match readHexWord hex1 with
      | .error e => (.error e, ⟨s6, remaining - 4⟩)
      | .ok next =>
        if 55296 ≤ next ∧ next ≤ 56319 then
          unescapeLowSurrogate ((next - 55296) * 1024) s6 (remaining - 4)
        else
          match charFromU32 next with
          | some cp => (.ok cp, ⟨s6, remaining - 4⟩)
          | none => (.error JErr.invalidValue, ⟨s6, remaining - 4⟩)

/-- The escape dispatch of `UnescapeString::next` (the `match` on the byte
after `\\`). -/
def unescapeEscape (esc : Nat) (str : List Nat) (remaining : Nat) :
    Except JErr Nat × UnescapeState :=
  if esc = 34 then (.ok 34, ⟨str, remaining⟩)
  else if esc = 92 then (.ok 92, ⟨str, remaining⟩)
  else if esc = 47 then (.ok 47, ⟨str, remaining⟩)
  else if esc = 98 then (.ok 8, ⟨str, remaining⟩)
  else if esc = 102 then (.ok 12, ⟨str, remaining⟩)
  else if esc = 110 then (.ok 10, ⟨str, remaining⟩)
  else if esc = 114 then (.ok 13, ⟨str, remaining⟩)
  else if esc = 116 then (.ok 9, ⟨str, remaining⟩)
  else if esc = 117 then unescapeUnicode str remaining
  else (.error JErr.internalError, ⟨str, remaining⟩)

/-- The body of `UnescapeString::next` (`string.rs` lines 197–295): the
inner closure, threading the mutated state.  Returns the yielded scalar
value or the error, together with the state after all mutations. -/
def unescapeNextBody (st : UnescapeState) : Except JErr Nat × UnescapeState :=
  match peekUtf8 st.string 0 with
  | .error e => (.error e, st)
  | .ok (len, c) =>
    -- first `remaining.checked_sub(len).ok_or(InternalError)`, then advance
    if st.remaining < len then (.error JErr.internalError, st)
    else
      match advanceB st.string len with
      | .error e => (.error e, ⟨st.string, st.remaining - len⟩)
      | .ok s2 =>
        if c ≠ 92 then (.ok c, ⟨s2, st.remaining - len⟩)
        else
          -- `remaining.checked_sub(1).ok_or(InternalError)` then `read_byte`
          if st.remaining - len < 1 then
            (.error JErr.internalError, ⟨s2, st.remaining - len⟩)
          else
            match readByteB s2 with
            | .error e => (.error e, ⟨s2, st.remaining - len - 1⟩)
            | .ok (esc, s4) => unescapeEscape esc s4 (st.remaining - len - 1)

/-- `UnescapeString::next` (`string.rs`): `none` once `remaining` is zero;
on an error result, `remaining` is zeroed so all further calls yield
`none`. -/
def unescapeNext (st : UnescapeState) : Option (Except JErr Nat × UnescapeState) :=
  if st.remaining = 0 then none
  else
    match unescapeNextBody st with
    | (.error e, st2) => some (.error e, { st2 with remaining := 0 })
    | (.ok c, st2) => some (.ok c, st2)


/-! ### Reduction lemmas for the byte-source primitives -/

theorem advanceB_cons (c : Nat) (r : List Nat) : advanceB (c :: r) 1 = .ok r := by
  unfold advanceB
  rw [if_pos (by simp)]
  simp

theorem readBytesB_cons2 (a b : Nat) (r : List Nat) :
    readBytesB (a :: b :: r) 2 = .ok ([a, b], r) := by
  unfold readBytesB
  rw [if_pos (by simp)]
  simp

theorem readBytesB_cons4 (a b c d : Nat) (r : List Nat) :
    readBytesB (a :: b :: c :: d :: r) 4 = .ok ([a, b, c, d], r) := by
  unfold readBytesB
  rw [if_pos (by simp)]
  simp

/-- Stepping `UnescapeString::next` over the backslash that begins an
escape: the escape dispatch is reached with two bytes consumed. -/
theorem unescapeNextBody_backslash (e : Nat) (s : List Nat) (r : Nat) (hr : 2 ≤ r) :
    unescapeNextBody ⟨92 :: e :: s, r⟩ = unescapeEscape e s (r - 2) := by
  unfold unescapeNextBody
  rw [show peekUtf8 (92 :: e :: s) 0 = Except.ok (1, 92) from rfl]
  simp only []
  rw [if_neg (show ¬(r < 1) from by omega)]
  rw [advanceB_cons]
  simp only []
  rw [if_neg (show ¬((92 : Nat) ≠ 92) from by simp)]
  rw [if_neg (show ¬(r - 1 < 1) from by omega)]
  rw [show readByteB (e :: s) = Except.ok (e, s) from rfl]
  simp only []
  rw [show r - 1 - 1 = r - 2 from by omega]

/-- Stepping the `\u` stage over four hex bytes that decode to a UTF-16
high surrogate. -/
theorem unescapeUnicode_high (h1 h2 h3 h4 hi : Nat) (s : List Nat) (r : Nat)
    (hr : 4 ≤ r) (hhi : readHexWord [h1, h2, h3, h4] = .ok hi)
    (hhiR : 55296 ≤ hi ∧ hi ≤ 56319) :
    unescapeUnicode (h1 :: h2 :: h3 :: h4 :: s) r =
      unescapeLowSurrogate ((hi - 55296) * 1024) s (r - 4) := by
  unfold unescapeUnicode
  rw [if_neg (show ¬(r < 4) from by omega)]
  rw [readBytesB_cons4]
  simp only []
  rw [hhi]
  simp only []
  rw [if_pos hhiR]

/-- Stepping the low-surrogate stage over a well-formed `\uXXXX` low
surrogate: the combined scalar is produced. -/
theorem unescapeLowSurrogate_ok (high l1 l2 l3 l4 lo : Nat) (tail : List Nat)
    (r : Nat) (hr : 6 ≤ r) (hlo : readHexWord [l1, l2, l3, l4] = .ok lo)
    (hloR : 56320 ≤ lo) (hbound : high + (lo - 56320) + 65536 < 1114112) :
    unescapeLowSurrogate high (92 :: 117 :: l1 :: l2 :: l3 :: l4 :: tail) r =
      (.ok (high + (lo - 56320) + 65536), ⟨tail, r - 6⟩) := by
  unfold unescapeLowSurrogate
  rw [if_neg (show ¬(r < 6) from by omega)]
  rw [readBytesB_cons2]
  simp only []
  rw [if_neg (show ¬([92, 117] ≠ [92, 117]) from by simp)]
  rw [readBytesB_cons4]
  simp only []
  rw [hlo]
  simp only []
  rw [if_neg (show ¬(lo < 56320) from by omega)]
  rw [show charFromU32 (high + (lo - 56320) + 65536) =
    some (high + (lo - 56320) + 65536) from by
      unfold charFromU32
      rw [if_pos (by omega)]]

/-- C4: a `\uXXXX` escape decoding into `0xD800–0xDBFF` immediately
followed by a `\uXXXX` escape decoding into `0xDC00–0xDFFF` yields the
single scalar value `((high - 0xD800) << 10) + (low - 0xDC00) + 0x10000`,
with the twelve escape bytes consumed. -/
theorem unescape_surrogate_pair (h1 h2 h3 h4 l1 l2 l3 l4 hi lo : Nat)
    (tail : List Nat)
    (hhi : readHexWord [h1, h2, h3, h4] = .ok hi)
    (hlo : readHexWord [l1, l2, l3, l4] = .ok lo)
    (hhiR : 55296 ≤ hi ∧ hi ≤ 56319)
    (hloR : 56320 ≤ lo ∧ lo ≤ 57343) :
    unescapeNext ⟨92 :: 117 :: h1 :: h2 :: h3 :: h4 :: 92 :: 117 ::
        l1 :: l2 :: l3 :: l4 :: tail, 12 + tail.length⟩ =
      some (.ok ((hi - 55296) <<< 10 + (lo - 56320) + 65536),
        ⟨tail, tail.length⟩) := by
  unfold unescapeNext
  rw [if_neg (show ¬(12 + tail.length = 0) from by omega)]
  rw [unescapeNextBody_backslash _ _ _ (by omega)]
  unfold unescapeEscape
  rw [if_neg (by norm_num), if_neg (by norm_num), if_neg (by norm_num),
    if_neg (by norm_num), if_neg (by norm_num), if_neg (by norm_num),
    if_neg (by norm_num), if_neg (by norm_num), if_pos rfl]
  rw [show 12 + tail.length - 2 = 10 + tail.length from by omega]
  rw [unescapeUnicode_high _ _ _ _ _ _ _ (by omega) hhi hhiR]
  rw [show 10 + tail.length - 4 = 6 + tail.length from by omega]
  rw [unescapeLowSurrogate_ok _ _ _ _ _ _ _ _ (by omega) hlo hloR.1 (by omega)]
  rw [show 6 + tail.length - 6 = tail.length from by omega]
  rw [Nat.shiftLeft_eq]

/-- Witness for C4: the example from the spec, `"😀"` decoding to
U+1F600. -/
theorem unescape_surrogate_pair_witness :
    readHexWord [100, 56, 51, 100] = .ok 55357 ∧
    unescapeNext ⟨[92, 117, 100, 56, 51, 100, 92, 117, 100, 101, 48, 48], 12⟩ =
      some (.ok 128512, ⟨[], 0⟩) := by
  constructor
  · rfl
  · have h := unescape_surrogate_pair 100 56 51 100 100 101 48 48 55357 56832 []
      rfl rfl (by decide) (by decide)
    norm_num [Nat.shiftLeft_eq] at h
    exact h


/-- After `UnescapeString::next` yields an error, `remaining` is zero and
every further call yields `none` (the iterator is fused on failure). -/
theorem unescapeNext_error_fuses (st : UnescapeState) (e : JErr)
    (st2 : UnescapeState) (h : unescapeNext st = some (.error e, st2)) :
    st2.remaining = 0 ∧ unescapeNext st2 = none := by
  unfold unescapeNext at h
  by_cases h0 : st.remaining = 0
  · rw [if_pos h0] at h
    cases h
  · rw [if_neg h0] at h
    rcases hb : unescapeNextBody st with ⟨res, st3⟩
    rw [hb] at h
    cases res with
    | error e2 =>
      simp only [] at h
      rcases h with ⟨h1, h2⟩
      constructor
      · rfl
      · unfold unescapeNext
        rw [if_pos rfl]
    | ok c2 =>
      simp at h

/-- An unpaired high surrogate at the end of a string body: the iterator
yields `InvalidValue` (the `remaining.checked_sub(6)` failure) and zeroes
`remaining`. -/
theorem unescape_unpaired_high (h1 h2 h3 h4 hi : Nat)
    (hhi : readHexWord [h1, h2, h3, h4] = .ok hi)
    (hhiR : 55296 ≤ hi ∧ hi ≤ 56319) :
    unescapeNext ⟨[92, 117, h1, h2, h3, h4], 6⟩ =
      some (.error JErr.invalidValue, ⟨[], 0⟩) := by
  unfold unescapeNext
  rw [if_neg (by norm_num)]
  rw [show ([92, 117, h1, h2, h3, h4] : List Nat) =
    92 :: 117 :: h1 :: h2 :: h3 :: h4 :: [] from rfl]
  rw [unescapeNextBody_backslash _ _ _ (by omega)]
  unfold unescapeEscape
  rw [if_neg (by norm_num), if_neg (by norm_num), if_neg (by norm_num),
    if_neg (by norm_num), if_neg (by norm_num), if_neg (by norm_num),
    if_neg (by norm_num), if_neg (by norm_num), if_pos rfl]
  rw [show (6 : Nat) - 2 = 4 from rfl]
  rw [unescapeUnicode_high _ _ _ _ _ _ _ (by omega) hhi hhiR]
  rfl

/-- The low-surrogate stage on a `\uXXXX` escape that decodes below
`0xDC00`: the `low.checked_sub(0xdc00)` test fails with `InvalidValue`. -/
theorem unescapeLowSurrogate_low_invalid (high l1 l2 l3 l4 lo : Nat)
    (tail : List Nat) (r : Nat) (hr : 6 ≤ r)
    (hlo : readHexWord [l1, l2, l3, l4] = .ok lo) (hloR : lo < 56320) :
    unescapeLowSurrogate high (92 :: 117 :: l1 :: l2 :: l3 :: l4 :: tail) r =
      (.error JErr.invalidValue, ⟨tail, r - 6⟩) := by
  unfold unescapeLowSurrogate
  rw [if_neg (show ¬(r < 6) from by omega)]
  rw [readBytesB_cons2]
  simp only []
  rw [if_neg (show ¬(([92, 117] : List Nat) ≠ [92, 117]) from by simp)]
  rw [readBytesB_cons4]
  simp only []
  rw [hlo]
  simp only []
  rw [if_pos hloR]

/-- The low-surrogate stage when the next two bytes are not `\u`: the
`&backslash_u != b"\\u"` test fails with `InvalidValue`. -/
theorem unescapeLowSurrogate_bad_bsu (high a b : Nat) (tail : List Nat)
    (r : Nat) (hr : 6 ≤ r) (hab : ¬(a = 92 ∧ b = 117)) :
    unescapeLowSurrogate high (a :: b :: tail) r =
      (.error JErr.invalidValue, ⟨tail, r - 6⟩) := by
  unfold unescapeLowSurrogate
  rw [if_neg (show ¬(r < 6) from by omega)]
  rw [readBytesB_cons2]
  simp only []
  rw [if_pos (by simpa using hab)]

/-- A high surrogate followed by a `\uXXXX` escape decoding below
`0xDC00` (in particular any non-surrogate follower such as `\u0041`):
the iterator yields `InvalidValue` and fuses. -/
theorem unescape_high_bad_low (h1 h2 h3 h4 l1 l2 l3 l4 hi lo : Nat)
    (tail : List Nat)
    (hhi : readHexWord [h1, h2, h3, h4] = .ok hi)
    (hlo : readHexWord [l1, l2, l3, l4] = .ok lo)
    (hhiR : 55296 ≤ hi ∧ hi ≤ 56319)
    (hloR : lo < 56320) :
    unescapeNext ⟨92 :: 117 :: h1 :: h2 :: h3 :: h4 :: 92 :: 117 ::
        l1 :: l2 :: l3 :: l4 :: tail, 12 + tail.length⟩ =
      some (.error JErr.invalidValue, ⟨tail, 0⟩) := by
  unfold unescapeNext
  rw [if_neg (show ¬(12 + tail.length = 0) from by omega)]
  rw [unescapeNextBody_backslash _ _ _ (by omega)]
  unfold unescapeEscape
  rw [if_neg (by norm_num), if_neg (by norm_num), if_neg (by norm_num),
    if_neg (by norm_num), if_neg (by norm_num), if_neg (by norm_num),
    if_neg (by norm_num), if_neg (by norm_num), if_pos rfl]
  rw [show 12 + tail.length - 2 = 10 + tail.length from by omega]
  rw [unescapeUnicode_high _ _ _ _ _ _ _ (by omega) hhi hhiR]
  rw [show 10 + tail.length - 4 = 6 + tail.length from by omega]
  rw [unescapeLowSurrogate_low_invalid _ _ _ _ _ _ _ _ (by omega) hlo hloR]

/-- A high surrogate whose follower is not a `\u` escape, mid-string:
the iterator yields `InvalidValue` and fuses. -/
theorem unescape_high_bad_follower (h1 h2 h3 h4 hi a b : Nat)
    (tail : List Nat)
    (hhi : readHexWord [h1, h2, h3, h4] = .ok hi)
    (hhiR : 55296 ≤ hi ∧ hi ≤ 56319)
    (hab : ¬(a = 92 ∧ b = 117)) (htail : 4 ≤ tail.length) :
    unescapeNext ⟨92 :: 117 :: h1 :: h2 :: h3 :: h4 :: a :: b :: tail,
        8 + tail.length⟩ =
      some (.error JErr.invalidValue, ⟨tail, 0⟩) := by
  unfold unescapeNext
  rw [if_neg (show ¬(8 + tail.length = 0) from by omega)]
  rw [unescapeNextBody_backslash _ _ _ (by omega)]
  unfold unescapeEscape
  rw [if_neg (by norm_num), if_neg (by norm_num), if_neg (by norm_num),
    if_neg (by norm_num), if_neg (by norm_num), if_neg (by norm_num),
    if_neg (by norm_num), if_neg (by norm_num), if_pos rfl]
  rw [show 8 + tail.length - 2 = 6 + tail.length from by omega]
  rw [unescapeUnicode_high _ _ _ _ _ _ _ (by omega) hhi hhiR]
  rw [show 6 + tail.length - 4 = 2 + tail.length from by omega]
  rw [unescapeLowSurrogate_bad_bsu _ _ _ _ _ (by omega) hab]


/-! ## The pull engine (`lib.rs`)

The engine is generic over `S: Stack`; `StackOps` is that trait.  Engine
functions thread the byte source (and stack) through error paths as the
Rust code does via `&mut`: an error return leaves the partially advanced
state in place. -/

/-- The `Stack` trait (`stack/mod.rs`): `spush` returns `none` for the
stack's error (`StackError`, mapped by the engine to `JsonError::StackError`). -/
structure StackOps (σ : Type) where
  empty : σ
  depth : σ → Nat
  speek : σ → Option State
  spop : σ → Option (State × σ)
  spush : σ → State → Option σ

/-- The allocating `impl Stack for Vec<State>` (`stack/mod.rs`): an
unbounded list whose `push` never fails. -/
def listStack : StackOps (List State) where
  empty := []
  depth := List.length
  speek := List.head?
  spop := fun s =>
    match s with
    | [] => none
    | x :: xs => some (x, xs)
  spush := fun s x => some (x :: s)

/-- `impl Stack for ConstStack` (`stack/const.rs`).  `peek`/`pop` return
`none` both for the empty stack and for the storage's `panic!` branch; the
latter is unreachable for entries written through `push` (claim C10). -/
def constStackOps (N : Nat) : StackOps (ConstStack N) where
  empty := ConstStack.empty N
  depth := ConstStack.depth
  speek := ConstStack.peek
  spop := ConstStack.pop
  spush := ConstStack.push

/-- An RFC 8259 whitespace byte (`0x20, 0x09, 0x0A, 0x0D`). -/
def isWsByte (c : Nat) : Bool := c = 32 || c = 9 || c = 10 || c = 13

/-- `advance_whitespace` from `lib.rs`: peek and consume whitespace bytes;
fails (with the byte-source error) only if the bytes run out while
peeking. -/
def advanceWhitespace : Bytes → Except JErr Unit × Bytes
  | [] => (.error JErr.bytesError, [])
  | c :: rest =>
    if isWsByte c then advanceWhitespace rest
    else (.ok (), c :: rest)

/-- `advance_past_comma_or_to_close` from `lib.rs` lines 111–128. -/
def advancePastCommaOrClose (bytes : Bytes) : Except JErr Unit × Bytes :=
  match advanceWhitespace bytes with
  | (.error e, b1) => (.error e, b1)
  | (.ok _, b1) =>
    match peekB b1 0 with
    | .error e => (.error e, b1)
    | .ok c =>
      if c = 44 then
        match advanceB b1 1 with
        | .error e => (.error e, b1)
        | .ok b2 =>
          match advanceWhitespace b2 with
          | (.error e, b3) => (.error e, b3)
          | (.ok _, b3) =>
            match peekB b3 0 with
            | .error e => (.error e, b3)
            | .ok c2 =>
              if c2 = 93 ∨ c2 = 125 then (.error JErr.trailingComma, b3)
              else (.ok (), b3)
      else if c = 93 ∨ c = 125 then (.ok (), b1)
      else (.error JErr.invalidValue, b1)

/-- `as_bool` from `lib.rs` lines 51–74 (pure peeks). -/
def asBool (bytes : Bytes) : Except JErr Bool :=
  match peekB bytes 0 with
  | .error e => .error e
  | .ok first =>
    if ¬(first = 116 ∨ first = 102) then .error JErr.typeError
    else
      match peekB bytes 1 with
      | .error e => .error e
      | .ok second =>
        match peekB bytes 2 with
        | .error e => .error e
        | .ok third =>
          match peekB bytes 3 with
          | .error e => .error e
          | .ok fourth =>
            match peekB bytes 4 with
            | .error e => .error e
            | .ok fifth =>
              let isTrue := first = 116 ∧ second = 114 ∧ third = 117 ∧ fourth = 101
              let isFalse := first = 102 ∧ second = 97 ∧ third = 108 ∧
                fourth = 115 ∧ fifth = 101
              if ¬(isTrue ∨ isFalse) then .error JErr.typeError
              else .ok (decide isTrue)

/-- `is_null` from `lib.rs` lines 76–93 (pure peeks). -/
def isNullF (bytes : Bytes) : Except JErr Bool :=
  match peekB bytes 0 with
  | .error e => .error e
  | .ok first =>
    if first ≠ 110 then .ok false
    else
      match peekB bytes 1 with
      | .error e => .error e
      | .ok second =>
        match peekB bytes 2 with
        | .error e => .error e
        | .ok third =>
          match peekB bytes 3 with
          | .error e => .error e
          | .ok fourth =>
            if ¬(second = 117 ∧ third = 108 ∧ fourth = 108) then
              .error JErr.invalidValue
            else .ok true

/-- Scan a number off the byte list into a `NumberSink`, returning the
sink and the number's byte length (peeking, not consuming).  Failing with
the byte-source error if the bytes run out before a terminator. -/
def numScan (s : NumberSink) : Bytes → Except JErr (NumberSink × Nat)
  | [] => .error JErr.bytesError
  | c :: rest =>
    match s.pushByte c with
    | (false, s2) => .ok (s2, 0)
    | (true, s2) =>
      match numScan s2 rest with
      | .error e => .error e
      | .ok (s3, n) => .ok (s3, n + 1)

/-- Modelled from the spec: `number::is_number_str` for the `BytesLike`
flavor is not under `src/` (the checked-in `number.rs` is the
`Read`-flavored twin, whose `to_number_str` drives the same
`NumberSink::push_byte`).  Per §4.1/§4.2, it validates the immediate
number literal against the RFC 8259 grammar via the sink and reports its
byte length without consuming; a first byte that cannot begin a number is
`TypeError` (so `single_step` falls through to the bool/null checks), and
a malformed literal is `InvalidValue`. -/
def isNumberStr (bytes : Bytes) : Except JErr Nat :=
  match peekB bytes 0 with
  | .error e => .error e
  | .ok c =>
    if ¬(isDigitByte c ∨ c = 45) then .error JErr.typeError
    else
      match numScan NumberSink.new bytes with
      | .error e => .error e
      | .ok (s, len) =>
        if s.strictlyValid then .ok len else .error JErr.invalidValue

/-- `read_string`, rewrapped to thread the byte source through the error
path (`read_string` only peeks before its single consuming step, so on
error the source is unchanged). -/
def readStringT (bytes : Bytes) : Except JErr (List Nat) × Bytes :=
  match readString bytes with
  | .error e => (.error e, bytes)
  | .ok (s, rest) => (.ok s, rest)

/-- `SingleStepResult` from `lib.rs` lines 130–169, with the three nested
enums flattened into one (`Object(Field/Closed)`, `Array(Value/Closed)`,
`Unknown(ObjectOpened/ArrayOpened/String/Advanced)`). -/
inductive StepRes where
  | objectField (key : List Nat)
  | objectClosed
  | arrayValue
  | arrayClosed
  | unknownObjectOpened
  | unknownArrayOpened
  | unknownString (s : List Nat)
  | unknownAdvanced
deriving Repr, DecidableEq

/-- The scalar classification inside `single_step`'s `Unknown` branch: the
`is_number` / `is_bool` / `is_null` sequence, each computed in order with
`TypeError` (resp. `false` for null) treated as "not this kind" and other
errors propagated, combined with `.or`. -/
def classifyScalar (bytes : Bytes) : Except JErr (Option Nat) :=
  let num : Except JErr (Option Nat) :=
    match isNumberStr bytes with
    | .ok len => .ok (some len)
    | .error JErr.typeError => .ok none
    | .error e => .error e
  match num with
  | .error e => .error e
  | .ok num =>
    let bool : Except JErr (Option Nat) :=
      match asBool bytes with
      | .ok value => .ok (some (if value then 4 else 5))
      | .error JErr.typeError => .ok none
      | .error e => .error e
    match bool with
    | .error e => .error e
    | .ok bool =>
      match isNullF bytes with
      | .error e => .error e
      | .ok isNil =>
        .ok (num.or (bool.or (if isNil then some 4 else none)))

/-- `single_step` from `lib.rs` lines 171–293. -/
def singleStep {σ : Type} (ops : StackOps σ) (bytes : Bytes) (stack : σ) :
    Except JErr StepRes × Bytes × σ :=
  match ops.speek stack with
  | none => (.error JErr.internalError, bytes, stack)
  | some State.object =>
    match readByteB bytes with
    | .error e => (.error e, bytes, stack)
    | .ok (next, b1) =>
      if next = 125 then
        match ops.spop stack with
        | none => (.error JErr.internalError, b1, stack)
        | some (_, st1) =>
          if ops.depth st1 ≠ 0 then
            match advancePastCommaOrClose b1 with
            | (.error e, b2) => (.error e, b2, st1)
            | (.ok _, b2) => (.ok .objectClosed, b2, st1)
          else (.ok .objectClosed, b1, st1)
      else if next ≠ 34 then (.error JErr.invalidKey, b1, stack)
      else
        match readStringT b1 with
        | (.error e, b2) => (.error e, b2, stack)
        | (.ok key, b2) =>
          match advanceWhitespace b2 with
          | (.error e, b3) => (.error e, b3, stack)
          | (.ok _, b3) =>
            match readByteB b3 with
            | .error e => (.error e, b3, stack)
            | .ok (colon, b4) =>
              if colon ≠ 58 then (.error JErr.invalidKeyValueDelimiter, b4, stack)
              else
                match advanceWhitespace b4 with
                | (.error e, b5) => (.error e, b5, stack)
                | (.ok _, b5) =>
                  match ops.spush stack State.unknown with
                  | none => (.error JErr.stackError, b5, stack)
                  | some st1 => (.ok (.objectField key), b5, st1)
  | some State.array =>
    match peekB bytes 0 with
    | .error e => (.error e, bytes, stack)
    | .ok c =>
      if c = 93 then
        match ops.spop stack with
        | none => (.error JErr.internalError, bytes, stack)
        | some (_, st1) =>
          match advanceB bytes 1 with
          | .error e => (.error e, bytes, st1)
          | .ok b1 =>
            if ops.depth st1 ≠ 0 then
              match advancePastCommaOrClose b1 with
              | (.error e, b2) => (.error e, b2, st1)
              | (.ok _, b2) => (.ok .arrayClosed, b2, st1)
            else (.ok .arrayClosed, b1, st1)
      else
        match ops.spush stack State.unknown with
        | none => (.error JErr.stackError, bytes, stack)
        | some st1 => (.ok .arrayValue, bytes, st1)
  | some State.unknown =>
    match ops.spop stack with
    | none => (.error JErr.internalError, bytes, stack)
    | some (_, st1) =>
      match peekB bytes 0 with
      | .error e => (.error e, bytes, st1)
      | .ok c =>
        if c = 123 then
          match advanceB bytes 1 with
          | .error e => (.error e, bytes, st1)
          | .ok b1 =>
            match advanceWhitespace b1 with
            | (.error e, b2) => (.error e, b2, st1)
            | (.ok _, b2) =>
              match ops.spush st1 State.object with
              | none => (.error JErr.stackError, b2, st1)
              | some st2 => (.ok .unknownObjectOpened, b2, st2)
        else if c = 91 then
          match advanceB bytes 1 with
          | .error e => (.error e, bytes, st1)
          | .ok b1 =>
            match advanceWhitespace b1 with
            | (.error e, b2) => (.error e, b2, st1)
            | (.ok _, b2) =>
              match ops.spush st1 State.array with
              | none => (.error JErr.stackError, b2, st1)
              | some st2 => (.ok .unknownArrayOpened, b2, st2)
        else if c = 34 then
          match advanceB bytes 1 with
          | .error e => (.error e, bytes, st1)
          | .ok b1 =>
            match readStringT b1 with
            | (.error e, b2) => (.error e, b2, st1)
            | (.ok s, b2) =>
              match advancePastCommaOrClose b2 with
              | (.error e, b3) => (.error e, b3, st1)
              | (.ok _, b3) => (.ok (.unknownString s), b3, st1)
        else
          match classifyScalar bytes with
          | .error e => (.error e, bytes, st1)
          | .ok none => (.error JErr.invalidValue, bytes, st1)
          | .ok (some len) =>
            match advanceB bytes len with
            | .error e => (.error e, bytes, st1)
            | .ok b1 =>
              match advancePastCommaOrClose b1 with
              | (.error e, b2) => (.error e, b2, st1)
              | (.ok _, b2) => (.ok .unknownAdvanced, b2, st1)


/-- `Deserializer` from `lib.rs` lines 295–305: byte source, stack, and
the frozen-error slot filled by `Drop` implementations. -/
structure Deser (σ : Type) where
  bytes : Bytes
  stack : σ
  error : Option JErr

/-- The depth-counting skip loop inside `impl Drop for Value` (`lib.rs`
lines 353–370): run `single_step` until the open/close depth returns to
zero, caching any error in the deserializer's error slot.  Fuel decreases
each iteration; `none` means fuel ran out (unreachable with the default
fuel, see `muDeser` lemmas). -/
def dropLoop {σ : Type} (ops : StackOps σ) : Nat → Nat → Deser σ → Option (Deser σ)
  | _, 0, d => some d
  | 0, _ + 1, _ => none
  | fuel + 1, depth + 1, d =>
    match singleStep ops d.bytes d.stack with
    | (.error e, b, st) => some ⟨b, st, some e⟩
    | (.ok res, b, st) =>
      match res with
      | .objectClosed => dropLoop ops fuel depth ⟨b, st, none⟩
      | .arrayClosed => dropLoop ops fuel depth ⟨b, st, none⟩
      | .unknownObjectOpened => dropLoop ops fuel (depth + 2) ⟨b, st, none⟩
      | .unknownArrayOpened => dropLoop ops fuel (depth + 2) ⟨b, st, none⟩
      | _ => dropLoop ops fuel (depth + 1) ⟨b, st, none⟩

/-- The default fuel for the skip loops: every `single_step` consumes at
least one byte or moves the stack top off `Array`, so the loops run at
most `2 * bytes + 3` iterations before closing, erroring, or exhausting
the source. -/
def defaultFuel (bytes : Bytes) : Nat := 2 * bytes.length + 3

/-- `impl Drop for Value` (`lib.rs` lines 313–373): skip the unconsumed
value, caching errors in the deserializer.  If the error slot is already
filled, nothing happens. -/
def dropValue {σ : Type} (ops : StackOps σ) (d : Deser σ) : Deser σ :=
  if d.error.isSome then d
  else
    match ops.speek d.stack with
    | none => { d with error := some JErr.internalError }
    | some State.object =>
      (dropLoop ops (defaultFuel d.bytes) 1 d).getD { d with error := some JErr.internalError }
    | some State.array =>
      (dropLoop ops (defaultFuel d.bytes) 1 d).getD { d with error := some JErr.internalError }
    | some State.unknown =>
      match singleStep ops d.bytes d.stack with
      | (.error e, b, st) => ⟨b, st, some e⟩
      | (.ok res, b, st) =>
        match res with
        | .unknownString _ => ⟨b, st, none⟩
        | .unknownAdvanced => ⟨b, st, none⟩
        | .unknownObjectOpened =>
          (dropLoop ops (defaultFuel b) 1 ⟨b, st, none⟩).getD
            ⟨b, st, some JErr.internalError⟩
        | .unknownArrayOpened =>
          (dropLoop ops (defaultFuel b) 1 ⟨b, st, none⟩).getD
            ⟨b, st, some JErr.internalError⟩
        | _ => ⟨b, st, some JErr.internalError⟩

/-- `FieldIterator::next` (`lib.rs` lines 454–493): re-return a cached
error; `none` once the object closed (popping the stack); otherwise one
`single_step`, yielding the field's raw key bytes (wrapped into an
`UnescapeString` by the caller) with the deserializer positioned at the
field's value (stack top `Unknown`).  Note an error from `single_step` is
returned but *not* written to the error slot. -/
def fieldNext {σ : Type} (ops : StackOps σ) (d : Deser σ) (done : Bool) :
    Option (Except JErr (List Nat)) × Deser σ × Bool :=
  match d.error with
  | some e => (some (.error e), d, done)
  | none =>
    if done then (none, d, done)
    else
      match singleStep ops d.bytes d.stack with
      | (.error e, b, st) => (some (.error e), ⟨b, st, none⟩, done)
      | (.ok (.objectField key), b, st) => (some (.ok key), ⟨b, st, none⟩, done)
      | (.ok .objectClosed, b, st) => (none, ⟨b, st, none⟩, true)
      | (.ok _, b, st) => (some (.error JErr.internalError), ⟨b, st, none⟩, done)

/-- `ArrayIterator::next` (`lib.rs` lines 538–564), same shape without a
key. -/
def arrayNext {σ : Type} (ops : StackOps σ) (d : Deser σ) (done : Bool) :
    Option (Except JErr Unit) × Deser σ × Bool :=
  match d.error with
  | some e => (some (.error e), d, done)
  | none =>
    if done then (none, d, done)
    else
      match singleStep ops d.bytes d.stack with
      | (.error e, b, st) => (some (.error e), ⟨b, st, none⟩, done)
      | (.ok .arrayValue, b, st) => (some (.ok ()), ⟨b, st, none⟩, done)
      | (.ok .arrayClosed, b, st) => (none, ⟨b, st, none⟩, true)
      | (.ok _, b, st) => (some (.error JErr.internalError), ⟨b, st, none⟩, done)

/-- The loop in `impl Drop for FieldIterator` (`lib.rs` lines 416–432):
call `next` until `None`, dropping each yielded value (which skips it);
an error is cached and stops the loop. -/
def fieldIterDropLoop {σ : Type} (ops : StackOps σ) :
    Nat → Deser σ → Bool → Deser σ
  | 0, d, _ => d
  | fuel + 1, d, done =>
    match fieldNext ops d done with
    | (none, d2, _) => d2
    | (some (.error e), d2, _) => { d2 with error := some e }
    | (some (.ok _), d2, done2) => fieldIterDropLoop ops fuel (dropValue ops d2) done2

/-- `impl Drop for FieldIterator`: no-op when an error is cached. -/
def fieldIterDrop {σ : Type} (ops : StackOps σ) (d : Deser σ) (done : Bool) :
    Deser σ :=
  if d.error.isSome then d
  else fieldIterDropLoop ops (defaultFuel d.bytes) d done

/-- The loop in `impl Drop for ArrayIterator` (`lib.rs` lines 507–523). -/
def arrayIterDropLoop {σ : Type} (ops : StackOps σ) :
    Nat → Deser σ → Bool → Deser σ
  | 0, d, _ => d
  | fuel + 1, d, done =>
    match arrayNext ops d done with
    | (none, d2, _) => d2
    | (some (.error e), d2, _) => { d2 with error := some e }
    | (some (.ok _), d2, done2) => arrayIterDropLoop ops fuel (dropValue ops d2) done2

/-- `impl Drop for ArrayIterator`: no-op when an error is cached. -/
def arrayIterDrop {σ : Type} (ops : StackOps σ) (d : Deser σ) (done : Bool) :
    Deser σ :=
  if d.error.isSome then d
  else arrayIterDropLoop ops (defaultFuel d.bytes) d done

/-- `Value::is_object` (a pure peek). -/
def isObjectV {σ : Type} (d : Deser σ) : Except JErr Bool :=
  match peekB d.bytes 0 with
  | .error e => .error e
  | .ok c => .ok (decide (c = 123))

/-- `Value::is_array` (a pure peek). -/
def isArrayV {σ : Type} (d : Deser σ) : Except JErr Bool :=
  match peekB d.bytes 0 with
  | .error e => .error e
  | .ok c => .ok (decide (c = 91))

/-- `Value::fields` (`lib.rs` lines 586–598): re-raise a cached error,
else one `single_step`; `Ok` means a `FieldIterator { done: false }` was
created.  On a non-`ObjectOpened` result the step's mutations persist and
`TypeError` is returned (not cached). -/
def valueFields {σ : Type} (ops : StackOps σ) (d : Deser σ) :
    Except JErr Unit × Deser σ :=
  match d.error with
  | some e => (.error e, d)
  | none =>
    match singleStep ops d.bytes d.stack with
    | (.error e, b, st) => (.error e, ⟨b, st, none⟩)
    | (.ok .unknownObjectOpened, b, st) => (.ok (), ⟨b, st, none⟩)
    | (.ok _, b, st) => (.error JErr.typeError, ⟨b, st, none⟩)

/-- `Value::iterate` (`lib.rs` lines 616–630). -/
def valueIterate {σ : Type} (ops : StackOps σ) (d : Deser σ) :
    Except JErr Unit × Deser σ :=
  match d.error with
  | some e => (.error e, d)
  | none =>
    match singleStep ops d.bytes d.stack with
    | (.error e, b, st) => (.error e, ⟨b, st, none⟩)
    | (.ok .unknownArrayOpened, b, st) => (.ok (), ⟨b, st, none⟩)
    | (.ok _, b, st) => (.error JErr.typeError, ⟨b, st, none⟩)

/-- `Value::to_str` (`lib.rs` lines 656–670): one `single_step`; a
`String` result yields the `UnescapeString` over the raw body.  There is
no cached-error check here, and errors are not cached; the error slot is
left as it was. -/
def valueToStr {σ : Type} (ops : StackOps σ) (d : Deser σ) :
    Except JErr UnescapeState × Deser σ :=
  match singleStep ops d.bytes d.stack with
  | (.error e, b, st) => (.error e, ⟨b, st, d.error⟩)
  | (.ok (.unknownString s), b, st) => (.ok ⟨s, s.length⟩, ⟨b, st, d.error⟩)
  | (.ok _, b, st) => (.error JErr.typeError, ⟨b, st, d.error⟩)

/-- `Deserializer::new` (`lib.rs` lines 376–384): skip leading
whitespace, push `Unknown`. -/
def newDeser {σ : Type} (ops : StackOps σ) (bytes : Bytes) :
    Except JErr (Deser σ) :=
  match advanceWhitespace bytes with
  | (.error e, _) => .error e
  | (.ok _, b1) =>
    match ops.spush ops.empty State.unknown with
    | none => .error JErr.stackError
    | some st => .ok ⟨b1, st, none⟩

/-- `Deserializer::value` (`lib.rs` lines 392–403): `ReusedDeserializer`
unless the stack depth is exactly 1; then the root must look like an
object or array.  On the failing paths the freshly created `Value` is
dropped, which skips the value (`dropValue`). -/
def deserValue {σ : Type} (ops : StackOps σ) (d : Deser σ) :
    Except JErr Unit × Deser σ :=
  if ops.depth d.stack ≠ 1 then (.error JErr.reusedDeserializer, d)
  else
    match isObjectV d with
    | .error e => (.error e, dropValue ops d)
    | .ok true => (.ok (), d)
    | .ok false =>
      match isArrayV d with
      | .error e => (.error e, dropValue ops d)
      | .ok true => (.ok (), d)
      | .ok false => (.error JErr.typeError, dropValue ops d)


/-- Skipping a run of RFC 8259 whitespace stops at the first
non-whitespace byte. -/
theorem advanceWhitespace_run (w : List Nat) (hw : ∀ c ∈ w, isWsByte c)
    (b : Nat) (hb : isWsByte b = false) (rest : List Nat) :
    advanceWhitespace (w ++ b :: rest) = (.ok (), b :: rest) := by
  induction w with
  | nil =>
    unfold advanceWhitespace
    simp only [List.nil_append]
    rw [if_neg (by simp [hb])]
  | cons c w ih =>
    unfold advanceWhitespace
    simp only [List.cons_append]
    rw [if_pos (by simp [hw c (by simp)])]
    exact ih fun x hx => hw x (by simp [hx])

/-- C3: the "trailing comma-or-close" routine.  After leading whitespace:
a `,` is consumed together with the whitespace after it, and the parse
fails with `TrailingComma` exactly when the byte then seen is `]` or `}`;
without a comma the next byte must be `]` or `}` (left unconsumed) or the
routine fails with `InvalidValue`.  And on the input `{"a":1,}`, the parse
(obtain the root value, its field iterator, the field `"a"`, then dispose
the field's value) caches exactly `TrailingComma`. -/
theorem advancePastCommaOrClose_spec :
    (∀ w1 w2 b rest, (∀ c ∈ w1, isWsByte c) → (∀ c ∈ w2, isWsByte c) →
      isWsByte b = false →
      advancePastCommaOrClose (w1 ++ 44 :: (w2 ++ b :: rest)) =
        (if b = 93 ∨ b = 125 then (.error JErr.trailingComma, b :: rest)
          else (.ok (), b :: rest))) ∧
    (∀ w1 b rest, (∀ c ∈ w1, isWsByte c) → (b = 93 ∨ b = 125) →
      advancePastCommaOrClose (w1 ++ b :: rest) = (.ok (), b :: rest)) ∧
    (∀ w1 b rest, (∀ c ∈ w1, isWsByte c) → isWsByte b = false → b ≠ 44 →
      b ≠ 93 → b ≠ 125 →
      advancePastCommaOrClose (w1 ++ b :: rest) =
        (.error JErr.invalidValue, b :: rest)) ∧
    (newDeser listStack [123, 34, 97, 34, 58, 49, 44, 125] =
        .ok ⟨[123, 34, 97, 34, 58, 49, 44, 125], [State.unknown], none⟩ ∧
      deserValue listStack ⟨[123, 34, 97, 34, 58, 49, 44, 125], [State.unknown], none⟩ =
        (.ok (), ⟨[123, 34, 97, 34, 58, 49, 44, 125], [State.unknown], none⟩) ∧
      valueFields listStack ⟨[123, 34, 97, 34, 58, 49, 44, 125], [State.unknown], none⟩ =
        (.ok (), ⟨[34, 97, 34, 58, 49, 44, 125], [State.object], none⟩) ∧
      fieldNext listStack ⟨[34, 97, 34, 58, 49, 44, 125], [State.object], none⟩ false =
        (some (.ok [97]), ⟨[49, 44, 125], [State.unknown, State.object], none⟩, false) ∧
      dropValue listStack ⟨[49, 44, 125], [State.unknown, State.object], none⟩ =
        ⟨[125], [State.object], some JErr.trailingComma⟩) := by
  refine ⟨?_, ?_, ?_, by rfl, by rfl, by rfl, by rfl, by rfl⟩
  · intro w1 w2 b rest hw1 hw2 hb
    unfold advancePastCommaOrClose
    rw [advanceWhitespace_run w1 hw1 44 (by decide) _]
    simp only []
    rw [show peekB (44 :: (w2 ++ b :: rest)) 0 = .ok 44 from rfl]
    simp only []
    rw [if_pos trivial]
    rw [advanceB_cons]
    simp only []
    rw [advanceWhitespace_run w2 hw2 b hb rest]
    simp only []
    rw [show peekB (b :: rest) 0 = .ok b from rfl]
  · intro w1 b rest hw1 hb
    unfold advancePastCommaOrClose
    rw [advanceWhitespace_run w1 hw1 b (by rcases hb with h | h <;> simp [h, isWsByte]) rest]
    simp only []
    rw [show peekB (b :: rest) 0 = .ok b from rfl]
    simp only []
    rw [if_neg (by rcases hb with h | h <;> omega), if_pos hb]
  · intro w1 b rest hw1 hb h44 h93 h125
    unfold advancePastCommaOrClose
    rw [advanceWhitespace_run w1 hw1 b hb rest]
    simp only []
    rw [show peekB (b :: rest) 0 = .ok b from rfl]
    simp only []
    rw [if_neg h44, if_neg (by simp [h93, h125])]

/-- Witness for C3: the comma case applied at a single space of leading
whitespace and an immediate `}`. -/
theorem advancePastCommaOrClose_spec_witness :
    advancePastCommaOrClose ([32] ++ 44 :: ([] ++ 125 :: [])) =
      (if (125 : Nat) = 93 ∨ (125 : Nat) = 125
        then (.error JErr.trailingComma, 125 :: ([] : List Nat))
        else (.ok (), 125 :: ([] : List Nat))) :=
  advancePastCommaOrClose_spec.1 [32] [] 125 [] (by decide) (by decide) (by decide)

/-- C8: `Deserializer::value`.  When the stack depth is not exactly 1 it
fails with `ReusedDeserializer` without touching the state; with depth 1
it succeeds exactly when the next byte opens an object (`{`) or an array
(`[`), and any other next byte yields `TypeError`.  Concretely, on
`[true]` the root value is produced once and, after the value is
consumed, a second call fails with `ReusedDeserializer`; the bare scalar
`5` is rejected with `TypeError`. -/
theorem deserValue_spec :
    (∀ (σ : Type) (ops : StackOps σ) (d : Deser σ), ops.depth d.stack ≠ 1 →
      deserValue ops d = (.error JErr.reusedDeserializer, d)) ∧
    (∀ (σ : Type) (ops : StackOps σ) (d : Deser σ) (c : Nat),
      ops.depth d.stack = 1 → peekB d.bytes 0 = .ok c →
      (c = 123 ∨ c = 91) → deserValue ops d = (.ok (), d)) ∧
    (∀ (σ : Type) (ops : StackOps σ) (d : Deser σ) (c : Nat),
      ops.depth d.stack = 1 → peekB d.bytes 0 = .ok c →
      c ≠ 123 → c ≠ 91 → (deserValue ops d).1 = .error JErr.typeError) ∧
    (newDeser listStack [91, 116, 114, 117, 101, 93] =
        .ok ⟨[91, 116, 114, 117, 101, 93], [State.unknown], none⟩ ∧
      deserValue listStack ⟨[91, 116, 114, 117, 101, 93], [State.unknown], none⟩ =
        (.ok (), ⟨[91, 116, 114, 117, 101, 93], [State.unknown], none⟩) ∧
      dropValue listStack ⟨[91, 116, 114, 117, 101, 93], [State.unknown], none⟩ =
        ⟨[], [], none⟩ ∧
      deserValue listStack (⟨[], [], none⟩ : Deser (List State)) =
        (.error JErr.reusedDeserializer, ⟨[], [], none⟩) ∧
      newDeser listStack [53] = .ok ⟨[53], [State.unknown], none⟩ ∧
      (deserValue listStack ⟨[53], [State.unknown], none⟩).1 =
        .error JErr.typeError) := by
  refine ⟨?_, ?_, ?_, by rfl, by rfl, by rfl, by rfl, by rfl, by rfl⟩
  · intro σ ops d h
    unfold deserValue
    rw [if_pos h]
  · intro σ ops d c h1 hp hc
    unfold deserValue
    rw [if_neg (by simp [h1])]
    rcases hc with rfl | rfl
    · rw [show isObjectV d = .ok true from by unfold isObjectV; rw [hp]; rfl]
    · rw [show isObjectV d = .ok false from by unfold isObjectV; rw [hp]; rfl]
      simp only []
      rw [show isArrayV d = .ok true from by unfold isArrayV; rw [hp]; rfl]
  · intro σ ops d c h1 hp h123 h91
    unfold deserValue
    rw [if_neg (by simp [h1])]
    rw [show isObjectV d = .ok false from by
      unfold isObjectV; rw [hp]; simp [h123]]
    simp only []
    rw [show isArrayV d = .ok false from by
      unfold isArrayV; rw [hp]; simp [h91]]

/-- Witness for C8: the fresh-deserializer success case applied at the
two-byte document `{}`. -/
theorem deserValue_spec_witness :
    deserValue listStack ⟨[123, 125], [State.unknown], none⟩ =
      (.ok (), ⟨[123, 125], [State.unknown], none⟩) :=
  deserValue_spec.2.1 (List State) listStack
    ⟨[123, 125], [State.unknown], none⟩ 123 rfl rfl (Or.inl rfl)

/-- C6 counterexample: on the document `{5}` the field iterator returns
`InvalidKey`, but the sync engine does not cache it — the error slot
stays `none` — and the very next call performs further byte-source reads
(consuming the `}`) and returns `none` (end of object) instead of
re-returning the error. -/
theorem fieldNext_error_not_cached :
    newDeser listStack [123, 53, 125] =
      .ok ⟨[123, 53, 125], [State.unknown], none⟩ ∧
    valueFields listStack ⟨[123, 53, 125], [State.unknown], none⟩ =
      (.ok (), ⟨[53, 125], [State.object], none⟩) ∧
    fieldNext listStack ⟨[53, 125], [State.object], none⟩ false =
      (some (.error JErr.invalidKey), ⟨[125], [State.object], none⟩, false) ∧
    fieldNext listStack ⟨[125], [State.object], none⟩ false =
      (none, ⟨[], [], none⟩, true) := ⟨rfl, rfl, rfl, rfl⟩

/-- C6 (corrected): in the sync engine only the disposal paths write the
error slot, and only the slot-checking operations re-return it.  An
error already cached in the slot is re-returned by `FieldIterator::next`,
`ArrayIterator::next`, `Value::fields` and `Value::iterate` with the
deserializer returned unchanged — in particular with no byte-source
access — and the disposal operations become no-ops.  Whenever the
disposal loop's automaton step fails, that error is cached.  Operations
outside these never consult the slot: concretely, after dropping the
root of `[5{` caches `BytesError`, both `Deserializer::value` and
`Value::to_str` still run their own byte inspection and return
`TypeError` (the latter also mutating the stack) instead of re-returning
the cached error.  Errors returned directly by the iterators' `next` are
not cached either (see the counterexample above). -/
theorem error_caching_spec :
    (∀ (σ : Type) (ops : StackOps σ) (d : Deser σ) (e : JErr) (done : Bool),
      d.error = some e →
      fieldNext ops d done = (some (.error e), d, done) ∧
      arrayNext ops d done = (some (.error e), d, done) ∧
      valueFields ops d = (.error e, d) ∧
      valueIterate ops d = (.error e, d) ∧
      dropValue ops d = d ∧
      fieldIterDrop ops d done = d ∧
      arrayIterDrop ops d done = d) ∧
    (∀ (σ : Type) (ops : StackOps σ) (fuel depth : Nat) (d : Deser σ)
      (e : JErr) (b : Bytes) (st : σ),
      singleStep ops d.bytes d.stack = (.error e, b, st) →
      dropLoop ops (fuel + 1) (depth + 1) d = some ⟨b, st, some e⟩) ∧
    (newDeser listStack [91, 53, 123] =
        .ok ⟨[91, 53, 123], [State.unknown], none⟩ ∧
      dropValue listStack ⟨[91, 53, 123], [State.unknown], none⟩ =
        ⟨[53, 123], [State.array], some JErr.bytesError⟩ ∧
      deserValue listStack ⟨[53, 123], [State.array], some JErr.bytesError⟩ =
        (.error JErr.typeError,
          ⟨[53, 123], [State.array], some JErr.bytesError⟩) ∧
      valueToStr listStack ⟨[53, 123], [State.array], some JErr.bytesError⟩ =
        (.error JErr.typeError,
          ⟨[53, 123], [State.unknown, State.array],
            some JErr.bytesError⟩)) := by
  refine ⟨?mA, ?mB, by rfl, by rfl, by rfl, by rfl⟩
  case mA =>
    intro σ ops d e done h
    refine ⟨?_, ?_, ?_, ?_, ?_, ?_, ?_⟩
    · unfold fieldNext; rw [h]
    · unfold arrayNext; rw [h]
    · unfold valueFields; rw [h]
    · unfold valueIterate; rw [h]
    · unfold dropValue; rw [h]; rfl
    · unfold fieldIterDrop; rw [h]; rfl
    · unfold arrayIterDrop; rw [h]; rfl
  case mB =>
    intro σ ops fuel depth d e b st h
    unfold dropLoop
    rw [h]

/-- Witness for C6: a cached `InvalidValue` is re-returned by the field
iterator on an untouched deserializer. -/
theorem error_caching_spec_witness :
    fieldNext listStack ⟨[48], [], some JErr.invalidValue⟩ false =
      (some (.error JErr.invalidValue),
        ⟨[48], [], some JErr.invalidValue⟩, false) :=
  (error_caching_spec.1 (List State) listStack
    ⟨[48], [], some JErr.invalidValue⟩ JErr.invalidValue false rfl).1

/-- C5 counterexample: the string body `\ud800￿` — a high surrogate
followed by `￿`, which is *not* a low surrogate (`0xFFFF > 0xDFFF`)
— does not fail: the decoder only checks the lower bound `0xDC00` on the
second escape and yields the scalar `0x123FF` (74751). -/
theorem unescape_high_followed_by_nonlow :
    unescapeNext ⟨[92, 117, 100, 56, 48, 48, 92, 117, 102, 102, 102, 102], 12⟩ =
      some (.ok 74751, ⟨[], 0⟩) ∧
    ¬(56320 ≤ 65535 ∧ (65535 : Nat) ≤ 57343) := ⟨rfl, by decide⟩

/-- C5 (corrected): an error from the string decoder fuses only that
string's character iterator — it yields one error with `remaining` zeroed
and every further call yields `none`.  A high surrogate with no following
escape yields a single `InvalidValue`; so does a high surrogate followed
by a `\uXXXX` escape decoding below `0xDC00`, and a high surrogate whose
mid-string follower is not a `\u` escape at all.  The failure does not
poison the deserializer: parsing `["\ud800",true]`, obtaining the raw
string body, failing to decode it, and continuing the array reaches
`true` and the clean end of the array with the error slot still empty.
(The source does not check the upper bound `0xDFFF` on the second escape;
a value above it there is wrongly accepted, see the counterexample
above.) -/
theorem unescape_unpaired_surrogate_spec :
    (∀ (st : UnescapeState) (e : JErr) (st2 : UnescapeState),
      unescapeNext st = some (.error e, st2) →
      st2.remaining = 0 ∧ unescapeNext st2 = none) ∧
    (∀ h1 h2 h3 h4 hi : Nat, readHexWord [h1, h2, h3, h4] = .ok hi →
      55296 ≤ hi ∧ hi ≤ 56319 →
      unescapeNext ⟨[92, 117, h1, h2, h3, h4], 6⟩ =
        some (.error JErr.invalidValue, ⟨[], 0⟩)) ∧
    (valueIterate listStack
        ⟨[91, 34, 92, 117, 100, 56, 48, 48, 34, 44, 116, 114, 117, 101, 93],
          [State.unknown], none⟩ =
       (.ok (), ⟨[34, 92, 117, 100, 56, 48, 48, 34, 44, 116, 114, 117, 101, 93],
          [State.array], none⟩) ∧
     arrayNext listStack
        ⟨[34, 92, 117, 100, 56, 48, 48, 34, 44, 116, 114, 117, 101, 93],
          [State.array], none⟩ false =
       (some (.ok ()),
        ⟨[34, 92, 117, 100, 56, 48, 48, 34, 44, 116, 114, 117, 101, 93],
          [State.unknown, State.array], none⟩, false) ∧
     valueToStr listStack
        ⟨[34, 92, 117, 100, 56, 48, 48, 34, 44, 116, 114, 117, 101, 93],
          [State.unknown, State.array], none⟩ =
       (.ok ⟨[92, 117, 100, 56, 48, 48], 6⟩,
        ⟨[116, 114, 117, 101, 93], [State.array], none⟩) ∧
     unescapeNext ⟨[92, 117, 100, 56, 48, 48], 6⟩ =
       some (.error JErr.invalidValue, ⟨[], 0⟩) ∧
     unescapeNext ⟨[], 0⟩ = none ∧
     arrayNext listStack ⟨[116, 114, 117, 101, 93], [State.array], none⟩ false =
       (some (.ok ()),
        ⟨[116, 114, 117, 101, 93], [State.unknown, State.array], none⟩, false) ∧
     dropValue listStack
        ⟨[116, 114, 117, 101, 93], [State.unknown, State.array], none⟩ =
       ⟨[93], [State.array], none⟩ ∧
     arrayNext listStack ⟨[93], [State.array], none⟩ false =
       (none, ⟨[], [], none⟩, true)) ∧
    (∀ h1 h2 h3 h4 l1 l2 l3 l4 hi lo : Nat, ∀ tail : List Nat,
      readHexWord [h1, h2, h3, h4] = .ok hi →
      readHexWord [l1, l2, l3, l4] = .ok lo →
      55296 ≤ hi ∧ hi ≤ 56319 → lo < 56320 →
      unescapeNext ⟨92 :: 117 :: h1 :: h2 :: h3 :: h4 :: 92 :: 117 ::
          l1 :: l2 :: l3 :: l4 :: tail, 12 + tail.length⟩ =
        some (.error JErr.invalidValue, ⟨tail, 0⟩)) ∧
    (∀ h1 h2 h3 h4 hi a b : Nat, ∀ tail : List Nat,
      readHexWord [h1, h2, h3, h4] = .ok hi →
      55296 ≤ hi ∧ hi ≤ 56319 → ¬(a = 92 ∧ b = 117) → 4 ≤ tail.length →
      unescapeNext ⟨92 :: 117 :: h1 :: h2 :: h3 :: h4 :: a :: b :: tail,
          8 + tail.length⟩ =
        some (.error JErr.invalidValue, ⟨tail, 0⟩)) := by
  refine ⟨unescapeNext_error_fuses, unescape_unpaired_high,
    ⟨by rfl, by rfl, by rfl, by rfl, by rfl, by rfl, by rfl, by rfl⟩,
    unescape_high_bad_low, unescape_high_bad_follower⟩

/-- Witness for C5: the fused-on-error clause applied to the concrete
failing decode of `\ud800`. -/
theorem unescape_unpaired_surrogate_spec_witness :
    (⟨[], 0⟩ : UnescapeState).remaining = 0 ∧ unescapeNext ⟨[], 0⟩ = none :=
  unescape_unpaired_surrogate_spec.1 ⟨[92, 117, 100, 56, 48, 48], 6⟩
    JErr.invalidValue ⟨[], 0⟩ rfl

/-- Whitespace skipping is a no-op on a non-whitespace head byte. -/
theorem advanceWhitespace_nonWs (b : Nat) (hb : isWsByte b = false)
    (rest : List Nat) : advanceWhitespace (b :: rest) = (.ok (), b :: rest) := by
  unfold advanceWhitespace
  rw [if_neg (by simp [hb])]

/-- `PackedStates.set` keeps the byte-array length. -/
theorem PackedStates.set_length (items : List Nat) (i : Nat) (st : State) :
    (PackedStates.set items i st).length = items.length := by
  unfold PackedStates.set
  simp

/-- `PackedStates.set` keeps every entry a byte. -/
theorem PackedStates.set_bytes_lt (items : List Nat) (i : Nat) (st : State)
    (hb : ∀ b ∈ items, b < 256) (hrange : i / 4 < items.length) :
    ∀ b ∈ PackedStates.set items i st, b < 256 := by
  intro b hbm
  unfold PackedStates.set at hbm
  rcases List.mem_or_eq_of_mem_set hbm with h | h
  · exact hb _ h
  · have hold : items.getD (i / 4) 0 < 256 := by
      have hmem : items.getD (i / 4) 0 ∈ items := by
        rw [List.getD_eq_getElem?_getD, List.getElem?_eq_getElem hrange]
        exact List.getElem_mem hrange
      exact hb _ hmem
    have hi4 : i &&& 3 < 4 := by
      have := Nat.and_le_right (n := i) (m := 3)
      omega
    have := byteSet_lt (items.getD (i / 4) 0) hold (i &&& 3) hi4
      st.twoBits (twoBits_le st)
    unfold byteSet at this
    omega

/-- One automaton step with an `Array` frame on top of a `ConstStack` and
a non-`]` byte next: push the `Unknown` frame for the element, or fail
with the stack's depth error at full capacity. -/
theorem singleStep_const_array_open (N : Nat) (items : List Nat) (e : Nat)
    (c : Nat) (rest : List Nat)
    (hpeek : PackedStates.get items e = some State.array) (hc93 : c ≠ 93) :
    singleStep (constStackOps N) (c :: rest) ⟨items, e + 1⟩ =
      (if e + 1 = 4 * N
        then (.error JErr.stackError, c :: rest, ⟨items, e + 1⟩)
        else (.ok .arrayValue, c :: rest,
          ⟨PackedStates.set items (e + 1) State.unknown, e + 2⟩)) := by
  unfold singleStep
  rw [show (constStackOps N).speek ⟨items, e + 1⟩ = some State.array from hpeek]
  simp only []
  rw [show peekB (c :: rest) 0 = .ok c from rfl]
  simp only []
  rw [if_neg hc93]
  by_cases h4 : e + 1 = 4 * N
  · rw [show (constStackOps N).spush ⟨items, e + 1⟩ State.unknown = none from by
      unfold constStackOps ConstStack.push
      simp only []
      rw [if_pos h4]]
    rw [if_pos h4]
  · rw [show (constStackOps N).spush ⟨items, e + 1⟩ State.unknown =
        some ⟨PackedStates.set items (e + 1) State.unknown, e + 2⟩ from by
      unfold constStackOps ConstStack.push
      simp only []
      rw [if_neg h4]]
    rw [if_neg h4]

/-- One automaton step with an `Unknown` frame on top of a `ConstStack`
and an array opener followed by a non-whitespace byte: replace the frame
by `Array` (the depth does not change). -/
theorem singleStep_const_unknown_open_array (N : Nat) (items : List Nat)
    (e : Nat) (b : Nat) (rest : List Nat)
    (hpeek : PackedStates.get items e = some State.unknown)
    (hlt : e ≠ 4 * N) (hb : isWsByte b = false) :
    singleStep (constStackOps N) (91 :: b :: rest) ⟨items, e + 1⟩ =
      (.ok .unknownArrayOpened, b :: rest,
        ⟨PackedStates.set items e State.array, e + 1⟩) := by
  unfold singleStep
  rw [show (constStackOps N).speek ⟨items, e + 1⟩ = some State.unknown from hpeek]
  simp only []
  rw [show (constStackOps N).spop ⟨items, e + 1⟩ =
      some (State.unknown, ⟨items, e⟩) from by
    show (PackedStates.get items e).map
        (fun st => (st, (⟨items, e⟩ : ConstStack N))) =
      some (State.unknown, (⟨items, e⟩ : ConstStack N))
    rw [hpeek]
    rfl]
  simp only []
  rw [show peekB (91 :: b :: rest) 0 = .ok 91 from rfl]
  simp only []
  rw [if_pos trivial]
  rw [show advanceB (91 :: b :: rest) 1 = .ok (b :: rest) from advanceB_cons 91 _]
  simp only []
  rw [advanceWhitespace_nonWs b hb rest]
  simp only []
  rw [show (constStackOps N).spush ⟨items, e⟩ State.array =
      some ⟨PackedStates.set items e State.array, e + 1⟩ from by
    unfold constStackOps ConstStack.push
    simp only []
    rw [if_neg (by omega)]]
  rw [if_neg (show ¬(91 = 123) from by decide)]

/-- The disposal loop over a run of `[` openers on a `ConstStack` with
`j` frames of spare capacity: after `j` more open/element pairs the
element push at full depth fails, and the loop caches the stack's typed
depth error. -/
theorem dropLoop_deep (N : Nat) : ∀ (j e : Nat) (items : List Nat)
    (dc fuel : Nat) (rest : List Nat),
    e + 1 + j = 4 * N →
    PackedStates.get items e = some State.array →
    items.length = N → (∀ b ∈ items, b < 256) →
    2 * j + 1 ≤ fuel →
    ∃ s2 : ConstStack N,
      dropLoop (constStackOps N) fuel (dc + 1)
          ⟨List.replicate (j + 1) 91 ++ rest, ⟨items, e + 1⟩, none⟩ =
        some ⟨91 :: rest, s2, some JErr.stackError⟩ ∧ s2.depth = 4 * N := by
  intro j
  induction j with
  | zero =>
    intro e items dc fuel rest hdep hpeek hlen hbytes hfuel
    obtain ⟨f, rfl⟩ : ∃ f, fuel = f + 1 := ⟨fuel - 1, by omega⟩
    refine ⟨⟨items, e + 1⟩, ?_, by show e + 1 = 4 * N; omega⟩
    unfold dropLoop
    rw [show List.replicate (0 + 1) 91 ++ rest = 91 :: rest from by simp]
    rw [singleStep_const_array_open N items e 91 rest hpeek (by decide)]
    rw [if_pos (by omega)]
  | succ j ih =>
    intro e items dc fuel rest hdep hpeek hlen hbytes hfuel
    obtain ⟨f, rfl⟩ : ∃ f, fuel = f + 2 := ⟨fuel - 2, by omega⟩
    have hrange : (e + 1) / 4 < items.length := by
      rw [hlen]
      omega
    have hrange0 : e / 4 < items.length := by
      rw [hlen]
      omega
    unfold dropLoop
    rw [show List.replicate (j + 1 + 1) 91 ++ rest =
      91 :: (List.replicate (j + 1) 91 ++ rest) from by
        rw [List.replicate_succ, List.cons_append]]
    rw [singleStep_const_array_open N items e 91 _ hpeek (by decide)]
    rw [if_neg (by omega)]
    simp only []
    have hpk1 : PackedStates.get
        (PackedStates.set items (e + 1) State.unknown) (e + 1) =
        some State.unknown := by
      have h := PackedStates.get_set items (e + 1) (e + 1) State.unknown
        hrange hbytes
      rw [if_pos rfl] at h
      exact h
    have hlen1 : (PackedStates.set items (e + 1) State.unknown).length = N := by
      rw [PackedStates.set_length, hlen]
    have hbytes1 : ∀ b ∈ PackedStates.set items (e + 1) State.unknown,
        b < 256 := PackedStates.set_bytes_lt items (e + 1) State.unknown
      hbytes hrange
    unfold dropLoop
    rw [show List.replicate (j + 1) 91 ++ rest =
      91 :: (List.replicate j 91 ++ rest) from by
        rw [List.replicate_succ, List.cons_append]]
    rw [singleStep_const_unknown_open_array N _ (e + 1) 91
      (List.replicate j 91 ++ rest) hpk1 (by omega) (by decide)]
    simp only []
    have hpk2 : PackedStates.get
        (PackedStates.set (PackedStates.set items (e + 1) State.unknown)
          (e + 1) State.array) (e + 1) = some State.array := by
      have h := PackedStates.get_set
        (PackedStates.set items (e + 1) State.unknown) (e + 1) (e + 1)
        State.array (by rw [hlen1]; omega) hbytes1
      rw [if_pos rfl] at h
      exact h
    have := ih (e + 1)
      (PackedStates.set (PackedStates.set items (e + 1) State.unknown)
        (e + 1) State.array) (dc + 1) f rest (by omega) hpk2
      (by rw [PackedStates.set_length, hlen1])
      (PackedStates.set_bytes_lt _ (e + 1) State.array hbytes1
        (by rw [hlen1]; omega))
      (by omega)
    rw [show List.replicate (j + 1) 91 ++ rest =
      91 :: (List.replicate j 91 ++ rest) from by
        rw [List.replicate_succ, List.cons_append]] at this
    exact this

/-- C7: `ConstStack::push` fails with the typed depth error exactly when
the depth has reached the capacity `4 * N`, and otherwise stores the
state and increments the depth.  A document opening more arrays than the
capacity makes the parse fail with the stack error — cached in the error
slot by the disposal path, with the depth saturated at `4 * N` and no
panic branch reached — regardless of how much input follows.  With
capacity zero even the root `Unknown` push fails the same way. -/
theorem constStack_depth_exceeded_spec :
    (∀ (N : Nat) (s : ConstStack N) (st : State),
      (s.depth = 4 * N → s.push st = none) ∧
      (s.depth ≠ 4 * N →
        s.push st =
          some ⟨PackedStates.set s.items s.depth st, s.depth + 1⟩)) ∧
    (∀ rest : List Nat,
      newDeser (constStackOps 0) (91 :: rest) = .error JErr.stackError) ∧
    (∀ (N : Nat) (rest : List Nat), 1 ≤ N →
      ∃ s2 : ConstStack N,
        newDeser (constStackOps N) (List.replicate (4 * N + 1) 91 ++ rest) =
          .ok ⟨List.replicate (4 * N + 1) 91 ++ rest,
            ⟨PackedStates.set (List.replicate N 0) 0 State.unknown, 1⟩,
            none⟩ ∧
        dropValue (constStackOps N)
            ⟨List.replicate (4 * N + 1) 91 ++ rest,
              ⟨PackedStates.set (List.replicate N 0) 0 State.unknown, 1⟩,
              none⟩ =
          ⟨91 :: rest, s2, some JErr.stackError⟩ ∧
        s2.depth = 4 * N) := by
  refine ⟨?_, ?_, ?_⟩
  · intro N s st
    constructor
    · intro h
      unfold ConstStack.push
      rw [if_pos h]
    · intro h
      unfold ConstStack.push
      rw [if_neg h]
  · intro rest
    unfold newDeser
    rw [advanceWhitespace_nonWs 91 (by decide) rest]
    rfl
  · intro N rest hN
    have hlen0 : (PackedStates.set (List.replicate N 0) 0 State.unknown).length
        = N := by
      rw [PackedStates.set_length, List.length_replicate]
    have hrg : (0 : Nat) / 4 < (List.replicate N 0).length := by
      rw [List.length_replicate]
      omega
    have hrep : ∀ b ∈ List.replicate N 0, b < 256 := by
      intro b hb
      rw [List.eq_of_mem_replicate hb]
      omega
    have hbytes0 : ∀ b ∈ PackedStates.set (List.replicate N 0) 0 State.unknown,
        b < 256 := PackedStates.set_bytes_lt _ 0 _ hrep hrg
    have hpk0 : PackedStates.get
        (PackedStates.set (List.replicate N 0) 0 State.unknown) 0 =
        some State.unknown := by
      have h := PackedStates.get_set (List.replicate N 0) 0 0 State.unknown
        hrg hrep
      rw [if_pos rfl] at h
      exact h
    have hby : List.replicate (4 * N) 91 ++ rest =
        91 :: (List.replicate (4 * N - 1) 91 ++ rest) := by
      obtain ⟨m, hm⟩ : ∃ m, 4 * N = m + 1 := ⟨4 * N - 1, by omega⟩
      rw [hm, List.replicate_succ, List.cons_append]
      simp
    have hstep := singleStep_const_unknown_open_array N
      (PackedStates.set (List.replicate N 0) 0 State.unknown) 0 91
      (List.replicate (4 * N - 1) 91 ++ rest) hpk0 (by omega) (by decide)
    simp only [Nat.zero_add] at hstep
    have hpk1 : PackedStates.get
        (PackedStates.set
          (PackedStates.set (List.replicate N 0) 0 State.unknown) 0
          State.array) 0 = some State.array := by
      have h := PackedStates.get_set
        (PackedStates.set (List.replicate N 0) 0 State.unknown) 0 0
        State.array (by rw [hlen0]; omega) hbytes0
      rw [if_pos rfl] at h
      exact h
    obtain ⟨s2, hdl, hs2⟩ := dropLoop_deep N (4 * N - 1) 0
      (PackedStates.set
        (PackedStates.set (List.replicate N 0) 0 State.unknown) 0
        State.array) 0
      (defaultFuel (91 :: (List.replicate (4 * N - 1) 91 ++ rest))) rest
      (by omega) hpk1 (by rw [PackedStates.set_length, hlen0])
      (PackedStates.set_bytes_lt _ 0 State.array hbytes0
        (by rw [hlen0]; omega))
      (by simp [defaultFuel, List.length_append, List.length_replicate]
          omega)
    simp only [Nat.zero_add] at hdl
    rw [show List.replicate (4 * N - 1 + 1) 91 ++ rest =
      91 :: (List.replicate (4 * N - 1) 91 ++ rest) from by
        rw [List.replicate_succ, List.cons_append]] at hdl
    refine ⟨s2, ?_, ?_, hs2⟩
    · unfold newDeser
      rw [show List.replicate (4 * N + 1) 91 ++ rest =
        91 :: (List.replicate (4 * N) 91 ++ rest) from by
          rw [List.replicate_succ, List.cons_append]]
      rw [advanceWhitespace_nonWs 91 (by decide)]
      simp only []
      rw [show (constStackOps N).spush (constStackOps N).empty State.unknown =
          some ⟨PackedStates.set (List.replicate N 0) 0 State.unknown, 1⟩ from by
        unfold constStackOps ConstStack.push ConstStack.empty
        simp only []
        rw [if_neg (by omega)]]
    · unfold dropValue
      rw [if_neg (by simp)]
      simp only []
      rw [show (constStackOps N).speek
          (⟨PackedStates.set (List.replicate N 0) 0 State.unknown, 1⟩ :
            ConstStack N) = some State.unknown from hpk0]
      simp only []
      rw [show List.replicate (4 * N + 1) 91 ++ rest =
        91 :: (List.replicate (4 * N) 91 ++ rest) from by
          rw [List.replicate_succ, List.cons_append]]
      rw [hby]
      rw [hstep]
      simp only []
      rw [hdl]
      rfl

/-- Witness for C7: capacity one (`ConstStack<1>`, maximum depth 4), five
openers. -/
theorem constStack_depth_exceeded_spec_witness :
    ∃ s2 : ConstStack 1,
      newDeser (constStackOps 1) (List.replicate (4 * 1 + 1) 91 ++ []) =
        .ok ⟨List.replicate (4 * 1 + 1) 91 ++ [],
          ⟨PackedStates.set (List.replicate 1 0) 0 State.unknown, 1⟩, none⟩ ∧
      dropValue (constStackOps 1)
          ⟨List.replicate (4 * 1 + 1) 91 ++ [],
            ⟨PackedStates.set (List.replicate 1 0) 0 State.unknown, 1⟩,
            none⟩ =
        ⟨91 :: [], s2, some JErr.stackError⟩ ∧
      s2.depth = 4 * 1 :=
  constStack_depth_exceeded_spec.2.2 1 [] (by decide)

/-! ## Number-literal semantics

The mathematical value of a digit string, used to state what the
accumulator's exact-integer extraction computes. -/

/-- The value of a digit string continued from an accumulator. -/
def digsValFrom (a : Nat) (ds : List Nat) : Nat :=
  ds.foldl (fun a c => a * 10 + (c - 48)) a

/-- The value of an ASCII digit string. -/
def digsVal (ds : List Nat) : Nat := digsValFrom 0 ds

/-- The encoding of a sign character. -/
def signBytes (neg : Bool) : List Nat := if neg then [45] else []

/-- The accumulator state in the middle of the integer part, after the
digits `stored` (and a sign if `neg`): the digit window holds `stored`
followed by `'0'` padding. -/
def midInt (neg : Bool) (stored : List Nat) (dic : Bool) : NumberSink where
  signCharacterAllowed := false
  digitsInCurrentPart := dic
  negative := neg
  digits := stored ++ List.replicate (21 - stored.length) 48
  i := stored.length
  beforeDecimal := true
  beforeExponent := true
  negativeExponent := false
  absoluteExponent := some 0
  exponentCorrection := 0
  imprecise := false
  invalid := false

/-- The accumulator state in the middle of the fractional part: `stor`
digits written to the window, `fc` fractional digits consumed so far. -/
def midFrac (neg : Bool) (stor : List Nat) (fc : Nat) (dic : Bool) :
    NumberSink where
  signCharacterAllowed := false
  digitsInCurrentPart := dic
  negative := neg
  digits := stor ++ List.replicate (21 - stor.length) 48
  i := stor.length
  beforeDecimal := false
  beforeExponent := true
  negativeExponent := false
  absoluteExponent := some 0
  exponentCorrection := -(fc : Int)
  imprecise := false
  invalid := false

/-- The accumulator state in exponent mode: `stored` integer digits in
the window, the sign-allowed flag, the exponent sign, and the checked
`i16` exponent accumulator as given. -/
def midExp (neg : Bool) (stored : List Nat) (sca negE : Bool)
    (ae : Option Int) (dic : Bool) : NumberSink where
  signCharacterAllowed := sca
  digitsInCurrentPart := dic
  negative := neg
  digits := stored ++ List.replicate (21 - stored.length) 48
  i := stored.length
  beforeDecimal := false
  beforeExponent := false
  negativeExponent := negE
  absoluteExponent := ae
  exponentCorrection := 0
  imprecise := false
  invalid := false

theorem digsValFrom_ge (ds : List Nat) : ∀ a : Nat, a ≤ digsValFrom a ds := by
  induction ds with
  | nil => intro a; exact Nat.le_refl a
  | cons c ds ih =>
    intro a
    calc a ≤ a * 10 + (c - 48) := by omega
    _ ≤ digsValFrom (a * 10 + (c - 48)) ds := ih _
    _ = digsValFrom a (c :: ds) := rfl

theorem digsValFrom_lt (ds : List Nat) (hds : ∀ c ∈ ds, c ≤ 57) :
    ∀ a : Nat, digsValFrom a ds < (a + 1) * 10 ^ ds.length := by
  induction ds with
  | nil => intro a; simp [digsValFrom]
  | cons c ds ih =>
    intro a
    have hc : c ≤ 57 := hds c (by simp)
    have h1 : digsValFrom (a * 10 + (c - 48)) ds <
        (a * 10 + (c - 48) + 1) * 10 ^ ds.length :=
      ih (fun x hx => hds x (by simp [hx])) _
    have h2 : (a * 10 + (c - 48) + 1) * 10 ^ ds.length ≤
        (a + 1) * 10 ^ (ds.length + 1) := by
      have : a * 10 + (c - 48) + 1 ≤ (a + 1) * 10 := by omega
      calc (a * 10 + (c - 48) + 1) * 10 ^ ds.length
          ≤ ((a + 1) * 10) * 10 ^ ds.length :=
            Nat.mul_le_mul_right _ this
        _ = (a + 1) * 10 ^ (ds.length + 1) := by ring
    calc digsValFrom a (c :: ds) = digsValFrom (a * 10 + (c - 48)) ds := rfl
      _ < (a * 10 + (c - 48) + 1) * 10 ^ ds.length := h1
      _ ≤ (a + 1) * 10 ^ (ds.length + 1) := h2
      _ = (a + 1) * 10 ^ (c :: ds).length := by simp

/-- The element-wise `Nat`-to-`Int` coercion that elaboration inserts on
the digit lists in `NumberSink::i64`, as a `map`. -/
theorem listIntCoe_eq_map (l : List Nat) :
    (bind l fun a => pure ((a : Int))) = l.map (fun (a : Nat) => (a : Int)) := by
  induction l with
  | nil => rfl
  | cons c l ih =>
    rw [show (bind (c :: l) fun a => pure ((a : Int))) =
      ((c : Int) :: bind l fun a => pure ((a : Int))) from rfl]
    rw [ih, List.map_cons]

/-- `wrap64` is the identity on in-range values. -/
theorem wrap64_id (x : Int) (h1 : -(2 ^ 63) ≤ x) (h2 : x < 2 ^ 63) :
    wrap64 x = x := by
  unfold wrap64
  have h3 : 0 ≤ x + 2 ^ 63 := by omega
  have h4 : x + 2 ^ 63 < 2 ^ 64 := by omega
  rw [Int.emod_eq_of_lt h3 h4]
  omega

/-- The wrapping accumulation loop of `NumberSink::i64` computes the
exact digit value when the final value is in range (positive case). -/
theorem leadFoldPos (ds : List Nat) : ∀ a : Nat,
    (∀ c ∈ ds, 48 ≤ c ∧ c ≤ 57) → (digsValFrom a ds < 2 ^ 63) →
    ds.foldl
      (fun (acc : Int) (d : Nat) => wrap64 (wrap64 (acc * 10) + ((d : Int) - 48)))
      (a : Int) = (digsValFrom a ds : Int) := by
  induction ds with
  | nil => intro a _ _; rfl
  | cons c ds ih =>
    intro a hds hbound
    have hc := hds c (by simp)
    have hle1 : a * 10 + (c - 48) ≤ digsValFrom a (c :: ds) :=
      digsValFrom_ge ds _
    have hbound2 : digsValFrom (a * 10 + (c - 48)) ds < 2 ^ 63 := hbound
    have hx : ((a * 10 + (c - 48) : Nat) : Int) < 2 ^ 63 := by omega
    have hw1 : wrap64 ((a : Int) * 10) = (a : Int) * 10 := by
      apply wrap64_id <;> omega
    have hw2 : wrap64 ((a : Int) * 10 + ((c : Int) - 48)) =
        ((a * 10 + (c - 48) : Nat) : Int) := by
      have he : (a : Int) * 10 + ((c : Int) - 48) =
          ((a * 10 + (c - 48) : Nat) : Int) := by omega
      rw [he]
      apply wrap64_id <;> omega
    simp only [List.foldl_cons]
    rw [hw1, hw2]
    exact ih _ (fun x hx2 => hds x (by simp [hx2])) hbound2

/-- The wrapping accumulation loop, negative case. -/
theorem leadFoldNeg (ds : List Nat) : ∀ a : Nat,
    (∀ c ∈ ds, 48 ≤ c ∧ c ≤ 57) → (digsValFrom a ds ≤ 2 ^ 63) →
    ds.foldl
      (fun (acc : Int) (d : Nat) => wrap64 (wrap64 (acc * 10) - ((d : Int) - 48)))
      (-(a : Int)) = -(digsValFrom a ds : Int) := by
  induction ds with
  | nil => intro a _ _; rfl
  | cons c ds ih =>
    intro a hds hbound
    have hc := hds c (by simp)
    have hle1 : a * 10 + (c - 48) ≤ digsValFrom a (c :: ds) :=
      digsValFrom_ge ds _
    have hbound2 : digsValFrom (a * 10 + (c - 48)) ds ≤ 2 ^ 63 := hbound
    have hx : ((a * 10 + (c - 48) : Nat) : Int) ≤ 2 ^ 63 := by omega
    have hw1 : wrap64 (-(a : Int) * 10) = -(a : Int) * 10 := by
      apply wrap64_id <;> omega
    have hw2 : wrap64 (-(a : Int) * 10 - ((c : Int) - 48)) =
        -((a * 10 + (c - 48) : Nat) : Int) := by
      have he : -(a : Int) * 10 - ((c : Int) - 48) =
          -((a * 10 + (c - 48) : Nat) : Int) := by omega
      rw [he]
      apply wrap64_id <;> omega
    simp only [List.foldl_cons]
    rw [hw1, hw2]
    exact ih _ (fun x hx2 => hds x (by simp [hx2])) hbound2

theorem set_append_len (l : List Nat) (r : List Nat) (c : Nat) :
    (l ++ r).set l.length c = l ++ r.set 0 c := by
  induction l with
  | nil => simp
  | cons x l ih => simp [ih]

/-- Writing the next digit into the padded window appends it to the
stored prefix. -/
theorem digitsPad_set (stored : List Nat) (c : Nat)
    (h : stored.length < 21) :
    (stored ++ List.replicate (21 - stored.length) 48).set stored.length c =
      (stored ++ [c]) ++ List.replicate (21 - (stored.length + 1)) 48 := by
  rw [set_append_len]
  rw [show 21 - stored.length = (21 - (stored.length + 1)) + 1 from by omega]
  rw [List.replicate_succ]
  simp

theorem digitsPad_len (stored : List Nat) (h : stored.length ≤ 21) :
    (stored ++ List.replicate (21 - stored.length) 48).length = 21 := by
  simp
  omega

theorem digitsPad_getD0 (stored : List Nat) :
    (stored ++ List.replicate (21 - stored.length) 48).getD 0 0 =
      (if stored = [] then 48 else stored.getD 0 0) := by
  cases stored with
  | nil => rfl
  | cons x l => simp

/-- One integer-part digit on the accumulator. -/
theorem intStep (neg : Bool) (stored : List Nat) (c : Nat)
    (hc1 : 48 ≤ c) (hc2 : c ≤ 57) (hlen : stored.length < 21)
    (hlz : stored = [] ∨ stored.getD 0 0 ≠ 48) :
    NumberSink.pushByte (midInt neg stored (!stored.isEmpty)) c =
      (true, midInt neg (stored ++ [c]) true) := by
  have hd : isDigitByte c = true := by simp [isDigitByte]; omega
  have hlen21 : (stored ++ List.replicate (21 - stored.length) 48).length = 21 :=
    digitsPad_len stored (by omega)
  have hinv : (!stored.isEmpty &&
      decide ((stored ++ List.replicate (21 - stored.length) 48).getD 0 0 = 48))
      = false := by
    rcases hlz with h | h
    · subst h; rfl
    · rcases stored with _ | ⟨x, l⟩
      · rfl
      · simp only [List.isEmpty_cons, Bool.not_false, Bool.true_and,
          List.cons_append, List.getD_cons_zero] at h ⊢
        simp [h]
  simp [NumberSink.pushByte, NumberSink.pushMain, midInt, hd, hinv, hlen21,
    digitsPad_set stored c hlen]
  rw [if_neg (by omega)]
  rcases hlz with h | h
  · subst h
    simp
  · rcases stored with _ | ⟨x, l⟩
    · simp
    · simp only [List.getD_cons_zero] at h
      simp [h]

/-- The integer-part digits of a literal, pushed in order. -/
theorem intFold (ds : List Nat) : ∀ (stored : List Nat) (neg : Bool),
    (∀ c ∈ ds, 48 ≤ c ∧ c ≤ 57) → stored.length + ds.length ≤ 21 →
    ((stored ++ ds).length ≤ 1 ∨ (stored ++ ds).getD 0 0 ≠ 48) →
    ds ≠ [] →
    NumberSink.pushAll (midInt neg stored (!stored.isEmpty)) ds =
      midInt neg (stored ++ ds) true := by
  induction ds with
  | nil => intro _ _ _ _ _ h; exact absurd rfl h
  | cons c ds ih =>
    intro stored neg hds hwin hlz _
    have hc := hds c (by simp)
    have hlz1 : stored = [] ∨ stored.getD 0 0 ≠ 48 := by
      rcases hlz with h | h
      · left
        rcases stored with _ | ⟨x, l⟩
        · rfl
        · simp at h
      · rcases stored with _ | ⟨x, l⟩
        · left; rfl
        · right
          simpa using h
    have hstep := intStep neg stored c hc.1 hc.2 (by simp at hwin ⊢; omega) hlz1
    show NumberSink.pushAll ((NumberSink.pushByte (midInt neg stored
      (!stored.isEmpty)) c).2) ds = _
    rw [hstep]
    rcases ds with _ | ⟨d, ds2⟩
    · show midInt neg (stored ++ [c]) true = midInt neg (stored ++ [c]) true
      rfl
    · have := ih (stored ++ [c]) neg (fun x hx => hds x (by simp [hx]))
        (by simp at hwin ⊢; omega)
        (by
          right
          rcases hlz with h | h
          · exact absurd h (by simp; omega)
          · rcases stored with _ | ⟨x, l⟩
            · simpa using h
            · simpa using h)
        (by simp)
      rw [show (!(stored ++ [c]).isEmpty) = true from by simp] at this
      rw [this]
      simp


/-- The decimal point after the integer part. -/
theorem dotStep (neg : Bool) (stored : List Nat) :
    NumberSink.pushByte (midInt neg stored true) 46 =
      (true, midFrac neg stored 0 false) := by
  simp [NumberSink.pushByte, NumberSink.pushMain, midInt, midFrac,
    isDigitByte, isNumberTerminator]

/-- The replicate padding with its first slot overwritten. -/
theorem repSet0 (k c : Nat) (h : k < 21) :
    (List.replicate (21 - k) 48).set 0 c = c :: List.replicate (20 - k) 48 := by
  rw [show 21 - k = (20 - k) + 1 from by omega, List.replicate_succ,
    List.set_cons_zero]

/-- One fractional digit that is actually stored (no leading-zero skip). -/
theorem fracStep (neg : Bool) (stor : List Nat) (fc : Nat) (dic : Bool)
    (c : Nat) (hc1 : 48 ≤ c) (hc2 : c ≤ 57) (hlen : stor.length < 21)
    (h1 : 1 ≤ stor.length)
    (hns : 2 ≤ stor.length ∨ stor.getD 0 0 ≠ 48 ∨ c ≠ 48) :
    NumberSink.pushByte (midFrac neg stor fc dic) c =
      (true, midFrac neg (stor ++ [c]) (fc + 1) true) := by
  have hd : isDigitByte c = true := by simp [isDigitByte]; omega
  have hlen21 : (stor ++ List.replicate (21 - stor.length) 48).length = 21 :=
    digitsPad_len stor (by omega)
  have hnil : stor ≠ [] := by intro h; rw [h] at h1; simp at h1
  have hcorr : -(fc : Int) - 1 = -((fc + 1 : Nat) : Int) := by push_cast; ring
  rcases hns with h | h | h
  · have hne1 : stor.length ≠ 1 := by omega
    simp [NumberSink.pushByte, NumberSink.pushMain, midFrac, hd, hlen21,
      hnil, hne1, repSet0 stor.length c hlen, hcorr]
    omega
  · rcases stor with _ | ⟨x, l⟩
    · exact absurd rfl hnil
    · simp only [List.getD_cons_zero] at h
      have hll : l.length < 20 := by simp at hlen; omega
      simp [NumberSink.pushByte, NumberSink.pushMain, midFrac, hd, hlen21,
        h, hcorr]
      rw [if_neg (show ¬(20 - l.length = 0) from by omega)]
      rw [show (List.replicate (20 - l.length) 48).set 0 c =
        c :: List.replicate (19 - l.length) 48 from by
          rw [show 20 - l.length = (19 - l.length) + 1 from by omega,
            List.replicate_succ, List.set_cons_zero]]
  · simp [NumberSink.pushByte, NumberSink.pushMain, midFrac, hd, hlen21,
      h, repSet0 stor.length c hlen, hcorr]
    omega

/-- The fractional digits of a literal, once at least one window slot is
occupied by a digit that rules out the leading-zero skip. -/
theorem fracFold (fs : List Nat) : ∀ (stor : List Nat) (neg : Bool)
    (fc : Nat) (dic : Bool),
    (∀ c ∈ fs, 48 ≤ c ∧ c ≤ 57) → stor.length + fs.length ≤ 21 →
    1 ≤ stor.length → (2 ≤ stor.length ∨ stor.getD 0 0 ≠ 48) → fs ≠ [] →
    NumberSink.pushAll (midFrac neg stor fc dic) fs =
      midFrac neg (stor ++ fs) (fc + fs.length) true := by
  induction fs with
  | nil => intro _ _ _ _ _ _ _ _ h; exact absurd rfl h
  | cons c fs ih =>
    intro stor neg fc dic hds hwin h1 hns _
    have hc := hds c (by simp)
    have hns2 : 2 ≤ stor.length ∨ stor.getD 0 0 ≠ 48 ∨ c ≠ 48 := by
      rcases hns with h | h
      · left; exact h
      · right; left; exact h
    have hstep := fracStep neg stor fc dic c hc.1 hc.2
      (by simp at hwin ⊢; omega) h1 hns2
    show NumberSink.pushAll
      ((NumberSink.pushByte (midFrac neg stor fc dic) c).2) fs = _
    rw [hstep]
    rcases fs with _ | ⟨d, fs2⟩
    · show midFrac neg (stor ++ [c]) (fc + 1) true = _
      simp
    · have := ih (stor ++ [c]) neg (fc + 1) true
        (fun x hx => hds x (by simp [hx]))
        (by simp at hwin ⊢; omega)
        (by simp only [List.length_append, List.length_cons, List.length_nil]
            omega)
        (by left
            simp only [List.length_append, List.length_cons, List.length_nil]
            omega)
        (by simp)
      rw [this]
      rw [show stor ++ [c] ++ d :: fs2 = stor ++ c :: d :: fs2 from by simp]
      rw [show fc + 1 + (d :: fs2).length = fc + (c :: d :: fs2).length from by
        simp
        omega]

/-- Fractional zeros after a bare `0` integer part are skipped: the
window keeps only the `0` while the correction keeps decreasing. -/
theorem skipFold (m : Nat) : ∀ (neg : Bool) (fc : Nat) (dic : Bool),
    NumberSink.pushAll (midFrac neg [48] fc dic) (List.replicate m 48) =
      midFrac neg [48] (fc + m) (if m = 0 then dic else true) := by
  induction m with
  | zero => intro neg fc dic; simp [NumberSink.pushAll]
  | succ m ih =>
    intro neg fc dic
    rw [List.replicate_succ]
    have hstep : NumberSink.pushByte (midFrac neg [48] fc dic) 48 =
        (true, midFrac neg [48] (fc + 1) true) := by
      simp [NumberSink.pushByte, NumberSink.pushMain, midFrac, isDigitByte]
      omega
    show NumberSink.pushAll
      ((NumberSink.pushByte (midFrac neg [48] fc dic) 48).2) _ = _
    rw [hstep]
    show NumberSink.pushAll (midFrac neg [48] (fc + 1) true) _ = _
    rw [ih neg (fc + 1) true]
    rw [show fc + 1 + m = fc + (m + 1) from by omega]
    rcases m with _ | m2
    · simp
    · simp

/-- The normalization loop stops at a nonnegative exponent or a nonzero
last significant digit. -/
theorem normLoop_stop (digits : List Nat) (k : Nat) (e : Int)
    (h : 0 ≤ e ∨ digits.getD k 0 ≠ 48) :
    normLoop digits (k + 1) e = (k + 1, e) := by
  unfold normLoop
  rw [if_neg (by
    rintro ⟨h1, h2⟩
    rcases h with h | h
    · omega
    · exact h h2)]

/-- `normLoop_stop` with the significant-digit count in subtracted form. -/
theorem normLoop_stop2 (digits : List Nat) (sig : Nat) (e : Int)
    (hs : 1 ≤ sig) (h : 0 ≤ e ∨ digits.getD (sig - 1) 0 ≠ 48) :
    normLoop digits sig e = (sig, e) := by
  obtain ⟨k, rfl⟩ : ∃ k, sig = k + 1 := ⟨sig - 1, by omega⟩
  exact normLoop_stop digits k e (by simpa using h)

/-- The normalization loop pops `m` trailing `'0'` digits, raising the
exponent from `-m` back to zero. -/
theorem normLoop_zeros (m : Nat) : ∀ (digits : List Nat) (k : Nat),
    1 ≤ k → (∀ j, k ≤ j → j < k + m → digits.getD j 0 = 48) →
    normLoop digits (k + m) (-(m : Int)) = (k, 0) := by
  induction m with
  | zero =>
    intro digits k hk _
    obtain ⟨k2, rfl⟩ : ∃ k2, k = k2 + 1 := ⟨k - 1, by omega⟩
    show normLoop digits (k2 + 1) (-(0 : Int)) = (k2 + 1, 0)
    rw [show (-(0 : Int)) = 0 from by omega]
    exact normLoop_stop digits k2 0 (Or.inl (by omega))
  | succ m ih =>
    intro digits k hk hz
    rw [show k + (m + 1) = (k + m) + 1 from by omega]
    unfold normLoop
    rw [if_pos (by
      constructor
      · omega
      · exact hz (k + m) (by omega) (by omega))]
    rw [show (-((m + 1 : Nat) : Int) + 1) = -(m : Int) from by push_cast; ring]
    exact ih digits k hk (fun j h1 h2 => hz j h1 (by omega))

theorem I64sig19 : I64_SIGNIFICANT_DIGITS - 1 = 19 := by rfl

/-- The normalization loop is the identity on a nonnegative exponent. -/
theorem normLoop_nonneg (digits : List Nat) (k : Nat) (e : Int) (he : 0 ≤ e) :
    normLoop digits k e = (k, e) := by
  cases k with
  | zero => rfl
  | succ k2 => exact normLoop_stop digits k2 e (Or.inl he)

/-- The normalization loop pops `k` trailing `'0'` digits while the
exponent stays nonpositive, reducing to the loop on the shorter window. -/
theorem normLoop_strip (k : Nat) : ∀ (digits : List Nat) (n : Nat) (e : Int),
    e + k ≤ 0 →
    (∀ j, n ≤ j → j < n + k → digits.getD j 0 = 48) →
    normLoop digits (n + k) e = normLoop digits n (e + k) := by
  induction k with
  | zero =>
    intro digits n e _ _
    simp
  | succ k ih =>
    intro digits n e he hz
    rw [show n + (k + 1) = (n + k) + 1 from by omega]
    rw [show e + ((k + 1 : Nat) : Int) = (e + 1) + (k : Int) from by push_cast; ring]
    conv_lhs => unfold normLoop
    rw [if_pos ⟨by push_cast at he; omega, hz (n + k) (by omega) (by omega)⟩]
    exact ih digits n (e + 1) (by push_cast at he ⊢; omega)
      (fun j h1 h2 => hz j h1 (by omega))

/-- Evaluating `significant_digits_and_exponent` from the field values. -/
theorem sig_eval (s : NumberSink) (ae : Int) (negE : Bool) (sig : Nat) (e : Int)
    (hae : s.absoluteExponent = some ae) (hne : s.negativeExponent = negE)
    (hr : -(2 ^ 63) ≤ (if negE then -ae else ae) + s.exponentCorrection ∧
      (if negE then -ae else ae) + s.exponentCorrection ≤ 2 ^ 63 - 1)
    (hnorm : normLoop s.digits s.i
      ((if negE then -ae else ae) + s.exponentCorrection) = (sig, e)) :
    s.significantDigitsAndExponent = some (sig, e) := by
  unfold NumberSink.significantDigitsAndExponent
  rw [hae]
  simp only [hne]
  rw [if_pos hr]
  rw [hnorm]

/-- `i64` extraction fails whenever the normalized exponent is negative. -/
theorem i64_none_of_sig (s : NumberSink) (sig : Nat) (e : Int)
    (hsig : s.significantDigitsAndExponent = some (sig, e)) (he : e < 0) :
    NumberSink.i64 s = none := by
  unfold NumberSink.i64
  rw [hsig]
  simp only []
  rw [if_pos (by simp [he])]

/-- The checked exponent shift computes the exact product when the final
value is representable (each intermediate is then also in range). -/
theorem expShift_exact (a : Int) (E : Nat)
    (h1 : -(2 ^ 63) ≤ a * 10 ^ E) (h2 : a * 10 ^ E ≤ 2 ^ 63 - 1) :
    expShift a E = some (a * 10 ^ E) := by
  induction E generalizing a with
  | zero => simp [expShift]
  | succ E ih =>
    have h0 : (0 : Int) < 10 ^ E := pow_pos (by norm_num) E
    have hpow : (1 : Int) ≤ 10 ^ E := by omega
    have hkey : a * 10 * 10 ^ E = a * 10 ^ (E + 1) := by ring
    have hb1 : -(2 ^ 63) ≤ a * 10 ∧ a * 10 ≤ 2 ^ 63 - 1 := by
      rcases le_or_lt 0 a with ha | ha
      · constructor
        · have hnn : (0 : Int) ≤ a * 10 := by positivity
          omega
        · have hmono : a * 10 ≤ a * 10 * 10 ^ E :=
            le_mul_of_one_le_right (by positivity) hpow
          rw [hkey] at hmono
          omega
      · constructor
        · have hmono : a * 10 * 10 ^ E ≤ a * 10 * 1 :=
            mul_le_mul_of_nonpos_left hpow (by omega)
          rw [hkey] at hmono
          omega
        · omega
    unfold expShift
    unfold checkedMul64
    rw [if_pos hb1]
    show expShift (a * 10) E = some (a * 10 ^ (E + 1))
    rw [ih (a * 10) (by rw [hkey]; exact h1) (by rw [hkey]; exact h2)]
    rw [hkey]

/-- The full extraction pipeline after `significant_digits_and_exponent`:
an exactly-normalized window of at most 19 digits with a nonnegative
exponent extracts to the signed digit value shifted by the exponent,
whenever that value is 64-bit representable. -/
theorem i64_core (s : NumberSink) (ip : List Nat) (E : Nat)
    (hsig : s.significantDigitsAndExponent = some (ip.length, (E : Int)))
    (him : s.imprecise = false)
    (hdigits : s.digits = ip ++ List.replicate (21 - ip.length) 48)
    (h1 : 1 ≤ ip.length) (h19 : ip.length ≤ 19)
    (hds : ∀ c ∈ ip, 48 ≤ c ∧ c ≤ 57)
    (hlo : -(2 ^ 63) ≤ (if s.negative then -1 else 1) * (digsVal ip : Int) * 10 ^ E)
    (hhi : (if s.negative then -1 else 1) * (digsVal ip : Int) * 10 ^ E ≤ 2 ^ 63 - 1) :
    NumberSink.i64 s =
      some ((if s.negative then -1 else 1) * (digsVal ip : Int) * 10 ^ E) := by
  have h0 : (0 : Int) < 10 ^ E := pow_pos (by norm_num) E
  have hpow : (1 : Int) ≤ 10 ^ E := by omega
  have hVnn : (0 : Int) ≤ (digsVal ip : Int) := by positivity
  have hVmono : (digsVal ip : Int) ≤ (digsVal ip : Int) * 10 ^ E :=
    le_mul_of_one_le_right hVnn hpow
  unfold NumberSink.i64
  rw [hsig]
  simp only []
  rw [if_neg (by simp [him])]
  rw [I64sig19]
  rw [Nat.min_eq_left (by omega), Nat.max_eq_right (by omega), Nat.sub_self]
  rw [List.take_zero]
  rw [hdigits, List.take_left]
  rw [show (bind ([] : List Nat) fun a => pure ((a : Int))) = [] from rfl]
  cases hneg : s.negative with
  | false =>
    rw [hneg] at hlo hhi
    simp only [Bool.false_eq_true, if_false, one_mul] at hlo hhi ⊢
    have hbound : digsValFrom 0 ip < 2 ^ 63 := by
      have hc : (digsVal ip : Int) ≤ 2 ^ 63 - 1 := le_trans hVmono hhi
      unfold digsVal at hc
      omega
    rw [listIntCoe_eq_map, List.foldl_map]
    have hfold := leadFoldPos ip 0 hds hbound
    norm_num at hfold
    rw [hfold]
    show expShift ((digsValFrom 0 ip : Nat) : Int) ((E : Int)).toNat =
      some ((digsVal ip : Int) * 10 ^ E)
    rw [Int.toNat_natCast]
    exact expShift_exact _ E hlo hhi
  | true =>
    rw [hneg] at hlo hhi
    simp only [if_true, neg_one_mul] at hlo hhi ⊢
    have hy : (digsVal ip : Int) * 10 ^ E ≤ 2 ^ 63 := by linarith [hlo]
    have hbound : digsValFrom 0 ip ≤ 2 ^ 63 := by
      have hc : (digsVal ip : Int) ≤ 2 ^ 63 := le_trans hVmono hy
      unfold digsVal at hc
      omega
    rw [listIntCoe_eq_map, List.foldl_map]
    have hfold := leadFoldNeg ip 0 hds hbound
    norm_num at hfold
    rw [hfold]
    show expShift (-(digsVal ip : Int)) ((E : Int)).toNat =
      some (-(digsVal ip : Int) * 10 ^ E)
    rw [Int.toNat_natCast]
    exact expShift_exact (-(digsVal ip : Int)) E (by linarith [hlo])
      (by
        have hnn : (0 : Int) ≤ (digsVal ip : Int) * 10 ^ E := by positivity
        linarith)

/-- `i64` extraction when the normalized exponent is negative. -/
theorem i64_none_of_negexp (s : NumberSink) (sig : Nat) (e : Int)
    (hae : s.absoluteExponent = some 0) (hne : s.negativeExponent = false)
    (hcorr : -(22 : Int) ≤ s.exponentCorrection ∧ s.exponentCorrection ≤ 0)
    (hnorm : normLoop s.digits s.i (0 + s.exponentCorrection) = (sig, e))
    (he : e < 0) :
    NumberSink.i64 s = none := by
  unfold NumberSink.i64 NumberSink.significantDigitsAndExponent
  rw [hae]
  simp only [hne, Bool.false_eq_true, if_false]
  rw [if_pos (by constructor <;> omega)]
  rw [hnorm]
  simp only []
  rw [if_pos (by simp [decide_eq_true (he : e < 0)])]

/-- `i64` extraction of an exactly-normalized integer state: the window
holds `ip` then zeros, the normalization ends at `(ip.length, 0)`, and
the signed digit value is 64-bit representable. -/
theorem i64_exact (s : NumberSink) (ip : List Nat)
    (hae : s.absoluteExponent = some 0) (hne : s.negativeExponent = false)
    (him : s.imprecise = false)
    (hdigits : s.digits = ip ++ List.replicate (21 - ip.length) 48)
    (hcorr : -(22 : Int) ≤ s.exponentCorrection ∧ s.exponentCorrection ≤ 0)
    (hnorm : normLoop s.digits s.i (0 + s.exponentCorrection) =
      (ip.length, 0))
    (hip : 1 ≤ ip.length) (hle : ip.length ≤ 19)
    (hds : ∀ c ∈ ip, 48 ≤ c ∧ c ≤ 57)
    (hrange : digsValFrom 0 ip < 2 ^ 63 ∨
      (s.negative = true ∧ digsValFrom 0 ip ≤ 2 ^ 63)) :
    NumberSink.i64 s =
      some ((if s.negative then -1 else 1) * (digsVal ip : Int)) := by
  have hsig0 : s.significantDigitsAndExponent = some (ip.length, (0 : Int)) := by
    apply sig_eval s 0 false ip.length 0 hae hne
    · constructor
      · show -(2 ^ 63) ≤ (if false then -(0 : Int) else 0) + s.exponentCorrection
        simp only [Bool.false_eq_true, if_false]
        omega
      · show (if false then -(0 : Int) else 0) + s.exponentCorrection ≤ 2 ^ 63 - 1
        simp only [Bool.false_eq_true, if_false]
        omega
    · show normLoop s.digits s.i
        ((if false then -(0 : Int) else 0) + s.exponentCorrection) = _
      rw [show ((if false then -(0 : Int) else 0) + s.exponentCorrection)
        = 0 + s.exponentCorrection from by simp]
      exact hnorm
  have hsig : s.significantDigitsAndExponent
      = some (ip.length, ((0 : Nat) : Int)) := by
    rw [hsig0]
    norm_num
  have hVnn : (0 : Int) ≤ (digsVal ip : Int) := by positivity
  have hlo : -(2 ^ 63) ≤ (if s.negative then -1 else 1) * (digsVal ip : Int)
      * 10 ^ (0 : Nat) := by
    cases hneg : s.negative with
    | false =>
      simp only [Bool.false_eq_true, if_false, one_mul, pow_zero, mul_one]
      linarith
    | true =>
      simp only [if_true, neg_one_mul, pow_zero, mul_one]
      have hv : digsValFrom 0 ip ≤ 2 ^ 63 := by
        rcases hrange with h | h
        · omega
        · exact h.2
      unfold digsVal
      omega
  have hhi : (if s.negative then -1 else 1) * (digsVal ip : Int)
      * 10 ^ (0 : Nat) ≤ 2 ^ 63 - 1 := by
    cases hneg : s.negative with
    | false =>
      simp only [Bool.false_eq_true, if_false, one_mul, pow_zero, mul_one]
      have hv : digsValFrom 0 ip < 2 ^ 63 := by
        rcases hrange with h | h
        · exact h
        · rw [hneg] at h
          simp at h
      unfold digsVal
      omega
    | true =>
      simp only [if_true, neg_one_mul, pow_zero, mul_one]
      unfold digsVal
      omega
  have hcore := i64_core s ip 0 hsig him hdigits hip hle hds hlo hhi
  simpa using hcore

/-- The sign byte routes through the sign prologue of `push_byte`. -/
theorem pushSign : NumberSink.new.pushByte 45 = (true, midInt true [] false) := by
  decide

/-- Without a sign byte, the first digit reaches `push_main` exactly as
from the no-sign start state. -/
theorem pushNoSign (c : Nat) (h1 : 48 ≤ c) :
    NumberSink.new.pushByte c = (midInt false [] false).pushByte c := by
  unfold NumberSink.pushByte
  simp only [NumberSink.new, midInt]
  rw [if_neg (show ¬(c = 45) from by omega),
    if_neg (show ¬(c = 43) from by omega)]
  rw [if_pos trivial]
  rw [if_neg (show ¬(false = true) from by simp)]
  rfl

/-- Merging the window padding of a stored prefix that ends in zeros. -/
theorem padMerge (ip : List Nat) (m : Nat) (h : ip.length + m ≤ 21) :
    (ip ++ List.replicate m 48) ++
      List.replicate (21 - (ip ++ List.replicate m 48).length) 48 =
    ip ++ List.replicate (21 - ip.length) 48 := by
  rw [List.append_assoc, ← List.replicate_add]
  congr 2
  simp
  omega

theorem padGetD_lo (stored : List Nat) (j : Nat) (h : j < stored.length) :
    (stored ++ List.replicate (21 - stored.length) 48).getD j 0 =
      stored.getD j 0 := by
  rw [List.getD_append _ _ _ _ h]

theorem padGetD_hi (stored : List Nat) (j : Nat) (h1 : stored.length ≤ j)
    (h2 : j < 21) :
    (stored ++ List.replicate (21 - stored.length) 48).getD j 0 = 48 := by
  rw [List.getD_append_right _ _ _ _ h1]
  rw [List.getD_eq_getElem?_getD, List.getElem?_replicate]
  rw [if_pos (by omega)]
  rfl

/-- Every digit string with a nonzero last digit splits into leading
zeros and a nonzero-led tail. -/
theorem exists_lead_zeros (l : List Nat) : l ≠ [] →
    l.getD (l.length - 1) 0 ≠ 48 →
    ∃ m d rest, l = List.replicate m 48 ++ d :: rest ∧ d ≠ 48 := by
  induction l with
  | nil => intro h _; exact absurd rfl h
  | cons c l ih =>
    intro _ h
    by_cases hc : c = 48
    · subst hc
      rcases l with _ | ⟨x, l2⟩
      · simp at h
      · obtain ⟨m, d, rest, heq, hd⟩ := ih (by simp) (by
          simp only [List.length_cons, Nat.add_sub_cancel] at h ⊢
          rw [List.getD_cons_succ] at h
          exact h)
        refine ⟨m + 1, d, rest, ?_, hd⟩
        rw [List.replicate_succ, List.cons_append, heq]
    · exact ⟨0, c, l, by simp, hc⟩

/-- `pushAll` distributes over append. -/
theorem pushAll_append (s : NumberSink) (l1 l2 : List Nat) :
    s.pushAll (l1 ++ l2) = (s.pushAll l1).pushAll l2 := by
  unfold NumberSink.pushAll
  rw [List.foldl_append]

/-- The optional sign and the transition into the digit loop. -/
theorem pushAll_new (neg : Bool) (ds : List Nat) (hne : ds ≠ [])
    (hd0 : 48 ≤ ds.getD 0 0) :
    NumberSink.new.pushAll (signBytes neg ++ ds) =
      (midInt neg [] false).pushAll ds := by
  cases neg
  · show NumberSink.new.pushAll ([] ++ ds) = _
    rw [List.nil_append]
    rcases ds with _ | ⟨c, rest⟩
    · exact absurd rfl hne
    · show NumberSink.pushAll ((NumberSink.new.pushByte c).2) rest = _
      rw [pushNoSign c (by simpa using hd0)]
      rfl
  · show NumberSink.new.pushAll (45 :: ds) = _
    show NumberSink.pushAll ((NumberSink.new.pushByte 45).2) ds = _
    rw [pushSign]

/-- A lower bound on the digit value: each digit multiplies the
accumulator by ten. -/
theorem digsValFrom_lower (ds : List Nat) : ∀ a : Nat,
    a * 10 ^ ds.length ≤ digsValFrom a ds := by
  induction ds with
  | nil => intro a; simp [digsValFrom]
  | cons c tl ih =>
    intro a
    have h := ih (a * 10 + (c - 48))
    have h2 : a * 10 * 10 ^ tl.length ≤ (a * 10 + (c - 48)) * 10 ^ tl.length :=
      Nat.mul_le_mul_right _ (by omega)
    have h3 : a * 10 ^ (c :: tl).length = a * 10 * 10 ^ tl.length := by
      simp only [List.length_cons, pow_succ]
      ring
    calc a * 10 ^ (c :: tl).length = a * 10 * 10 ^ tl.length := h3
      _ ≤ (a * 10 + (c - 48)) * 10 ^ tl.length := h2
      _ ≤ digsValFrom (a * 10 + (c - 48)) tl := h

/-- A leading-zero-free digit string whose value fits 64 bits has at most
19 digits. -/
theorem digsVal_len_le (ds : List Nat) (hne : ds ≠ [])
    (hlz : ds.length ≤ 1 ∨ ds.getD 0 0 ≠ 48)
    (hds : ∀ c ∈ ds, 48 ≤ c ∧ c ≤ 57)
    (hv : digsVal ds ≤ 2 ^ 63) : ds.length ≤ 19 := by
  match ds, hne with
  | d :: tl, _ =>
  rcases hlz with h | h
  · simp only [List.length_cons] at h ⊢
    omega
  · have hd := hds d (by simp)
    have hd49 : 49 ≤ d := by
      simp only [List.getD_cons_zero] at h
      omega
    have h10 : 10 ^ tl.length ≤ digsVal (d :: tl) := by
      show 10 ^ tl.length ≤ digsValFrom (0 * 10 + (d - 48)) tl
      calc 10 ^ tl.length = 1 * 10 ^ tl.length := by ring
        _ ≤ (0 * 10 + (d - 48)) * 10 ^ tl.length :=
          Nat.mul_le_mul_right _ (by omega)
        _ ≤ digsValFrom (0 * 10 + (d - 48)) tl := digsValFrom_lower tl _
    have hp : (10 : Nat) ^ tl.length < 10 ^ 19 := by
      have h19 : (2 : Nat) ^ 63 < 10 ^ 19 := by norm_num
      omega
    have htl : tl.length < 19 :=
      (Nat.pow_lt_pow_iff_right (by norm_num)).mp hp
    simp only [List.length_cons]
    omega

/-- A 64-bit-representable signed integer literal: extraction is exact
(this covers all of 19 digits up to the signed extremes). -/
theorem i64_int_lit (neg : Bool) (ip : List Nat)
    (hds : ∀ c ∈ ip, 48 ≤ c ∧ c ≤ 57) (h1 : 1 ≤ ip.length)
    (hlz : ip.length ≤ 1 ∨ ip.getD 0 0 ≠ 48)
    (hrange : digsVal ip < 2 ^ 63 ∨ (neg = true ∧ digsVal ip ≤ 2 ^ 63)) :
    NumberSink.i64 (NumberSink.new.pushAll (signBytes neg ++ ip)) =
      some ((if neg then -1 else 1) * (digsVal ip : Int)) := by
  have h19 : ip.length ≤ 19 := by
    apply digsVal_len_le ip (by intro h; rw [h] at h1; simp at h1) hlz hds
    rcases hrange with h | h
    · omega
    · exact h.2
  have hne : ip ≠ [] := by intro h; rw [h] at h1; simp at h1
  have hd0 : 48 ≤ ip.getD 0 0 := by
    rcases ip with _ | ⟨c, l⟩
    · exact absurd rfl hne
    · exact (hds c (by simp)).1
  rw [pushAll_new neg ip hne hd0]
  have hfold := intFold ip [] neg hds (by simp; omega) (by simpa using hlz) hne
  simp only [List.isEmpty_nil, Bool.not_true, List.nil_append] at hfold
  rw [hfold]
  have hnorm : normLoop (ip ++ List.replicate (21 - ip.length) 48) ip.length
      ((0 : Int) + 0) = (ip.length, 0) := by
    obtain ⟨k, hk⟩ : ∃ k, ip.length = k + 1 := ⟨ip.length - 1, by omega⟩
    rw [show ((0 : Int) + 0) = 0 from by norm_num, hk]
    exact normLoop_stop _ k 0 (Or.inl (by omega))
  exact i64_exact (midInt neg ip true) ip rfl rfl rfl rfl
    ⟨show -(22 : Int) ≤ 0 from by norm_num, show (0 : Int) ≤ 0 from le_refl 0⟩
    hnorm h1 h19 hds hrange

/-- An integer-valued dotted literal `ip.00…0` (nonzero leading digit):
the trailing fractional zeros are normalized away and extraction is
exact. -/
theorem i64_intdot_lit (neg : Bool) (ip : List Nat) (m : Nat)
    (hds : ∀ c ∈ ip, 48 ≤ c ∧ c ≤ 57) (h1 : 1 ≤ ip.length)
    (hz0 : ip.getD 0 0 ≠ 48) (hm : 1 ≤ m)
    (hwin : ip.length + m ≤ 21)
    (hrange : digsVal ip < 2 ^ 63 ∨ (neg = true ∧ digsVal ip ≤ 2 ^ 63)) :
    NumberSink.i64 (NumberSink.new.pushAll
        (signBytes neg ++ (ip ++ 46 :: List.replicate m 48))) =
      some ((if neg then -1 else 1) * (digsVal ip : Int)) := by
  have hne : ip ≠ [] := by intro h; rw [h] at h1; simp at h1
  have h19 : ip.length ≤ 19 := by
    apply digsVal_len_le ip hne (Or.inr hz0) hds
    rcases hrange with h | h
    · omega
    · exact h.2
  have hd0 : 48 ≤ (ip ++ 46 :: List.replicate m 48).getD 0 0 := by
    rcases ip with _ | ⟨c, l⟩
    · exact absurd rfl hne
    · exact (hds c (by simp)).1
  rw [pushAll_new neg _ (by simp) hd0]
  rw [show ip ++ 46 :: List.replicate m 48 =
    ip ++ [46] ++ List.replicate m 48 from by simp]
  rw [pushAll_append, pushAll_append]
  have hfold := intFold ip [] neg hds (by simp; omega)
    (by right; simpa using hz0) hne
  simp only [List.isEmpty_nil, Bool.not_true, List.nil_append] at hfold
  rw [hfold]
  have hdot : (midInt neg ip true).pushAll [46] = midFrac neg ip 0 false := by
    show (NumberSink.pushByte (midInt neg ip true) 46).2 = midFrac neg ip 0 false
    rw [dotStep]
  rw [hdot]
  rw [fracFold (List.replicate m 48) ip neg 0 false
    (by intro c hc; rw [List.eq_of_mem_replicate hc]; omega)
    (by simp; omega) h1 (Or.inr hz0)
    (by intro h; have := congrArg List.length h; simp at this; omega)]
  have hlen2 : (ip ++ List.replicate m 48).length = ip.length + m := by simp
  have hnorm : normLoop
      ((ip ++ List.replicate m 48) ++
        List.replicate (21 - (ip ++ List.replicate m 48).length) 48)
      (ip ++ List.replicate m 48).length
      ((0 : Int) + -((0 + (List.replicate m 48).length : Nat) : Int)) =
      (ip.length, 0) := by
    rw [padMerge ip m (by omega)]
    rw [hlen2]
    rw [show ((0 : Int) + -((0 + (List.replicate m 48).length : Nat) : Int)) =
      -((m : Nat) : Int) from by simp]
    exact normLoop_zeros m _ ip.length (by omega)
      (fun j hj1 hj2 => padGetD_hi ip j hj1 (by omega))
  exact i64_exact _ ip rfl rfl rfl
    (by show (ip ++ List.replicate m 48) ++ _ = _
        exact padMerge ip m (by omega))
    ⟨by show -(22 : Int) ≤ -((0 + (List.replicate m 48).length : Nat) : Int)
        simp
        omega,
     by show -((0 + (List.replicate m 48).length : Nat) : Int) ≤ 0
        simp⟩
    hnorm h1 h19 hds hrange

/-- Every digit string containing a nonzero digit splits into a
nonzero-ended prefix and trailing zeros. -/
theorem exists_trail_zeros (l : List Nat) (hnz : ∃ c ∈ l, c ≠ 48) :
    ∃ g k, l = g ++ List.replicate k 48 ∧ g ≠ [] ∧
      g.getD (g.length - 1) 0 ≠ 48 := by
  induction l with
  | nil =>
    obtain ⟨c, hc, _⟩ := hnz
    simp at hc
  | cons c tl ih =>
    by_cases htl : ∃ d ∈ tl, d ≠ 48
    · obtain ⟨g, k, heq, hg, hlast⟩ := ih htl
      refine ⟨c :: g, k, by rw [heq]; rfl, by simp, ?_⟩
      rcases g with _ | ⟨x, g2⟩
      · exact absurd rfl hg
      · simpa using hlast
    · push_neg at htl
      obtain ⟨c0, hc0, hc0nz⟩ := hnz
      have hc : c ≠ 48 := by
        rcases List.mem_cons.mp hc0 with h | h
        · rw [← h]; exact hc0nz
        · exact absurd (htl c0 h) hc0nz
      have htlrep : tl = List.replicate tl.length 48 :=
        List.eq_replicate_of_mem htl
      refine ⟨[c], tl.length, ?_, by simp, by simpa using hc⟩
      rw [show ([c] : List Nat) ++ List.replicate tl.length 48
        = c :: List.replicate tl.length 48 from rfl, ← htlrep]

/-- Pushing `k` fractional zeros onto an occupied window stores them. -/
theorem fracFoldZ (k : Nat) (stor : List Nat) (neg : Bool) (fc : Nat)
    (dic : Bool) (hwin : stor.length + k ≤ 21) (h1 : 1 ≤ stor.length)
    (hns : 2 ≤ stor.length ∨ stor.getD 0 0 ≠ 48) :
    NumberSink.pushAll (midFrac neg stor fc dic) (List.replicate k 48) =
      midFrac neg (stor ++ List.replicate k 48) (fc + k)
        (if k = 0 then dic else true) := by
  cases k with
  | zero => simp [NumberSink.pushAll]
  | succ k2 =>
    rw [fracFold (List.replicate (k2 + 1) 48) stor neg fc dic
      (by intro c hc; rw [List.eq_of_mem_replicate hc]; omega)
      (by simpa using hwin) h1 hns (by simp)]
    rw [if_neg (by omega)]
    rw [List.length_replicate]

/-- A fractional state whose stored digits end in a nonzero digit
followed by `k` stored zeros, with more fractional digits consumed than
`k`: extraction fails (the normalized exponent stays negative). -/
theorem sig_midFrac (neg : Bool) (stor : List Nat) (fc : Nat) (dic : Bool)
    (sig : Nat) (e : Int) (hfc : fc ≤ 21)
    (hnorm : normLoop (stor ++ List.replicate (21 - stor.length) 48)
      stor.length (-(fc : Int)) = (sig, e)) :
    (midFrac neg stor fc dic).significantDigitsAndExponent = some (sig, e) := by
  unfold NumberSink.significantDigitsAndExponent
  show (match some (0 : Int) with
    | none => none
    | some ae =>
      let embedded : Int := if false then -ae else ae
      let e0 := embedded + -(fc : Int)
      if -(2 ^ 63) ≤ e0 ∧ e0 ≤ 2 ^ 63 - 1 then
        some (normLoop (stor ++ List.replicate (21 - stor.length) 48)
          stor.length e0)
      else none) = some (sig, e)
  simp only []
  rw [if_pos (by constructor <;> simp <;> omega)]
  rw [show ((if false then -(0 : Int) else 0) + -(fc : Int)) = -(fc : Int)
    from by simp]
  rw [hnorm]

theorem i64_midFrac_zeros_none (neg : Bool) (sto : List Nat) (k fc : Nat)
    (dic : Bool) (h1 : 1 ≤ sto.length) (hwin : sto.length + k ≤ 21)
    (hlast : sto.getD (sto.length - 1) 0 ≠ 48)
    (hk : k < fc) (hfc : fc ≤ 21) :
    NumberSink.i64 (midFrac neg (sto ++ List.replicate k 48) fc dic) = none := by
  apply i64_none_of_sig _ sto.length (-(fc : Int) + k)
  · apply sig_midFrac neg _ fc dic sto.length (-(fc : Int) + k) hfc
    rw [padMerge sto k hwin]
    simp only [List.length_append, List.length_replicate]
    rw [normLoop_strip k _ sto.length (-(fc : Int))
      (by push_cast; omega)
      (fun j hj1 hj2 => padGetD_hi sto j hj1 (by omega))]
    exact normLoop_stop2 _ sto.length (-(fc : Int) + k) h1
      (Or.inr (by rw [padGetD_lo sto _ (by omega)]; exact hlast))
  · push_cast
    omega

/-- A dotted literal with any nonzero fractional digit: extraction
fails (the normalized exponent stays negative at that digit). -/
theorem i64_fracnz_none (neg : Bool) (ip fp : List Nat)
    (hdsI : ∀ c ∈ ip, 48 ≤ c ∧ c ≤ 57) (hdsF : ∀ c ∈ fp, 48 ≤ c ∧ c ≤ 57)
    (h1 : 1 ≤ ip.length) (hwin : ip.length + fp.length ≤ 21)
    (hnz : ∃ c ∈ fp, c ≠ 48)
    (hlz : ip.length = 1 ∨ ip.getD 0 0 ≠ 48) :
    NumberSink.i64 (NumberSink.new.pushAll
        (signBytes neg ++ (ip ++ 46 :: fp))) = none := by
  have hfne : fp ≠ [] := by
    obtain ⟨c, hc, _⟩ := hnz
    intro h
    rw [h] at hc
    simp at hc
  have hne : ip ≠ [] := by intro h; rw [h] at h1; simp at h1
  have hd0 : 48 ≤ (ip ++ 46 :: fp).getD 0 0 := by
    rcases ip with _ | ⟨c, l⟩
    · exact absurd rfl hne
    · exact (hdsI c (by simp)).1
  rw [pushAll_new neg _ (by simp) hd0]
  rw [show ip ++ 46 :: fp = ip ++ [46] ++ fp from by simp]
  rw [pushAll_append, pushAll_append]
  have hfold := intFold ip [] neg hdsI (by simp; omega)
    (by
      rcases hlz with h | h
      · left; simp; omega
      · right; simpa using h) hne
  simp only [List.isEmpty_nil, Bool.not_true, List.nil_append] at hfold
  rw [hfold]
  have hdot : (midInt neg ip true).pushAll [46] = midFrac neg ip 0 false := by
    show (NumberSink.pushByte (midInt neg ip true) 46).2 = midFrac neg ip 0 false
    rw [dotStep]
  rw [hdot]
  obtain ⟨g, kz, heqT, hgne, hglast⟩ := exists_trail_zeros fp hnz
  have hglen : fp.length = g.length + kz := by rw [heqT]; simp
  have hg1 : 1 ≤ g.length := by
    rcases g with _ | _
    · exact absurd rfl hgne
    · simp
  by_cases hz : ip.getD 0 0 = 48
  · -- `ip = [0]`: leading fractional zeros are skipped
    have hip : ip = [48] := by
      have hl : ip.length = 1 := by
        rcases hlz with h | h
        · exact h
        · exact absurd hz h
      rcases ip with _ | ⟨c, l⟩
      · exact absurd rfl hne
      · simp only [List.getD_cons_zero] at hz
        simp only [List.length_cons] at hl
        rw [hz, show l = [] from by
          rcases l with _ | _
          · rfl
          · simp at hl]
    subst hip
    have hfp20 : fp.length ≤ 20 := by simp at hwin; omega
    obtain ⟨z, d, rest, heqL, hd48⟩ := exists_lead_zeros g hgne hglast
    have heq : fp = List.replicate z 48 ++
        d :: (rest ++ List.replicate kz 48) := by
      rw [heqT, heqL]
      simp
    have hdr : (d :: rest).getD ((d :: rest).length - 1) 0 ≠ 48 := by
      rw [heqL] at hglast
      rw [List.length_append, List.length_replicate] at hglast
      rw [List.getD_append_right _ _ _ _
        (by simp only [List.length_replicate, List.length_cons]
            omega)] at hglast
      simp only [List.length_replicate] at hglast
      rw [show z + (d :: rest).length - 1 - z = (d :: rest).length - 1 from by
        omega] at hglast
      exact hglast
    have hflen : fp.length = z + 1 + rest.length + kz := by
      rw [heq]; simp; omega
    have hdmem : d ∈ fp := by rw [heq]; simp
    have hdd := hdsF d hdmem
    rw [heq, pushAll_append]
    rw [skipFold z neg 0 false]
    rcases hre : rest ++ List.replicate kz 48 with _ | ⟨r, rest2⟩
    · -- no stored digit follows `d`
      have hone : (midFrac neg [48] (0 + z)
          (if z = 0 then false else true)).pushAll [d] =
          midFrac neg [48, d] (0 + z + 1) true := by
        show (NumberSink.pushByte (midFrac neg [48] (0 + z)
          (if z = 0 then false else true)) d).2 = _
        have hstep2 := fracStep neg [48] (0 + z) (if z = 0 then false else true)
          d hdd.1 hdd.2 (by simp) (by simp) (by right; right; exact hd48)
        rw [hstep2]
        simp
      rw [hone]
      exact i64_none_of_negexp _ 2 (-((0 + z + 1 : Nat) : Int)) rfl rfl
        ⟨by show -(22 : Int) ≤ -((0 + z + 1 : Nat) : Int)
            have : z + 1 ≤ 21 := by omega
            push_cast
            omega,
         by show -((0 + z + 1 : Nat) : Int) ≤ 0
            push_cast
            omega⟩
        (by
          show normLoop ([48, d] ++ List.replicate (21 - [48, d].length) 48)
            [48, d].length _ = _
          rw [show ((0 : Int) + (midFrac neg [48, d] (0 + z + 1)
            true).exponentCorrection) = -((0 + z + 1 : Nat) : Int) from by
              show (0 : Int) + -((0 + z + 1 : Nat) : Int) = _
              ring]
          show normLoop _ (1 + 1) _ = _
          apply normLoop_stop
          right
          rw [padGetD_lo [48, d] 1 (by simp)]
          simpa using hd48)
        (by push_cast; omega)
    · -- more stored digits follow `d`; the trailing zeros are stripped
      have hlen2 : (r :: rest2).length = rest.length + kz := by
        rw [← hre]; simp
      have hsplit : (d :: r :: rest2 : List Nat) = [d] ++ r :: rest2 := by simp
      rw [hsplit, pushAll_append]
      have hone : (midFrac neg [48] (0 + z)
          (if z = 0 then false else true)).pushAll [d] =
          midFrac neg [48, d] (0 + z + 1) true := by
        show (NumberSink.pushByte (midFrac neg [48] (0 + z)
          (if z = 0 then false else true)) d).2 = _
        have hstep2 := fracStep neg [48] (0 + z) (if z = 0 then false else true)
          d hdd.1 hdd.2 (by simp) (by simp) (by right; right; exact hd48)
        rw [hstep2]
        simp
      rw [hone]
      rw [fracFold (r :: rest2) [48, d] neg (0 + z + 1) true
        (fun c hc => hdsF c (by rw [heq, hre]; simp [hc]))
        (by simp only [List.length_cons] at hlen2 ⊢
            simp only [List.length_append, List.length_cons, List.length_nil]
            omega)
        (by simp) (by left; simp) (by simp)]
      rw [show ([48, d] ++ r :: rest2 : List Nat) =
        (48 :: d :: rest) ++ List.replicate kz 48 from by
          rw [← hre]; simp]
      apply i64_midFrac_zeros_none neg (48 :: d :: rest) kz _ true
      · simp
      · simp only [List.length_cons]
        omega
      · show (48 :: d :: rest).getD ((48 :: d :: rest).length - 1) 0 ≠ 48
        rw [show (48 :: d :: rest).length - 1 =
          ((d :: rest).length - 1) + 1 from by simp]
        rw [List.getD_cons_succ]
        exact hdr
      · simp only [List.length_cons] at hlen2 ⊢
        omega
      · simp only [List.length_cons] at hlen2 ⊢
        omega
  · -- no skip: every fractional digit is stored
    rw [fracFold fp ip neg 0 false hdsF hwin h1 (Or.inr hz) hfne]
    rw [show ip ++ fp = (ip ++ g) ++ List.replicate kz 48 from by
      rw [heqT]; simp]
    apply i64_midFrac_zeros_none neg (ip ++ g) kz (0 + fp.length) true
    · simp
      omega
    · simp only [List.length_append]
      omega
    · rw [show (ip ++ g).length - 1 = ip.length + (g.length - 1) from by
        simp
        omega]
      rw [List.getD_append_right _ _ _ _ (by omega)]
      rw [show ip.length + (g.length - 1) - ip.length = g.length - 1
        from by omega]
      exact hglast
    · omega
    · omega

/-- The `e` separator moves the accumulator into exponent mode. -/
theorem eStep (neg : Bool) (stored : List Nat) :
    NumberSink.pushByte (midInt neg stored true) 101 =
      (true, midExp neg stored true false (some 0) false) := by
  simp [NumberSink.pushByte, NumberSink.pushMain, midInt, midExp,
    isDigitByte, isNumberTerminator]

/-- A `-` right after the exponent separator sets the exponent sign. -/
theorem expSignStep (neg : Bool) (stored : List Nat) :
    NumberSink.pushByte (midExp neg stored true false (some 0) false) 45 =
      (true, midExp neg stored false true (some 0) false) := by
  simp [NumberSink.pushByte, midExp]

/-- One exponent digit: the checked `i16` accumulator advances. -/
theorem expStep (neg : Bool) (stored : List Nat) (sca negE dic : Bool)
    (a d : Nat) (hd1 : 48 ≤ d) (hd2 : d ≤ 57)
    (hb : a * 10 + (d - 48) ≤ 32767) :
    NumberSink.pushByte (midExp neg stored sca negE (some (a : Int)) dic) d =
      (true, midExp neg stored false negE
        (some ((a * 10 + (d - 48) : Nat) : Int)) true) := by
  have hdig : isDigitByte d = true := by simp [isDigitByte]; omega
  have hmul : checkedMulI16 (a : Int) 10 = some ((a : Int) * 10) := by
    unfold checkedMulI16
    rw [if_pos (by constructor <;> push_cast <;> omega)]
  have hadd : checkedAddI16 ((a : Int) * 10) ((d : Int) - 48) =
      some ((a * 10 + (d - 48) : Nat) : Int) := by
    unfold checkedAddI16
    rw [if_pos (by constructor <;> push_cast <;> omega)]
    refine congrArg some ?h
    push_cast
    omega
  cases sca with
  | false =>
    simp [NumberSink.pushByte, NumberSink.pushMain, midExp, hdig,
      hmul, hadd]
  | true =>
    simp [NumberSink.pushByte, NumberSink.pushMain, midExp, hdig,
      hmul, hadd, show d ≠ 45 from by omega, show d ≠ 43 from by omega]

/-- The exponent digits fold to the digit-string value while it stays
within the `i16` range. -/
theorem expFold (es : List Nat) : ∀ (a : Nat) (neg : Bool)
    (stored : List Nat) (sca negE dic : Bool),
    (∀ c ∈ es, 48 ≤ c ∧ c ≤ 57) → digsValFrom a es ≤ 32767 → es ≠ [] →
    NumberSink.pushAll (midExp neg stored sca negE (some (a : Int)) dic) es =
      midExp neg stored false negE
        (some ((digsValFrom a es : Nat) : Int)) true := by
  induction es with
  | nil => intro _ _ _ _ _ _ _ _ h; exact absurd rfl h
  | cons c es ih =>
    intro a neg stored sca negE dic hds hb _
    have hc := hds c (by simp)
    have hb2 : digsValFrom (a * 10 + (c - 48)) es ≤ 32767 := hb
    have hstepb : a * 10 + (c - 48) ≤ 32767 := by
      have := digsValFrom_ge es (a * 10 + (c - 48))
      omega
    have hstep := expStep neg stored sca negE dic a c hc.1 hc.2 hstepb
    show NumberSink.pushAll
      ((NumberSink.pushByte
        (midExp neg stored sca negE (some (a : Int)) dic) c).2) es = _
    rw [hstep]
    rcases es with _ | ⟨d2, es2⟩
    · rfl
    · exact ih (a * 10 + (c - 48)) neg stored false negE true
        (fun x hx => hds x (by simp [hx])) hb2 (by simp)

/-- `significant_digits_and_exponent` of an exponent-mode state. -/
theorem sig_midExp (neg : Bool) (stored : List Nat) (negE : Bool) (A : Nat)
    (sig : Nat) (e : Int) (hA : A ≤ 32767)
    (hnorm : normLoop (stored ++ List.replicate (21 - stored.length) 48)
      stored.length ((if negE then -((A : Nat) : Int) else ((A : Nat) : Int))
        + 0) = (sig, e)) :
    (midExp neg stored false negE
      (some ((A : Nat) : Int)) true).significantDigitsAndExponent =
      some (sig, e) := by
  unfold NumberSink.significantDigitsAndExponent
  show (match some ((A : Nat) : Int) with
    | none => none
    | some ae =>
      let embedded : Int := if negE then -ae else ae
      let e0 := embedded + 0
      if -(2 ^ 63) ≤ e0 ∧ e0 ≤ 2 ^ 63 - 1 then
        some (normLoop (stored ++ List.replicate (21 - stored.length) 48)
          stored.length e0)
      else none) = some (sig, e)
  simp only []
  rw [if_pos (by cases negE <;> constructor <;> simp <;> omega)]
  rw [hnorm]

/-- A positive-exponent state multiplies the digit value by a power of
ten. -/
theorem i64_midExp_pos (neg : Bool) (ip : List Nat) (A : Nat)
    (hds : ∀ c ∈ ip, 48 ≤ c ∧ c ≤ 57) (h1 : 1 ≤ ip.length)
    (hlz : ip.length ≤ 1 ∨ ip.getD 0 0 ≠ 48) (hA : A ≤ 32767)
    (hrange : digsVal ip * 10 ^ A < 2 ^ 63 ∨
      (neg = true ∧ digsVal ip * 10 ^ A ≤ 2 ^ 63)) :
    NumberSink.i64 (midExp neg ip false false (some ((A : Nat) : Int)) true) =
      some ((if neg then -1 else 1) * (digsVal ip : Int) * 10 ^ A) := by
  have hvmul : digsVal ip ≤ digsVal ip * 10 ^ A := by
    calc digsVal ip = digsVal ip * 1 := by ring
      _ ≤ digsVal ip * 10 ^ A :=
        Nat.mul_le_mul_left _ (Nat.one_le_pow _ _ (by norm_num))
  have hvle : digsVal ip ≤ 2 ^ 63 := by
    rcases hrange with h | h
    · omega
    · omega
  have h19 : ip.length ≤ 19 :=
    digsVal_len_le ip (by intro h; rw [h] at h1; simp at h1) hlz hds hvle
  have hsig : (midExp neg ip false false
      (some ((A : Nat) : Int)) true).significantDigitsAndExponent =
      some (ip.length, ((A : Nat) : Int)) := by
    apply sig_midExp neg ip false A ip.length ((A : Nat) : Int) hA
    rw [show ((if false then -((A : Nat) : Int) else ((A : Nat) : Int)) + 0) =
      ((A : Nat) : Int) from by simp]
    exact normLoop_nonneg _ _ _ (by positivity)
  have hcast : (digsVal ip : Int) * (10 : Int) ^ A =
      ((digsVal ip * 10 ^ A : Nat) : Int) := by
    push_cast
    ring
  have hnn : (0 : Int) ≤ (digsVal ip : Int) * 10 ^ A := by positivity
  have hlo : -(2 ^ 63) ≤ (if (midExp neg ip false false
      (some ((A : Nat) : Int)) true).negative then -1 else 1) *
      (digsVal ip : Int) * 10 ^ A := by
    show -(2 ^ 63) ≤ (if neg then -1 else 1) * (digsVal ip : Int) * 10 ^ A
    cases hn : neg with
    | false =>
      simp only [Bool.false_eq_true, if_false, one_mul]
      linarith
    | true =>
      simp only [if_true, neg_one_mul]
      rw [hn] at hrange
      have hle : digsVal ip * 10 ^ A ≤ 2 ^ 63 := by
        rcases hrange with h | h
        · omega
        · exact h.2
      have hle2 : ((digsVal ip * 10 ^ A : Nat) : Int) ≤ 2 ^ 63 := by omega
      rw [← hcast] at hle2
      linarith
  have hhi : (if (midExp neg ip false false
      (some ((A : Nat) : Int)) true).negative then -1 else 1) *
      (digsVal ip : Int) * 10 ^ A ≤ 2 ^ 63 - 1 := by
    show (if neg then -1 else 1) * (digsVal ip : Int) * 10 ^ A ≤ 2 ^ 63 - 1
    cases hn : neg with
    | false =>
      simp only [Bool.false_eq_true, if_false, one_mul]
      rw [hn] at hrange
      have hlt : digsVal ip * 10 ^ A < 2 ^ 63 := by
        rcases hrange with h | h
        · exact h
        · simp at h
      have hlt2 : ((digsVal ip * 10 ^ A : Nat) : Int) < 2 ^ 63 := by omega
      rw [← hcast] at hlt2
      linarith
    | true =>
      simp only [if_true, neg_one_mul]
      linarith
  have hcore := i64_core (midExp neg ip false false
      (some ((A : Nat) : Int)) true) ip A hsig rfl rfl h1 h19 hds hlo hhi
  exact hcore

/-- An integer literal with a positive exponent extracts to the digit
value shifted by the exponent. -/
theorem i64_intexp_lit (neg : Bool) (ip es : List Nat)
    (hdsI : ∀ c ∈ ip, 48 ≤ c ∧ c ≤ 57) (hdsE : ∀ c ∈ es, 48 ≤ c ∧ c ≤ 57)
    (h1 : 1 ≤ ip.length)
    (hlz : ip.length ≤ 1 ∨ ip.getD 0 0 ≠ 48)
    (hene : es ≠ []) (hE : digsVal es ≤ 32767)
    (hrange : digsVal ip * 10 ^ digsVal es < 2 ^ 63 ∨
      (neg = true ∧ digsVal ip * 10 ^ digsVal es ≤ 2 ^ 63)) :
    NumberSink.i64 (NumberSink.new.pushAll
        (signBytes neg ++ (ip ++ 101 :: es))) =
      some ((if neg then -1 else 1) * (digsVal ip : Int) * 10 ^ digsVal es) := by
  have hvmul : digsVal ip ≤ digsVal ip * 10 ^ digsVal es := by
    calc digsVal ip = digsVal ip * 1 := by ring
      _ ≤ digsVal ip * 10 ^ digsVal es :=
        Nat.mul_le_mul_left _ (Nat.one_le_pow _ _ (by norm_num))
  have h19 : ip.length ≤ 19 := by
    apply digsVal_len_le ip (by intro h; rw [h] at h1; simp at h1) hlz hdsI
    rcases hrange with h | h
    · omega
    · omega
  have hne : ip ≠ [] := by intro h; rw [h] at h1; simp at h1
  have hd0 : 48 ≤ (ip ++ 101 :: es).getD 0 0 := by
    rcases ip with _ | ⟨c, l⟩
    · exact absurd rfl hne
    · exact (hdsI c (by simp)).1
  rw [pushAll_new neg _ (by simp) hd0]
  rw [show ip ++ 101 :: es = ip ++ [101] ++ es from by simp]
  rw [pushAll_append, pushAll_append]
  have hfold := intFold ip [] neg hdsI (by simp; omega)
    (by simpa using hlz) hne
  simp only [List.isEmpty_nil, Bool.not_true, List.nil_append] at hfold
  rw [hfold]
  have he : (midInt neg ip true).pushAll [101] =
      midExp neg ip true false (some 0) false := by
    show (NumberSink.pushByte (midInt neg ip true) 101).2 = _
    rw [eStep]
  rw [he]
  rw [show (some (0 : Int)) = some (((0 : Nat)) : Int) from by norm_num]
  rw [expFold es 0 neg ip true false false hdsE hE hene]
  exact i64_midExp_pos neg ip (digsVal es) hdsI h1 hlz hE hrange

/-- An integer literal with a negative exponent that exactly cancels
its trailing zeros extracts to the shortened digit value. -/
theorem i64_negexp_lit (neg : Bool) (q es : List Nat) (k : Nat)
    (hdsQ : ∀ c ∈ q, 48 ≤ c ∧ c ≤ 57) (hdsE : ∀ c ∈ es, 48 ≤ c ∧ c ≤ 57)
    (h1 : 1 ≤ q.length) (hwin : q.length + k ≤ 21)
    (hlzq : q.getD 0 0 ≠ 48)
    (hene : es ≠ []) (hE : digsVal es = k) (hk : k ≤ 32767)
    (hrange : digsVal q < 2 ^ 63 ∨ (neg = true ∧ digsVal q ≤ 2 ^ 63)) :
    NumberSink.i64 (NumberSink.new.pushAll
        (signBytes neg ++ ((q ++ List.replicate k 48) ++ 101 :: 45 :: es))) =
      some ((if neg then -1 else 1) * (digsVal q : Int)) := by
  subst hE
  have hne : q ≠ [] := by intro h; rw [h] at h1; simp at h1
  have hipne : q ++ List.replicate (digsVal es) 48 ≠ [] := by
    simp [hne]
  have hd0 : 48 ≤ ((q ++ List.replicate (digsVal es) 48) ++ 101 :: 45 :: es).getD 0 0 := by
    rcases q with _ | ⟨c, l⟩
    · exact absurd rfl hne
    · exact (hdsQ c (by simp)).1
  rw [pushAll_new neg _ (by simp [hne]) hd0]
  rw [show (q ++ List.replicate (digsVal es) 48) ++ 101 :: 45 :: es =
    (q ++ List.replicate (digsVal es) 48) ++ [101] ++ [45] ++ es from by simp]
  rw [pushAll_append, pushAll_append, pushAll_append]
  have hfold := intFold (q ++ List.replicate (digsVal es) 48) [] neg
    (by
      intro c hc
      rcases List.mem_append.mp hc with h | h
      · exact hdsQ c h
      · rw [List.eq_of_mem_replicate h]
        omega)
    (by simp; omega)
    (by
      right
      rcases q with _ | ⟨c, l⟩
      · exact absurd rfl hne
      · simpa using hlzq)
    hipne
  simp only [List.isEmpty_nil, Bool.not_true, List.nil_append] at hfold
  rw [hfold]
  have he : (midInt neg (q ++ List.replicate (digsVal es) 48) true).pushAll
      [101] = midExp neg (q ++ List.replicate (digsVal es) 48) true false
        (some 0) false := by
    show (NumberSink.pushByte (midInt neg _ true) 101).2 = _
    rw [eStep]
  rw [he]
  have hs : (midExp neg (q ++ List.replicate (digsVal es) 48) true false
      (some 0) false).pushAll [45] =
      midExp neg (q ++ List.replicate (digsVal es) 48) false true
        (some 0) false := by
    show (NumberSink.pushByte (midExp neg _ true false (some 0) false) 45).2 = _
    rw [expSignStep]
  rw [hs]
  rw [show (some (0 : Int)) = some (((0 : Nat) : Nat) : Int) from by norm_num]
  rw [expFold es 0 neg (q ++ List.replicate (digsVal es) 48) false true
    false hdsE hk hene]
  have h19 : q.length ≤ 19 := by
    apply digsVal_len_le q hne (Or.inr hlzq) hdsQ
    rcases hrange with h | h
    · omega
    · exact h.2
  have hsig : (midExp neg (q ++ List.replicate (digsVal es) 48) false true
      (some ((digsValFrom 0 es : Nat) : Int))
        true).significantDigitsAndExponent =
      some (q.length, ((0 : Nat) : Int)) := by
    apply sig_midExp neg (q ++ List.replicate (digsVal es) 48) true
      (digsValFrom 0 es) q.length ((0 : Nat) : Int) hk
    rw [show ((if true then -((digsValFrom 0 es : Nat) : Int)
      else ((digsValFrom 0 es : Nat) : Int)) + 0) =
      -((digsValFrom 0 es : Nat) : Int) from by simp]
    rw [padMerge q (digsVal es) hwin]
    simp only [List.length_append, List.length_replicate]
    rw [normLoop_strip (digsVal es) _ q.length
      (-((digsValFrom 0 es : Nat) : Int))
      (by
        show -((digsVal es : Nat) : Int) + ((digsVal es : Nat) : Int) ≤ 0
        omega)
      (fun j hj1 hj2 => padGetD_hi q j hj1 (by omega))]
    rw [show (-((digsValFrom 0 es : Nat) : Int) + ((digsVal es : Nat) : Int))
      = ((0 : Nat) : Int) from by
        show -((digsVal es : Nat) : Int) + ((digsVal es : Nat) : Int) = _
        omega]
    exact normLoop_nonneg _ _ _ (by omega)
  have hlo : -(2 ^ 63) ≤ (if (midExp neg (q ++ List.replicate (digsVal es) 48)
      false true (some ((digsValFrom 0 es : Nat) : Int)) true).negative
      then -1 else 1) * (digsVal q : Int) * 10 ^ (0 : Nat) := by
    show -(2 ^ 63) ≤ (if neg then -1 else 1) * (digsVal q : Int) * 10 ^ (0 : Nat)
    cases hn : neg with
    | false =>
      simp only [Bool.false_eq_true, if_false, one_mul, pow_zero, mul_one]
      have : (0 : Int) ≤ (digsVal q : Int) := by positivity
      omega
    | true =>
      simp only [if_true, neg_one_mul, pow_zero, mul_one]
      rw [hn] at hrange
      have : digsVal q ≤ 2 ^ 63 := by
        rcases hrange with h | h
        · omega
        · exact h.2
      omega
  have hhi : (if (midExp neg (q ++ List.replicate (digsVal es) 48)
      false true (some ((digsValFrom 0 es : Nat) : Int)) true).negative
      then -1 else 1) * (digsVal q : Int) * 10 ^ (0 : Nat) ≤ 2 ^ 63 - 1 := by
    show (if neg then -1 else 1) * (digsVal q : Int) * 10 ^ (0 : Nat) ≤ 2 ^ 63 - 1
    cases hn : neg with
    | false =>
      simp only [Bool.false_eq_true, if_false, one_mul, pow_zero, mul_one]
      rw [hn] at hrange
      have : digsVal q < 2 ^ 63 := by
        rcases hrange with h | h
        · exact h
        · simp at h
      omega
    | true =>
      simp only [if_true, neg_one_mul, pow_zero, mul_one]
      have : (0 : Int) ≤ (digsVal q : Int) := by positivity
      omega
  have hcore := i64_core (midExp neg (q ++ List.replicate (digsVal es) 48)
      false true (some ((digsValFrom 0 es : Nat) : Int)) true) q 0 hsig rfl
    (padMerge q (digsVal es) hwin)
    h1 h19 hdsQ hlo hhi
  have h2 : ((if neg then -1 else 1) * (digsVal q : Int) * 10 ^ (0 : Nat)) =
      ((if neg then -1 else 1) * (digsVal q : Int)) := by
    rw [pow_zero, mul_one]
  rw [← h2]
  exact hcore

/-- An integer literal whose last digit is nonzero, with a nonzero
negative exponent: extraction fails. -/
theorem i64_negexp_none (neg : Bool) (ip es : List Nat)
    (hdsI : ∀ c ∈ ip, 48 ≤ c ∧ c ≤ 57) (hdsE : ∀ c ∈ es, 48 ≤ c ∧ c ≤ 57)
    (h1 : 1 ≤ ip.length) (hwin : ip.length ≤ 21)
    (hlz : ip.length ≤ 1 ∨ ip.getD 0 0 ≠ 48)
    (hlast : ip.getD (ip.length - 1) 0 ≠ 48)
    (hene : es ≠ []) (hE1 : 1 ≤ digsVal es) (hE : digsVal es ≤ 32767) :
    NumberSink.i64 (NumberSink.new.pushAll
        (signBytes neg ++ (ip ++ 101 :: 45 :: es))) = none := by
  have hne : ip ≠ [] := by intro h; rw [h] at h1; simp at h1
  have hd0 : 48 ≤ (ip ++ 101 :: 45 :: es).getD 0 0 := by
    rcases ip with _ | ⟨c, l⟩
    · exact absurd rfl hne
    · exact (hdsI c (by simp)).1
  rw [pushAll_new neg _ (by simp) hd0]
  rw [show ip ++ 101 :: 45 :: es = ip ++ [101] ++ [45] ++ es from by simp]
  rw [pushAll_append, pushAll_append, pushAll_append]
  have hfold := intFold ip [] neg hdsI (by simp; omega)
    (by simpa using hlz) hne
  simp only [List.isEmpty_nil, Bool.not_true, List.nil_append] at hfold
  rw [hfold]
  have he : (midInt neg ip true).pushAll [101] =
      midExp neg ip true false (some 0) false := by
    show (NumberSink.pushByte (midInt neg ip true) 101).2 = _
    rw [eStep]
  rw [he]
  have hs : (midExp neg ip true false (some 0) false).pushAll [45] =
      midExp neg ip false true (some 0) false := by
    show (NumberSink.pushByte (midExp neg ip true false (some 0) false) 45).2 = _
    rw [expSignStep]
  rw [hs]
  rw [show (some (0 : Int)) = some (((0 : Nat)) : Int) from by norm_num]
  rw [expFold es 0 neg ip false true false hdsE hE hene]
  apply i64_none_of_sig _ ip.length (-((digsValFrom 0 es : Nat) : Int))
  · apply sig_midExp neg ip true (digsValFrom 0 es) ip.length
      (-((digsValFrom 0 es : Nat) : Int)) hE
    rw [show ((if true then -((digsValFrom 0 es : Nat) : Int)
      else ((digsValFrom 0 es : Nat) : Int)) + 0) =
      -((digsValFrom 0 es : Nat) : Int) from by simp]
    apply normLoop_stop2 _ ip.length _ h1
    right
    rw [padGetD_lo ip (ip.length - 1) (by omega)]
    exact hlast
  · show -((digsVal es : Nat) : Int) < 0
    omega

/-- C2 counterexample: `0.00` and `10.00000000000000000000` are strictly
valid number literals whose mathematical values are the 64-bit integers
`0` and `10`, yet the exact-integer extraction returns `None` for both
(`0.00` underflows the zero special case of the trailing-zero
normalization; the twentieth fractional zero of the long literal is
truncated from the digit window and counted as precision loss).  `0.0`,
by contrast, extracts fine — so neither literal fails by design. -/
theorem i64_integer_valued_rejected :
    NumberSink.i64 (NumberSink.new.pushAll [48, 46, 48, 48]) = none ∧
    NumberSink.strictlyValid (NumberSink.new.pushAll [48, 46, 48, 48]) = true ∧
    NumberSink.i64 (NumberSink.new.pushAll
      ([49, 48, 46] ++ List.replicate 20 48)) = none ∧
    NumberSink.strictlyValid (NumberSink.new.pushAll
      ([49, 48, 46] ++ List.replicate 20 48)) = true ∧
    NumberSink.i64 (NumberSink.new.pushAll [48, 46, 48]) = some 0 :=
  ⟨rfl, rfl, rfl, rfl, rfl⟩

/-- C2 (corrected): the exact-integer extraction of the accumulator.
Every 64-bit-representable optionally signed integer literal — including
all 19-digit values up to `i64::MAX` and down to `i64::MIN` — extracts
to exactly its mathematical value; a dotted literal with a nonzero
leading digit and only zeros after the decimal point likewise; a dotted
literal with any nonzero fractional digit (a non-integer value)
extracts to `None`; an integer literal with a positive exponent
extracts to the digit value times the power of ten whenever that is
64-bit-representable; a negative exponent that exactly cancels the
trailing zeros of the integer part extracts to the shortened value; a
negative exponent against a nonzero last digit extracts to `None`; and
concretely `9223372036854775807`, `-9223372036854775808`, `10e1`,
`10e-1`, `100e-1` and `10.0` extract to those values, `100`, `1`, `10`
and `10`, while `12.30` extracts to `None`.  (The claim's full
statement is refuted by the counterexample above: integer-valued
literals can be rejected when the zero special case or the digit window
intervenes.) -/
theorem i64_extraction_spec :
    (∀ (neg : Bool) (ip : List Nat), (∀ c ∈ ip, 48 ≤ c ∧ c ≤ 57) →
      1 ≤ ip.length → (ip.length ≤ 1 ∨ ip.getD 0 0 ≠ 48) →
      (digsVal ip < 2 ^ 63 ∨ (neg = true ∧ digsVal ip ≤ 2 ^ 63)) →
      NumberSink.i64 (NumberSink.new.pushAll (signBytes neg ++ ip)) =
        some ((if neg then -1 else 1) * (digsVal ip : Int))) ∧
    (∀ (neg : Bool) (ip : List Nat) (m : Nat),
      (∀ c ∈ ip, 48 ≤ c ∧ c ≤ 57) → 1 ≤ ip.length →
      ip.getD 0 0 ≠ 48 → 1 ≤ m → ip.length + m ≤ 21 →
      (digsVal ip < 2 ^ 63 ∨ (neg = true ∧ digsVal ip ≤ 2 ^ 63)) →
      NumberSink.i64 (NumberSink.new.pushAll
          (signBytes neg ++ (ip ++ 46 :: List.replicate m 48))) =
        some ((if neg then -1 else 1) * (digsVal ip : Int))) ∧
    (∀ (neg : Bool) (ip fp : List Nat),
      (∀ c ∈ ip, 48 ≤ c ∧ c ≤ 57) → (∀ c ∈ fp, 48 ≤ c ∧ c ≤ 57) →
      1 ≤ ip.length → ip.length + fp.length ≤ 21 →
      (∃ c ∈ fp, c ≠ 48) →
      (ip.length = 1 ∨ ip.getD 0 0 ≠ 48) →
      NumberSink.i64 (NumberSink.new.pushAll
          (signBytes neg ++ (ip ++ 46 :: fp))) = none) ∧
    (∀ (neg : Bool) (ip es : List Nat),
      (∀ c ∈ ip, 48 ≤ c ∧ c ≤ 57) → (∀ c ∈ es, 48 ≤ c ∧ c ≤ 57) →
      1 ≤ ip.length → (ip.length ≤ 1 ∨ ip.getD 0 0 ≠ 48) →
      es ≠ [] → digsVal es ≤ 32767 →
      (digsVal ip * 10 ^ digsVal es < 2 ^ 63 ∨
        (neg = true ∧ digsVal ip * 10 ^ digsVal es ≤ 2 ^ 63)) →
      NumberSink.i64 (NumberSink.new.pushAll
          (signBytes neg ++ (ip ++ 101 :: es))) =
        some ((if neg then -1 else 1) * (digsVal ip : Int)
          * 10 ^ digsVal es)) ∧
    (∀ (neg : Bool) (q es : List Nat) (k : Nat),
      (∀ c ∈ q, 48 ≤ c ∧ c ≤ 57) → (∀ c ∈ es, 48 ≤ c ∧ c ≤ 57) →
      1 ≤ q.length → q.length + k ≤ 21 → q.getD 0 0 ≠ 48 →
      es ≠ [] → digsVal es = k → k ≤ 32767 →
      (digsVal q < 2 ^ 63 ∨ (neg = true ∧ digsVal q ≤ 2 ^ 63)) →
      NumberSink.i64 (NumberSink.new.pushAll
          (signBytes neg ++
            ((q ++ List.replicate k 48) ++ 101 :: 45 :: es))) =
        some ((if neg then -1 else 1) * (digsVal q : Int))) ∧
    (∀ (neg : Bool) (ip es : List Nat),
      (∀ c ∈ ip, 48 ≤ c ∧ c ≤ 57) → (∀ c ∈ es, 48 ≤ c ∧ c ≤ 57) →
      1 ≤ ip.length → ip.length ≤ 21 →
      (ip.length ≤ 1 ∨ ip.getD 0 0 ≠ 48) →
      ip.getD (ip.length - 1) 0 ≠ 48 →
      es ≠ [] → 1 ≤ digsVal es → digsVal es ≤ 32767 →
      NumberSink.i64 (NumberSink.new.pushAll
          (signBytes neg ++ (ip ++ 101 :: 45 :: es))) = none) ∧
    (NumberSink.i64 (NumberSink.new.pushAll
        [57, 50, 50, 51, 51, 55, 50, 48, 51, 54, 56, 53, 52, 55, 55, 53,
          56, 48, 55]) = some 9223372036854775807 ∧
      NumberSink.i64 (NumberSink.new.pushAll
        [45, 57, 50, 50, 51, 51, 55, 50, 48, 51, 54, 56, 53, 52, 55, 55,
          53, 56, 48, 56]) = some (-9223372036854775808) ∧
      NumberSink.i64 (NumberSink.new.pushAll [49, 50, 46, 51, 48]) = none ∧
      NumberSink.i64 (NumberSink.new.pushAll [49, 48, 101, 49]) =
        some 100 ∧
      NumberSink.i64 (NumberSink.new.pushAll [49, 48, 101, 45, 49]) =
        some 1 ∧
      NumberSink.i64 (NumberSink.new.pushAll [49, 48, 48, 101, 45, 49]) =
        some 10 ∧
      NumberSink.i64 (NumberSink.new.pushAll [49, 48, 46, 48]) =
        some 10) :=
  ⟨i64_int_lit, i64_intdot_lit, i64_fracnz_none, i64_intexp_lit,
    i64_negexp_lit, i64_negexp_none, rfl, rfl, rfl, rfl, rfl, rfl, rfl⟩

/-- Witness for C2: the literal `-123` extracts to `-123`. -/
theorem i64_extraction_spec_witness :
    NumberSink.i64 (NumberSink.new.pushAll (signBytes true ++ [49, 50, 51])) =
      some ((if true then -1 else 1) * (digsVal [49, 50, 51] : Int)) :=
  i64_extraction_spec.1 true [49, 50, 51] (by decide) (by decide) (by decide)
    (by decide)

/-! ## Canonical documents and the disposal contract (claim C1) -/

mutual
/-- A canonical (whitespace-free) JSON document: numbers are signed
integer literals given by their digit bytes, strings are raw bodies
without escapes, and arrays and objects carry their element spines. -/
inductive J where
  | jnum (neg : Bool) (ds : List Nat)
  | jtrue
  | jfalse
  | jnull
  | jstr (s : List Nat)
  | jarr (l : JList)
  | jobj (l : JFields)
/-- The element spine of a canonical array. -/
inductive JList where
  | nil
  | cons (v : J) (tl : JList)
/-- The key/value spine of a canonical object. -/
inductive JFields where
  | fnil
  | fcons (k : List Nat) (v : J) (tl : JFields)
end

mutual
/-- Serialize a canonical document (no whitespace). -/
def ser : J → Bytes
  | .jnum neg ds => signBytes neg ++ ds
  | .jtrue => [116, 114, 117, 101]
  | .jfalse => [102, 97, 108, 115, 101]
  | .jnull => [110, 117, 108, 108]
  | .jstr s => 34 :: (s ++ [34])
  | .jarr l => 91 :: serInner l
  | .jobj l => 123 :: serFields l
/-- Serialize an array's content from the position just after `[` (or just
after the comma separating the previous element), including the `]`. -/
def serInner : JList → Bytes
  | .nil => [93]
  | .cons v tl => ser v ++ serRest tl
/-- Serialize an array's content from the position just after a complete
element: the separating comma (if any) and the remaining elements. -/
def serRest : JList → Bytes
  | .nil => [93]
  | .cons v tl => 44 :: (ser v ++ serRest tl)
/-- Serialize an object's content from the position just after `{` (or the
separating comma), including the `}`. -/
def serFields : JFields → Bytes
  | .fnil => [125]
  | .fcons k v tl => 34 :: (k ++ 34 :: 58 :: (ser v ++ serFRest tl))
/-- Serialize an object's content from the position just after a complete
field value. -/
def serFRest : JFields → Bytes
  | .fnil => [125]
  | .fcons k v tl => 44 :: (34 :: (k ++ 34 :: 58 :: (ser v ++ serFRest tl)))
end

mutual
/-- Number of `single_step` automaton steps that fully consume a value in
context (each value's last step also takes its trailing separator). -/
def costJ : J → Nat
  | .jnum _ _ => 1
  | .jtrue => 1
  | .jfalse => 1
  | .jnull => 1
  | .jstr _ => 1
  | .jarr l => costL l + 1
  | .jobj l => costF l + 1
/-- Steps to consume an array's remaining content including the close. -/
def costL : JList → Nat
  | .nil => 1
  | .cons v tl => costJ v + costL tl + 1
/-- Steps to consume an object's remaining content including the close. -/
def costF : JFields → Nat
  | .fnil => 1
  | .fcons _ v tl => costJ v + costF tl + 1
end

/-- Number of elements remaining on an array spine. -/
def lenL : JList → Nat
  | .nil => 0
  | .cons _ tl => lenL tl + 1

/-- Number of fields remaining on an object spine. -/
def lenF : JFields → Nat
  | .fnil => 0
  | .fcons _ _ tl => lenF tl + 1

/-- A string-body byte needing no escape: printable ASCII other than the
quote and the backslash. -/
def strOkByte (c : Nat) : Bool :=
  32 ≤ c && c ≤ 126 && !(c = 34) && !(c = 92)

mutual
/-- Well-formed canonical document: number literals are nonempty digit
runs fitting the 21-digit window with no leading zero (except a lone
zero), string bodies are escape-free ASCII. -/
def wfJ : J → Bool
  | .jnum _ ds => !ds.isEmpty && ds.all isDigitByte && ds.length ≤ 21 &&
      (ds.length ≤ 1 || !(ds.getD 0 0 = 48))
  | .jtrue => true
  | .jfalse => true
  | .jnull => true
  | .jstr s => s.all strOkByte
  | .jarr l => wfL l
  | .jobj l => wfF l
/-- Well-formed array spine. -/
def wfL : JList → Bool
  | .nil => true
  | .cons v tl => wfJ v && wfL tl
/-- Well-formed object spine. -/
def wfF : JFields → Bool
  | .fnil => true
  | .fcons k v tl => k.all strOkByte && wfJ v && wfF tl
end

/-- Byte sources on which `advance_past_comma_or_to_close` succeeds
immediately: a comma followed by a sibling (non-whitespace, non-close)
byte, or a closing bracket left for the parent.  This is the shape of the
remaining input after any complete element of a well-formed document. -/
def sepOk (bs : Bytes) : Bool :=
  match bs with
  | [] => false
  | c :: tl =>
    if c = 44 then
      match tl with
      | [] => false
      | c2 :: _ => !isWsByte c2 && !(c2 = 93) && !(c2 = 125)
    else c = 93 || c = 125

/-- The byte source after the separator routine: the comma (if any) is
consumed, a close is left in place. -/
def sepOut (bs : Bytes) : Bytes :=
  match bs with
  | c :: tl => if c = 44 then tl else bs
  | [] => bs

theorem sepOk_cons (c : Nat) (tl : Bytes) :
    sepOk (c :: tl) =
      if c = 44 then
        (match tl with
         | [] => false
         | c2 :: _ => !isWsByte c2 && !(c2 = 93) && !(c2 = 125))
      else (c = 93 || c = 125) := rfl

theorem sepOk_ne_nil (bs : Bytes) (h : sepOk bs = true) :
    ∃ x r, bs = x :: r ∧ isNumberTerminator x = true := by
  match bs with
  | [] => exact absurd h (by simp [sepOk])
  | c :: tl =>
    refine ⟨c, tl, rfl, ?_⟩
    rw [sepOk_cons] at h
    by_cases hc : c = 44
    · subst hc; rfl
    · rw [if_neg hc] at h
      simp only [Bool.or_eq_true, decide_eq_true_eq] at h
      rcases h with h | h <;> subst h <;> rfl

/-- The separator routine consumes exactly the comma (or nothing before a
close) on a well-shaped separator. -/
theorem sep_consume (bs : Bytes) (h : sepOk bs = true) :
    advancePastCommaOrClose bs = (.ok (), sepOut bs) := by
  match bs with
  | [] => exact absurd h (by simp [sepOk])
  | c :: tl =>
    rw [sepOk_cons] at h
    by_cases hc : c = 44
    · subst hc
      rw [if_pos rfl] at h
      match tl with
      | [] => exact absurd h (by simp)
      | c2 :: tl2 =>
        simp only [Bool.and_eq_true, Bool.not_eq_true', decide_eq_false_iff_not] at h
        obtain ⟨⟨hw, h93⟩, h125⟩ := h
        unfold advancePastCommaOrClose
        rw [advanceWhitespace_nonWs 44 rfl]
        simp only []
        rw [show peekB (44 :: c2 :: tl2) 0 = .ok 44 from rfl]
        simp only []
        rw [if_pos trivial]
        rw [advanceB_cons]
        simp only []
        rw [advanceWhitespace_nonWs c2 hw]
        simp only []
        rw [show peekB (c2 :: tl2) 0 = .ok c2 from rfl]
        simp only []
        rw [if_neg (by tauto)]
        simp [sepOut]
    · rw [if_neg hc] at h
      simp only [Bool.or_eq_true, decide_eq_true_eq] at h
      have hw : isWsByte c = false := by
        rcases h with h | h <;> subst h <;> rfl
      unfold advancePastCommaOrClose
      rw [advanceWhitespace_nonWs c hw]
      simp only []
      rw [show peekB (c :: tl) 0 = .ok c from rfl]
      simp only []
      rw [if_neg hc]
      rw [if_pos h]
      simp [sepOut, if_neg hc]

theorem peekB_at (pre : Bytes) (c : Nat) (rest : Bytes) :
    peekB (pre ++ c :: rest) pre.length = .ok c := by
  induction pre with
  | nil => rfl
  | cons x xs ih =>
    show peekB (x :: (xs ++ c :: rest)) (xs.length + 1) = .ok c
    unfold peekB
    rw [List.get?_cons_succ]
    exact ih

theorem peekUtf8_at_ascii (pre : Bytes) (c : Nat) (rest : Bytes) (hc : c < 128) :
    peekUtf8 (pre ++ c :: rest) pre.length = .ok (1, c) := by
  unfold peekUtf8
  rw [peekB_at]
  simp only []
  rw [show c >>> 7 = 0 from by
    have h2 : (2 : Nat) ^ 7 = 128 := by norm_num
    rw [Nat.shiftRight_eq_div_pow, h2]
    exact Nat.div_eq_of_lt hc]
  simp

/-- The quote-scan loop over an escape-free ASCII body stops exactly at
the closing quote. -/
theorem findClose_clean (body : List Nat) : ∀ (pre rest : Bytes) (fuel : Nat),
    (∀ c ∈ body, strOkByte c = true) → body.length + 1 ≤ fuel →
    findClose (pre ++ (body ++ 34 :: rest)) fuel pre.length false
      = .ok (pre.length + body.length) := by
  induction body with
  | nil =>
    intro pre rest fuel _ hf
    obtain ⟨f, rfl⟩ : ∃ f, fuel = f + 1 := ⟨fuel - 1, by omega⟩
    rw [show pre ++ ([] ++ 34 :: rest) = pre ++ 34 :: rest from by simp]
    unfold findClose
    rw [peekUtf8_at_ascii pre 34 rest (by norm_num)]
    simp
  | cons c body' ih =>
    intro pre rest fuel hb hf
    obtain ⟨f, rfl⟩ : ∃ f, fuel = f + 1 := ⟨fuel - 1, by omega⟩
    have hc : strOkByte c = true := hb c (by simp)
    simp only [strOkByte, Bool.and_eq_true, Bool.not_eq_true',
      decide_eq_false_iff_not, decide_eq_true_eq] at hc
    obtain ⟨⟨⟨h32, h126⟩, h34⟩, h92⟩ := hc
    rw [show pre ++ ((c :: body') ++ 34 :: rest) = pre ++ c :: (body' ++ 34 :: rest)
      from by simp]
    unfold findClose
    rw [peekUtf8_at_ascii pre c (body' ++ 34 :: rest) (by omega)]
    simp only [Bool.false_eq_true, if_false]
    rw [if_neg h34]
    rw [if_neg (by push_neg; omega)]
    rw [show (decide (c = 92)) = false from by simp [h92]]
    rw [show charLenUtf8 c = 1 from by unfold charLenUtf8; rw [if_pos (by omega)]]
    have hb' : ∀ d ∈ body', strOkByte d = true := fun d hd => hb d (by simp [hd])
    have hrec := ih (pre ++ [c]) rest f hb'
      (by simp only [List.length_cons] at hf; omega)
    rw [show (pre ++ [c]).length = pre.length + 1 from by simp] at hrec
    rw [show (pre ++ [c]) ++ (body' ++ 34 :: rest) = pre ++ c :: (body' ++ 34 :: rest)
      from by simp] at hrec
    rw [hrec]
    simp only [List.length_cons]
    rw [show pre.length + 1 + body'.length = pre.length + (body'.length + 1) from by omega]

theorem readBytesB_prefix (x y : Bytes) :
    readBytesB (x ++ y) x.length = .ok (x, y) := by
  unfold readBytesB
  rw [if_pos (by simp)]
  rw [List.take_left, List.drop_left]

theorem advanceB_exact (x y : Bytes) : advanceB (x ++ y) x.length = .ok y := by
  unfold advanceB
  rw [if_pos (by simp)]
  rw [List.drop_left]

/-- Reading a string whose body needs no escapes consumes exactly the
body and the closing quote. -/
theorem readString_clean (body rest : Bytes)
    (hb : ∀ c ∈ body, strOkByte c = true) :
    readString (body ++ 34 :: rest) = .ok (body, rest) := by
  unfold readString
  have h1 := findClose_clean body [] rest ((body ++ 34 :: rest).length + 1) hb
    (by simp)
  simp only [List.nil_append, List.length_nil, Nat.zero_add] at h1
  rw [h1]
  simp only []
  rw [show body ++ 34 :: rest = body ++ (34 :: rest) from rfl, readBytesB_prefix]
  simp only []
  rw [advanceB_cons]

/-- The first byte of a well-formed value's serialization: never
whitespace, a closing bracket, or a comma. -/
theorem serHead (v : J) (hv : wfJ v = true) :
    ∃ c r, ser v = c :: r ∧ isWsByte c = false ∧ c ≠ 93 ∧ c ≠ 125 ∧ c ≠ 44 := by
  cases v with
  | jnum neg ds =>
    simp only [wfJ, Bool.and_eq_true, Bool.not_eq_true',
      List.all_eq_true, decide_eq_true_eq] at hv
    obtain ⟨⟨⟨hne, hdig⟩, _⟩, _⟩ := hv
    cases neg with
    | true => exact ⟨45, ds, rfl, rfl, by omega, by omega, by omega⟩
    | false =>
      match ds, hne with
      | [], hne => simp at hne
      | d :: ds', _ =>
        have hd := hdig d (by simp)
        simp only [isDigitByte, Bool.and_eq_true, decide_eq_true_eq] at hd
        refine ⟨d, ds', rfl, ?_, by omega, by omega, by omega⟩
        simp only [isWsByte, Bool.or_eq_false_iff, decide_eq_false_iff_not]
        omega
  | jtrue => exact ⟨116, _, rfl, rfl, by omega, by omega, by omega⟩
  | jfalse => exact ⟨102, _, rfl, rfl, by omega, by omega, by omega⟩
  | jnull => exact ⟨110, _, rfl, rfl, by omega, by omega, by omega⟩
  | jstr s => exact ⟨34, _, rfl, rfl, by omega, by omega, by omega⟩
  | jarr l => exact ⟨91, _, rfl, rfl, by omega, by omega, by omega⟩
  | jobj l => exact ⟨123, _, rfl, rfl, by omega, by omega, by omega⟩

/-- The first byte after an array opener is never whitespace. -/
theorem serInnerHead (l : JList) (hl : wfL l = true) :
    ∃ c r, serInner l = c :: r ∧ isWsByte c = false := by
  cases l with
  | nil => exact ⟨93, [], rfl, rfl⟩
  | cons v tl =>
    simp only [wfL, Bool.and_eq_true] at hl
    obtain ⟨c, r, hser, hws, _⟩ := serHead v hl.1
    exact ⟨c, r ++ serRest tl, by simp [serInner, hser], hws⟩

/-- The first byte after an object opener is never whitespace. -/
theorem serFieldsHead (l : JFields) :
    ∃ c r, serFields l = c :: r ∧ isWsByte c = false := by
  cases l with
  | fnil => exact ⟨125, [], rfl, rfl⟩
  | fcons k v tl => exact ⟨34, _, rfl, rfl⟩

/-- After a complete array element, the remaining bytes form a
well-shaped separator, and the separator routine leaves the source at the
next element (or at the close). -/
theorem serRest_sep (tl : JList) (htl : wfL tl = true) (rest : Bytes) :
    sepOk (serRest tl ++ rest) = true ∧
      sepOut (serRest tl ++ rest) = serInner tl ++ rest := by
  cases tl with
  | nil =>
    constructor
    · rw [show serRest JList.nil ++ rest = 93 :: rest from rfl, sepOk_cons]
      simp
    · rfl
  | cons v tl' =>
    simp only [wfL, Bool.and_eq_true] at htl
    obtain ⟨c, r, hser, hws, h93, h125, _⟩ := serHead v htl.1
    constructor
    · rw [show serRest (JList.cons v tl') ++ rest
        = 44 :: ((ser v ++ serRest tl') ++ rest) from by simp [serRest]]
      rw [sepOk_cons, if_pos rfl]
      rw [show (ser v ++ serRest tl') ++ rest = c :: (r ++ serRest tl' ++ rest)
        from by simp [hser]]
      simp [hws, h93, h125]
    · rw [show serRest (JList.cons v tl') ++ rest
        = 44 :: ((ser v ++ serRest tl') ++ rest) from by simp [serRest]]
      rw [show sepOut (44 :: ((ser v ++ serRest tl') ++ rest))
        = (ser v ++ serRest tl') ++ rest from by simp [sepOut]]
      simp [serInner]

/-- After a complete field value, the remaining bytes form a well-shaped
separator leading to the next field (or to the close). -/
theorem serFRest_sep (tl : JFields) (rest : Bytes) :
    sepOk (serFRest tl ++ rest) = true ∧
      sepOut (serFRest tl ++ rest) = serFields tl ++ rest := by
  cases tl with
  | fnil =>
    constructor
    · rw [show serFRest JFields.fnil ++ rest = 125 :: rest from rfl, sepOk_cons]
      simp
    · rfl
  | fcons k v tl' =>
    constructor
    · rw [show serFRest (JFields.fcons k v tl') ++ rest
        = 44 :: (34 :: ((k ++ 34 :: 58 :: (ser v ++ serFRest tl')) ++ rest))
        from by simp [serFRest]]
      rw [sepOk_cons, if_pos rfl]
      simp [isWsByte]
    · rw [show serFRest (JFields.fcons k v tl') ++ rest
        = 44 :: ((34 :: (k ++ 34 :: 58 :: (ser v ++ serFRest tl'))) ++ rest)
        from by simp [serFRest]]
      rw [show sepOut (44 :: ((34 :: (k ++ 34 :: 58 :: (ser v ++ serFRest tl'))) ++ rest))
        = (34 :: (k ++ 34 :: 58 :: (ser v ++ serFRest tl'))) ++ rest
        from by simp [sepOut]]
      simp [serFields]

/-- A number terminator is not a digit. -/
theorem terminator_not_digit (t : Nat) (ht : isNumberTerminator t = true) :
    isDigitByte t = false := by
  simp only [isNumberTerminator, Bool.or_eq_true, decide_eq_true_eq] at ht
  simp only [isDigitByte, Bool.and_eq_false_iff, decide_eq_false_iff_not]
  omega

/-- Pushing a terminator byte in the integer part reports "not part of
the number" and leaves the sink unchanged. -/
theorem termStep (neg : Bool) (stored : List Nat) (dic : Bool) (t : Nat)
    (ht : isNumberTerminator t = true) :
    NumberSink.pushByte (midInt neg stored dic) t = (false, midInt neg stored dic) := by
  unfold NumberSink.pushByte
  rw [if_neg (by simp [midInt])]
  unfold NumberSink.pushMain
  rw [if_pos (by simp [midInt])]
  rw [if_neg (by simp [terminator_not_digit t ht])]
  rw [if_pos ht]

/-- Scanning the digits of an integer literal pushes every digit and
stops at the terminator with the accumulated window state. -/
theorem numScan_int (ds : List Nat) : ∀ (stored : List Nat) (neg : Bool)
    (t : Nat) (rest : Bytes),
    (∀ c ∈ ds, 48 ≤ c ∧ c ≤ 57) → stored.length + ds.length ≤ 21 →
    isNumberTerminator t = true →
    (stored = [] → ds.getD 0 0 = 48 → ds.length ≤ 1) →
    (stored ≠ [] → ds ≠ [] → stored.getD 0 0 ≠ 48) →
    ¬(stored = [] ∧ ds = []) →
    numScan (midInt neg stored (!stored.isEmpty)) (ds ++ t :: rest)
      = .ok (midInt neg (stored ++ ds) true, ds.length) := by
  induction ds with
  | nil =>
    intro stored neg t rest _ _ ht _ _ hne
    have hst : stored ≠ [] := fun h => hne ⟨h, rfl⟩
    rw [show (!stored.isEmpty) = true from by
      cases stored with
      | nil => exact absurd rfl hst
      | cons a l => rfl]
    rw [show ([] : List Nat) ++ t :: rest = t :: rest from rfl]
    unfold numScan
    rw [termStep neg stored true t ht]
    simp
  | cons d ds' ih =>
    intro stored neg t rest hdig hlen ht h4 h5 _
    have hd := hdig d (by simp)
    rw [show (d :: ds') ++ t :: rest = d :: (ds' ++ t :: rest) from rfl]
    unfold numScan
    rw [intStep neg stored d hd.1 hd.2 (by simp at hlen; omega) (by
      by_cases hst : stored = []
      · exact Or.inl hst
      · exact Or.inr (h5 hst (by simp)))]
    simp only []
    have hrec := ih (stored ++ [d]) neg t rest
      (fun c hc => hdig c (by simp [hc]))
      (by simp at hlen ⊢; omega) ht
      (by intro h; exact absurd h (by simp))
      (by
        intro _ hds'
        match stored, h4, h5 with
        | [], h4, _ =>
          simp only [List.nil_append, List.getD_cons_zero]
          intro hd48
          have := h4 rfl (by simpa using hd48)
          simp at this
          exact hds' this
        | s0 :: st', _, h5 =>
          simp only [List.cons_append, List.getD_cons_zero]
          have := h5 (by simp) (by simp)
          simpa using this)
      (by simp)
    rw [show (!(stored ++ [d]).isEmpty) = true from by simp] at hrec
    rw [hrec]
    simp only []
    rw [show (stored ++ [d]) ++ ds' = stored ++ d :: ds' from by simp]
    simp

/-- Scanning a full signed integer literal from the fresh sink. -/
theorem numScan_full (neg : Bool) (ds : List Nat) (t : Nat) (rest : Bytes)
    (hdig : ∀ c ∈ ds, 48 ≤ c ∧ c ≤ 57) (hne : ds ≠ []) (hlen : ds.length ≤ 21)
    (hlz : ds.getD 0 0 = 48 → ds.length ≤ 1) (ht : isNumberTerminator t = true) :
    numScan NumberSink.new ((signBytes neg ++ ds) ++ t :: rest)
      = .ok (midInt neg ds true, (signBytes neg ++ ds).length) := by
  match ds, hne with
  | d :: ds', _ =>
  have hd := hdig d (by simp)
  cases neg with
  | true =>
    rw [show (signBytes true ++ (d :: ds')) ++ t :: rest
      = 45 :: ((d :: ds') ++ t :: rest) from by simp [signBytes]]
    unfold numScan
    rw [pushSign]
    simp only []
    have hrec := numScan_int (d :: ds') [] true t rest hdig (by simpa using hlen)
      ht (fun _ => hlz) (fun h => absurd rfl h) (by simp)
    rw [show (!([] : List Nat).isEmpty) = false from rfl] at hrec
    rw [hrec]
    simp [signBytes]
  | false =>
    rw [show (signBytes false ++ (d :: ds')) ++ t :: rest
      = d :: (ds' ++ t :: rest) from by simp [signBytes]]
    unfold numScan
    rw [show NumberSink.new.pushByte d
      = (midInt false [] (!([] : List Nat).isEmpty)).pushByte d from pushNoSign d hd.1]
    rw [intStep false [] d hd.1 hd.2 (by simp) (Or.inl rfl)]
    simp only []
    have hrec := numScan_int ds' [d] false t rest
      (fun c hc => hdig c (by simp [hc]))
      (by simp at hlen ⊢; omega) ht
      (by intro h; exact absurd h (by simp))
      (by
        intro _ hds'
        simp only [List.getD_cons_zero]
        intro hd48
        have := hlz (by simpa using hd48)
        simp at this
        exact hds' this)
      (by simp)
    rw [show (!([d] : List Nat).isEmpty) = true from rfl] at hrec
    simp only [List.nil_append]
    rw [hrec]
    simp [signBytes]

/-- Validating a signed integer literal reports its exact byte length. -/
theorem isNumberStr_lit (neg : Bool) (ds : List Nat) (t : Nat) (rest : Bytes)
    (hdig : ∀ c ∈ ds, 48 ≤ c ∧ c ≤ 57) (hne : ds ≠ []) (hlen : ds.length ≤ 21)
    (hlz : ds.getD 0 0 = 48 → ds.length ≤ 1) (ht : isNumberTerminator t = true) :
    isNumberStr ((signBytes neg ++ ds) ++ t :: rest)
      = .ok (signBytes neg ++ ds).length := by
  have hscan := numScan_full neg ds t rest hdig hne hlen hlz ht
  match ds, hne with
  | d :: ds', _ =>
  have hd := hdig d (by simp)
  cases neg with
  | true =>
    rw [show (signBytes true ++ (d :: ds')) ++ t :: rest
      = 45 :: ((d :: ds') ++ t :: rest) from by simp [signBytes]] at hscan ⊢
    unfold isNumberStr
    rw [show peekB (45 :: ((d :: ds') ++ t :: rest)) 0 = .ok 45 from rfl]
    simp only []
    rw [if_neg (by simp)]
    rw [hscan]
    simp only []
    rw [if_pos (by simp [NumberSink.strictlyValid, midInt])]
  | false =>
    rw [show (signBytes false ++ (d :: ds')) ++ t :: rest
      = d :: (ds' ++ t :: rest) from by simp [signBytes]] at hscan ⊢
    unfold isNumberStr
    rw [show peekB (d :: (ds' ++ t :: rest)) 0 = .ok d from rfl]
    simp only []
    rw [if_neg (by
      simp only [isDigitByte, not_or, not_not]
      intro hcon
      exact absurd (hcon.1) (by simp; omega))]
    rw [hscan]
    simp only []
    rw [if_pos (by simp [NumberSink.strictlyValid, midInt])]

theorem asBool_typeErr (c : Nat) (r : Bytes) (hc : ¬(c = 116 ∨ c = 102)) :
    asBool (c :: r) = .error JErr.typeError := by
  unfold asBool
  rw [show peekB (c :: r) 0 = .ok c from rfl]
  simp only []
  rw [if_pos hc]

theorem isNullF_notNull (c : Nat) (r : Bytes) (hc : c ≠ 110) :
    isNullF (c :: r) = .ok false := by
  unfold isNullF
  rw [show peekB (c :: r) 0 = .ok c from rfl]
  simp only []
  rw [if_pos hc]

/-- Combining the three scalar classifiers when the number check wins. -/
theorem classifyScalar_eq (bytes : Bytes) (L : Nat)
    (hnum : isNumberStr bytes = .ok L)
    (hbool : asBool bytes = .error JErr.typeError)
    (hnull : isNullF bytes = .ok false) :
    classifyScalar bytes = .ok (some L) := by
  unfold classifyScalar
  rw [hnum, hbool, hnull]
  simp

/-- Scalar classification of an integer literal in context. -/
theorem classify_num (neg : Bool) (ds : List Nat) (t : Nat) (rest : Bytes)
    (hdig : ∀ c ∈ ds, 48 ≤ c ∧ c ≤ 57) (hne : ds ≠ []) (hlen : ds.length ≤ 21)
    (hlz : ds.getD 0 0 = 48 → ds.length ≤ 1) (ht : isNumberTerminator t = true) :
    classifyScalar ((signBytes neg ++ ds) ++ t :: rest)
      = .ok (some (signBytes neg ++ ds).length) := by
  match ds, hne with
  | d :: ds', _ =>
  have hd := hdig d (by simp)
  have hnum := isNumberStr_lit neg (d :: ds') t rest hdig (by simp) hlen hlz ht
  have hcons : ∃ R, (signBytes neg ++ (d :: ds')) ++ t :: rest
      = (if neg then 45 else d) :: R := by
    cases neg with
    | true => exact ⟨(d :: ds') ++ t :: rest, by simp [signBytes]⟩
    | false => exact ⟨ds' ++ t :: rest, by simp [signBytes]⟩
  obtain ⟨R, hR⟩ := hcons
  refine classifyScalar_eq _ _ hnum ?_ ?_
  · rw [hR]
    refine asBool_typeErr _ _ ?_
    cases neg with
    | true => simp
    | false => simp only [Bool.false_eq_true, if_false]; omega
  · rw [hR]
    refine isNullF_notNull _ _ ?_
    cases neg with
    | true => simp
    | false => simp only [Bool.false_eq_true, if_false]; omega

theorem classify_true (x : Nat) (r : Bytes) :
    classifyScalar ([116, 114, 117, 101] ++ x :: r) = .ok (some 4) := rfl

theorem classify_false (R : Bytes) :
    classifyScalar ([102, 97, 108, 115, 101] ++ R) = .ok (some 5) := rfl

theorem classify_null (R : Bytes) :
    classifyScalar ([110, 117, 108, 108] ++ R) = .ok (some 4) := rfl

theorem speek_cons (x : State) (s : List State) :
    listStack.speek (x :: s) = some x := rfl

theorem spop_cons (x : State) (s : List State) :
    listStack.spop (x :: s) = some (x, s) := rfl

theorem spush_cons (s : List State) (x : State) :
    listStack.spush s x = some (x :: s) := rfl

/-- Opening an array value: the bracket is consumed and `Array` replaces
`Unknown`; no separator logic runs. -/
theorem singleStep_open_arr (l : JList) (hl : wfL l = true) (st : List State)
    (rest : Bytes) :
    singleStep listStack (ser (J.jarr l) ++ rest) (State.unknown :: st)
      = (.ok .unknownArrayOpened, serInner l ++ rest, State.array :: st) := by
  obtain ⟨c, r, hin, hws⟩ := serInnerHead l hl
  show singleStep listStack (91 :: (serInner l ++ rest)) (State.unknown :: st)
    = (.ok .unknownArrayOpened, serInner l ++ rest, State.array :: st)
  unfold singleStep
  rw [speek_cons]
  simp only []
  rw [spop_cons]
  simp only []
  rw [show peekB (91 :: (serInner l ++ rest)) 0 = .ok 91 from rfl]
  simp only []
  rw [if_neg (by norm_num), if_pos trivial]
  rw [advanceB_cons]
  simp only []
  rw [show serInner l ++ rest = c :: (r ++ rest) from by simp [hin]]
  rw [advanceWhitespace_nonWs c hws]
  simp only []
  rw [spush_cons]

/-- Opening an object value: the brace is consumed and `Object` replaces
`Unknown`; no separator logic runs. -/
theorem singleStep_open_obj (l : JFields) (st : List State) (rest : Bytes) :
    singleStep listStack (ser (J.jobj l) ++ rest) (State.unknown :: st)
      = (.ok .unknownObjectOpened, serFields l ++ rest, State.object :: st) := by
  obtain ⟨c, r, hin, hws⟩ := serFieldsHead l
  show singleStep listStack (123 :: (serFields l ++ rest)) (State.unknown :: st)
    = (.ok .unknownObjectOpened, serFields l ++ rest, State.object :: st)
  unfold singleStep
  rw [speek_cons]
  simp only []
  rw [spop_cons]
  simp only []
  rw [show peekB (123 :: (serFields l ++ rest)) 0 = .ok 123 from rfl]
  simp only []
  rw [if_pos trivial]
  rw [advanceB_cons]
  simp only []
  rw [show serFields l ++ rest = c :: (r ++ rest) from by simp [hin]]
  rw [advanceWhitespace_nonWs c hws]
  simp only []
  rw [spush_cons]

/-- One automaton step at a value position (stack top `Unknown`): a scalar
or string is consumed together with its trailing separator; a container is
opened. -/
theorem singleStep_unknown_step (v : J) (hv : wfJ v = true) (st : List State)
    (rest : Bytes) (hsep : sepOk rest = true) :
    singleStep listStack (ser v ++ rest) (State.unknown :: st) =
      match v with
      | .jarr l => (.ok .unknownArrayOpened, serInner l ++ rest, State.array :: st)
      | .jobj l => (.ok .unknownObjectOpened, serFields l ++ rest, State.object :: st)
      | .jstr s => (.ok (.unknownString s), sepOut rest, st)
      | _ => (.ok .unknownAdvanced, sepOut rest, st) := by
  cases v with
  | jtrue =>
    obtain ⟨x, r, rfl, _⟩ := sepOk_ne_nil rest hsep
    show singleStep listStack ([116, 114, 117, 101] ++ x :: r) (State.unknown :: st)
      = (.ok .unknownAdvanced, sepOut (x :: r), st)
    unfold singleStep
    rw [speek_cons]
    simp only []
    rw [spop_cons]
    simp only []
    rw [show peekB ([116, 114, 117, 101] ++ x :: r) 0 = .ok 116 from rfl]
    simp only []
    rw [if_neg (by norm_num), if_neg (by norm_num), if_neg (by norm_num)]
    rw [classify_true x r]
    simp only []
    rw [show advanceB ([116, 114, 117, 101] ++ x :: r) 4 = .ok (x :: r)
      from advanceB_exact _ _]
    simp only []
    rw [sep_consume (x :: r) hsep]
  | jfalse =>
    obtain ⟨x, r, rfl, _⟩ := sepOk_ne_nil rest hsep
    show singleStep listStack ([102, 97, 108, 115, 101] ++ x :: r) (State.unknown :: st)
      = (.ok .unknownAdvanced, sepOut (x :: r), st)
    unfold singleStep
    rw [speek_cons]
    simp only []
    rw [spop_cons]
    simp only []
    rw [show peekB ([102, 97, 108, 115, 101] ++ x :: r) 0 = .ok 102 from rfl]
    simp only []
    rw [if_neg (by norm_num), if_neg (by norm_num), if_neg (by norm_num)]
    rw [classify_false (x :: r)]
    simp only []
    rw [show advanceB ([102, 97, 108, 115, 101] ++ x :: r) 5 = .ok (x :: r)
      from advanceB_exact _ _]
    simp only []
    rw [sep_consume (x :: r) hsep]
  | jnull =>
    obtain ⟨x, r, rfl, _⟩ := sepOk_ne_nil rest hsep
    show singleStep listStack ([110, 117, 108, 108] ++ x :: r) (State.unknown :: st)
      = (.ok .unknownAdvanced, sepOut (x :: r), st)
    unfold singleStep
    rw [speek_cons]
    simp only []
    rw [spop_cons]
    simp only []
    rw [show peekB ([110, 117, 108, 108] ++ x :: r) 0 = .ok 110 from rfl]
    simp only []
    rw [if_neg (by norm_num), if_neg (by norm_num), if_neg (by norm_num)]
    rw [classify_null (x :: r)]
    simp only []
    rw [show advanceB ([110, 117, 108, 108] ++ x :: r) 4 = .ok (x :: r)
      from advanceB_exact _ _]
    simp only []
    rw [sep_consume (x :: r) hsep]
  | jnum neg ds =>
    obtain ⟨t, r, rfl, ht⟩ := sepOk_ne_nil rest hsep
    have hv' := hv
    simp only [wfJ, Bool.and_eq_true, Bool.not_eq_true', Bool.or_eq_true,
      List.all_eq_true, decide_eq_true_eq, decide_eq_false_iff_not] at hv'
    obtain ⟨⟨⟨hne, hdig⟩, hlen⟩, hlz0⟩ := hv'
    have hne' : ds ≠ [] := by
      cases ds with
      | nil => simp at hne
      | cons a l => simp
    have hdig' : ∀ c ∈ ds, 48 ≤ c ∧ c ≤ 57 := by
      intro c hc
      have := hdig c hc
      simp only [isDigitByte, Bool.and_eq_true, decide_eq_true_eq] at this
      exact this
    have hlz : ds.getD 0 0 = 48 → ds.length ≤ 1 := by
      intro h48
      rcases hlz0 with h | h
      · exact h
      · exact absurd h48 h
    have hcls := classify_num neg ds t r hdig' hne' hlen hlz ht
    match ds, hne' with
    | d :: ds', _ =>
    have hd := hdig' d (by simp)
    cases neg with
    | true =>
      show singleStep listStack ((signBytes true ++ (d :: ds')) ++ t :: r)
        (State.unknown :: st) = (.ok .unknownAdvanced, sepOut (t :: r), st)
      rw [show (signBytes true ++ (d :: ds')) ++ t :: r
        = 45 :: ((d :: ds') ++ t :: r) from by simp [signBytes]]
      unfold singleStep
      rw [speek_cons]
      simp only []
      rw [spop_cons]
      simp only []
      rw [show peekB (45 :: ((d :: ds') ++ t :: r)) 0 = .ok 45 from rfl]
      simp only []
      rw [if_neg (by norm_num), if_neg (by norm_num), if_neg (by norm_num)]
      rw [show 45 :: ((d :: ds') ++ t :: r) = (signBytes true ++ (d :: ds')) ++ t :: r
        from by simp [signBytes]]
      rw [hcls]
      simp only []
      rw [show advanceB ((signBytes true ++ (d :: ds')) ++ t :: r)
        (signBytes true ++ (d :: ds')).length = .ok (t :: r) from advanceB_exact _ _]
      simp only []
      rw [sep_consume (t :: r) hsep]
    | false =>
      show singleStep listStack ((signBytes false ++ (d :: ds')) ++ t :: r)
        (State.unknown :: st) = (.ok .unknownAdvanced, sepOut (t :: r), st)
      rw [show (signBytes false ++ (d :: ds')) ++ t :: r
        = d :: (ds' ++ t :: r) from by simp [signBytes]]
      unfold singleStep
      rw [speek_cons]
      simp only []
      rw [spop_cons]
      simp only []
      rw [show peekB (d :: (ds' ++ t :: r)) 0 = .ok d from rfl]
      simp only []
      rw [if_neg (by omega), if_neg (by omega), if_neg (by omega)]
      rw [show d :: (ds' ++ t :: r) = (signBytes false ++ (d :: ds')) ++ t :: r
        from by simp [signBytes]]
      rw [hcls]
      simp only []
      rw [show advanceB ((signBytes false ++ (d :: ds')) ++ t :: r)
        (signBytes false ++ (d :: ds')).length = .ok (t :: r) from advanceB_exact _ _]
      simp only []
      rw [sep_consume (t :: r) hsep]
  | jstr s =>
    have hstr : ∀ c ∈ s, strOkByte c = true := by
      simpa [wfJ, List.all_eq_true] using hv
    show singleStep listStack (34 :: ((s ++ [34]) ++ rest)) (State.unknown :: st)
      = (.ok (.unknownString s), sepOut rest, st)
    unfold singleStep
    rw [speek_cons]
    simp only []
    rw [spop_cons]
    simp only []
    rw [show peekB (34 :: ((s ++ [34]) ++ rest)) 0 = .ok 34 from rfl]
    simp only []
    rw [if_neg (by norm_num), if_neg (by norm_num), if_pos trivial]
    rw [advanceB_cons]
    simp only []
    rw [show (s ++ [34]) ++ rest = s ++ 34 :: rest from by simp]
    unfold readStringT
    rw [readString_clean s rest hstr]
    simp only []
    rw [sep_consume rest hsep]
  | jarr l =>
    exact singleStep_open_arr l (by simpa [wfJ] using hv) st rest
  | jobj l =>
    exact singleStep_open_obj l st rest

/-- Closing an array with a parent frame below runs the separator
routine. -/
theorem singleStep_arr_close (st : List State) (hst : st ≠ []) (rest : Bytes)
    (hsep : sepOk rest = true) :
    singleStep listStack (93 :: rest) (State.array :: st)
      = (.ok .arrayClosed, sepOut rest, st) := by
  unfold singleStep
  rw [speek_cons]
  simp only []
  rw [show peekB (93 :: rest) 0 = .ok 93 from rfl]
  simp only []
  rw [if_pos trivial]
  rw [spop_cons]
  simp only []
  rw [advanceB_cons]
  simp only []
  rw [if_pos (show listStack.depth st ≠ 0 from fun h => hst (List.length_eq_zero.mp h))]
  rw [sep_consume rest hsep]

/-- Closing the root array leaves the bytes as they are. -/
theorem singleStep_arr_close_root (rest : Bytes) :
    singleStep listStack (93 :: rest) [State.array] = (.ok .arrayClosed, rest, []) := by
  unfold singleStep
  rw [speek_cons]
  simp only []
  rw [show peekB (93 :: rest) 0 = .ok 93 from rfl]
  simp only []
  rw [if_pos trivial]
  rw [spop_cons]
  simp only []
  rw [advanceB_cons]
  simp only []
  rw [if_neg (by simp [listStack])]

/-- A non-`]` byte at an array position announces the next element and
pushes `Unknown`. -/
theorem singleStep_arr_value (c : Nat) (bs : Bytes) (hc : c ≠ 93) (st : List State) :
    singleStep listStack (c :: bs) (State.array :: st)
      = (.ok .arrayValue, c :: bs, State.unknown :: State.array :: st) := by
  unfold singleStep
  rw [speek_cons]
  simp only []
  rw [show peekB (c :: bs) 0 = .ok c from rfl]
  simp only []
  rw [if_neg hc]
  rw [spush_cons]

/-- Closing an object with a parent frame below runs the separator
routine. -/
theorem singleStep_obj_close (st : List State) (hst : st ≠ []) (rest : Bytes)
    (hsep : sepOk rest = true) :
    singleStep listStack (125 :: rest) (State.object :: st)
      = (.ok .objectClosed, sepOut rest, st) := by
  unfold singleStep
  rw [speek_cons]
  simp only []
  rw [show readByteB (125 :: rest) = .ok (125, rest) from rfl]
  simp only []
  rw [if_pos trivial]
  rw [spop_cons]
  simp only []
  rw [if_pos (show listStack.depth st ≠ 0 from fun h => hst (List.length_eq_zero.mp h))]
  rw [sep_consume rest hsep]

/-- Closing the root object leaves the bytes as they are. -/
theorem singleStep_obj_close_root (rest : Bytes) :
    singleStep listStack (125 :: rest) [State.object] = (.ok .objectClosed, rest, []) := by
  unfold singleStep
  rw [speek_cons]
  simp only []
  rw [show readByteB (125 :: rest) = .ok (125, rest) from rfl]
  simp only []
  rw [if_pos trivial]
  rw [spop_cons]
  simp only []
  rw [if_neg (by simp [listStack])]

/-- Reading a field's key positions the deserializer at the value with
`Unknown` pushed. -/
theorem singleStep_obj_field (k : List Nat) (hk : ∀ c ∈ k, strOkByte c = true)
    (v : J) (hv : wfJ v = true) (Y : Bytes) (st : List State) :
    singleStep listStack (34 :: (k ++ 34 :: 58 :: (ser v ++ Y))) (State.object :: st)
      = (.ok (.objectField k), ser v ++ Y, State.unknown :: State.object :: st) := by
  obtain ⟨c, r, hser, hws, _⟩ := serHead v hv
  unfold singleStep
  rw [speek_cons]
  simp only []
  rw [show readByteB (34 :: (k ++ 34 :: 58 :: (ser v ++ Y)))
    = .ok (34, k ++ 34 :: 58 :: (ser v ++ Y)) from rfl]
  simp only []
  rw [if_neg (by norm_num)]
  rw [if_neg (by simp)]
  rw [show k ++ 34 :: 58 :: (ser v ++ Y) = k ++ 34 :: (58 :: (ser v ++ Y)) from rfl]
  unfold readStringT
  rw [readString_clean k _ hk]
  simp only []
  rw [advanceWhitespace_nonWs 58 rfl]
  simp only []
  rw [show readByteB (58 :: (ser v ++ Y)) = .ok (58, ser v ++ Y) from rfl]
  simp only []
  rw [if_neg (by simp)]
  rw [show ser v ++ Y = c :: (r ++ Y) from by simp [hser]]
  rw [advanceWhitespace_nonWs c hws]
  simp only []
  rw [spush_cons]

mutual
/-- Dropping one well-formed value at an element position: the skip loop
consumes exactly the value's serialization and its trailing separator,
returning to the parent frame with the counter back where it started. -/
theorem dropE (v : J) (hv : wfJ v = true) (f dc : Nat) (st : List State)
    (rest : Bytes) (hst : st ≠ []) (hsep : sepOk rest = true) :
    dropLoop listStack (f + costJ v) (dc + 1)
        ⟨ser v ++ rest, State.unknown :: st, none⟩
      = dropLoop listStack f (dc + 1) ⟨sepOut rest, st, none⟩ := by
  cases v with
  | jnum neg ds =>
    show dropLoop listStack (f + 1) (dc + 1)
      ⟨ser (J.jnum neg ds) ++ rest, State.unknown :: st, none⟩ = _
    conv_lhs => unfold dropLoop
    rw [show singleStep listStack (ser (J.jnum neg ds) ++ rest) (State.unknown :: st)
      = (.ok .unknownAdvanced, sepOut rest, st)
      from singleStep_unknown_step (J.jnum neg ds) hv st rest hsep]
  | jtrue =>
    show dropLoop listStack (f + 1) (dc + 1)
      ⟨ser J.jtrue ++ rest, State.unknown :: st, none⟩ = _
    conv_lhs => unfold dropLoop
    rw [show singleStep listStack (ser J.jtrue ++ rest) (State.unknown :: st)
      = (.ok .unknownAdvanced, sepOut rest, st)
      from singleStep_unknown_step J.jtrue hv st rest hsep]
  | jfalse =>
    show dropLoop listStack (f + 1) (dc + 1)
      ⟨ser J.jfalse ++ rest, State.unknown :: st, none⟩ = _
    conv_lhs => unfold dropLoop
    rw [show singleStep listStack (ser J.jfalse ++ rest) (State.unknown :: st)
      = (.ok .unknownAdvanced, sepOut rest, st)
      from singleStep_unknown_step J.jfalse hv st rest hsep]
  | jnull =>
    show dropLoop listStack (f + 1) (dc + 1)
      ⟨ser J.jnull ++ rest, State.unknown :: st, none⟩ = _
    conv_lhs => unfold dropLoop
    rw [show singleStep listStack (ser J.jnull ++ rest) (State.unknown :: st)
      = (.ok .unknownAdvanced, sepOut rest, st)
      from singleStep_unknown_step J.jnull hv st rest hsep]
  | jstr s =>
    show dropLoop listStack (f + 1) (dc + 1)
      ⟨ser (J.jstr s) ++ rest, State.unknown :: st, none⟩ = _
    conv_lhs => unfold dropLoop
    rw [show singleStep listStack (ser (J.jstr s) ++ rest) (State.unknown :: st)
      = (.ok (.unknownString s), sepOut rest, st)
      from singleStep_unknown_step (J.jstr s) hv st rest hsep]
  | jarr l =>
    have hl : wfL l = true := by simpa [wfJ] using hv
    show dropLoop listStack ((f + costL l) + 1) (dc + 1)
      ⟨ser (J.jarr l) ++ rest, State.unknown :: st, none⟩ = _
    conv_lhs => unfold dropLoop
    rw [show singleStep listStack (ser (J.jarr l) ++ rest) (State.unknown :: st)
      = (.ok .unknownArrayOpened, serInner l ++ rest, State.array :: st)
      from singleStep_unknown_step (J.jarr l) hv st rest hsep]
    simp only []
    exact dropEL l hl f (dc + 1) st rest hst hsep
  | jobj l =>
    have hl : wfF l = true := by simpa [wfJ] using hv
    show dropLoop listStack ((f + costF l) + 1) (dc + 1)
      ⟨ser (J.jobj l) ++ rest, State.unknown :: st, none⟩ = _
    conv_lhs => unfold dropLoop
    rw [show singleStep listStack (ser (J.jobj l) ++ rest) (State.unknown :: st)
      = (.ok .unknownObjectOpened, serFields l ++ rest, State.object :: st)
      from singleStep_unknown_step (J.jobj l) hv st rest hsep]
    simp only []
    exact dropEF l hl f (dc + 1) st rest hst hsep
termination_by sizeOf v

/-- The skip loop consumes a well-formed array's remaining elements and
its close, decrementing the depth counter by one. -/
theorem dropEL (l : JList) (hl : wfL l = true) (f dc : Nat) (st : List State)
    (rest : Bytes) (hst : st ≠ []) (hsep : sepOk rest = true) :
    dropLoop listStack (f + costL l) (dc + 1)
        ⟨serInner l ++ rest, State.array :: st, none⟩
      = dropLoop listStack f dc ⟨sepOut rest, st, none⟩ := by
  cases l with
  | nil =>
    show dropLoop listStack (f + 1) (dc + 1) ⟨93 :: rest, State.array :: st, none⟩ = _
    conv_lhs => unfold dropLoop
    rw [singleStep_arr_close st hst rest hsep]
  | cons v tl =>
    have hv : wfJ v = true := by
      have := hl
      simp only [wfL, Bool.and_eq_true] at this
      exact this.1
    have htl : wfL tl = true := by
      have := hl
      simp only [wfL, Bool.and_eq_true] at this
      exact this.2
    obtain ⟨c, r, hser, hws, h93, _, _⟩ := serHead v hv
    show dropLoop listStack ((f + (costJ v + costL tl)) + 1) (dc + 1)
      ⟨(ser v ++ serRest tl) ++ rest, State.array :: st, none⟩ = _
    conv_lhs => unfold dropLoop
    rw [show (ser v ++ serRest tl) ++ rest = c :: (r ++ (serRest tl ++ rest))
      from by simp [hser]]
    rw [singleStep_arr_value c _ h93 st]
    simp only []
    rw [show c :: (r ++ (serRest tl ++ rest)) = ser v ++ (serRest tl ++ rest)
      from by simp [hser]]
    rw [show f + (costJ v + costL tl) = (f + costL tl) + costJ v from by omega]
    rw [dropE v hv (f + costL tl) dc (State.array :: st) (serRest tl ++ rest)
      (by simp) (serRest_sep tl htl rest).1]
    rw [(serRest_sep tl htl rest).2]
    exact dropEL tl htl f dc st rest hst hsep
termination_by sizeOf l

/-- The skip loop consumes a well-formed object's remaining fields and
its close, decrementing the depth counter by one. -/
theorem dropEF (l : JFields) (hl : wfF l = true) (f dc : Nat) (st : List State)
    (rest : Bytes) (hst : st ≠ []) (hsep : sepOk rest = true) :
    dropLoop listStack (f + costF l) (dc + 1)
        ⟨serFields l ++ rest, State.object :: st, none⟩
      = dropLoop listStack f dc ⟨sepOut rest, st, none⟩ := by
  cases l with
  | fnil =>
    show dropLoop listStack (f + 1) (dc + 1) ⟨125 :: rest, State.object :: st, none⟩ = _
    conv_lhs => unfold dropLoop
    rw [singleStep_obj_close st hst rest hsep]
  | fcons k v tl =>
    have hk : ∀ c ∈ k, strOkByte c = true := by
      have := hl
      simp only [wfF, Bool.and_eq_true, List.all_eq_true] at this
      exact this.1.1
    have hv : wfJ v = true := by
      have := hl
      simp only [wfF, Bool.and_eq_true] at this
      exact this.1.2
    have htl : wfF tl = true := by
      have := hl
      simp only [wfF, Bool.and_eq_true] at this
      exact this.2
    show dropLoop listStack ((f + (costJ v + costF tl)) + 1) (dc + 1)
      ⟨(34 :: (k ++ 34 :: 58 :: (ser v ++ serFRest tl))) ++ rest,
        State.object :: st, none⟩ = _
    rw [show (34 :: (k ++ 34 :: 58 :: (ser v ++ serFRest tl))) ++ rest
      = 34 :: (k ++ 34 :: 58 :: (ser v ++ (serFRest tl ++ rest))) from by simp]
    conv_lhs => unfold dropLoop
    rw [singleStep_obj_field k hk v hv (serFRest tl ++ rest) st]
    simp only []
    rw [show f + (costJ v + costF tl) = (f + costF tl) + costJ v from by omega]
    rw [dropE v hv (f + costF tl) dc (State.object :: st) (serFRest tl ++ rest)
      (by simp) (serFRest_sep tl rest).1]
    rw [(serFRest_sep tl rest).2]
    exact dropEF tl htl f dc st rest hst hsep
termination_by sizeOf l
end

theorem dropLoop_zero {σ : Type} (ops : StackOps σ) (f : Nat) (d : Deser σ) :
    dropLoop ops f 0 d = some d := by
  cases f with
  | zero => rfl
  | succ n => rfl

theorem costJ_pos (v : J) : 1 ≤ costJ v := by
  cases v <;> simp only [costJ] <;> omega

theorem serRest_len (l : JList) : (serInner l).length ≤ (serRest l).length := by
  cases l <;> simp [serInner, serRest]

theorem serFRest_len (l : JFields) : (serFields l).length ≤ (serFRest l).length := by
  cases l <;> simp [serFields, serFRest]

mutual
/-- Step count of a value against its serialized length. -/
theorem costJ_le (v : J) (hv : wfJ v = true) : costJ v ≤ 2 * (ser v).length := by
  cases v with
  | jnum neg ds =>
    have hne : ds.isEmpty = false := by
      have := hv
      simp only [wfJ, Bool.and_eq_true, Bool.not_eq_true'] at this
      exact this.1.1.1
    match ds, hne with
    | d :: ds', _ => simp [costJ, ser]; omega
  | jtrue => simp [costJ, ser]
  | jfalse => simp [costJ, ser]
  | jnull => simp [costJ, ser]
  | jstr s => simp [costJ, ser]; omega
  | jarr l =>
    have h := costL_le l (by simpa [wfJ] using hv)
    simp only [costJ, ser, List.length_cons]
    omega
  | jobj l =>
    have h := costF_le l (by simpa [wfJ] using hv)
    simp only [costJ, ser, List.length_cons]
    omega
termination_by sizeOf v
/-- Step count of array content against its serialized length. -/
theorem costL_le (l : JList) (hl : wfL l = true) :
    costL l ≤ 2 * (serInner l).length + 1 := by
  cases l with
  | nil => simp [costL, serInner]
  | cons v tl =>
    have hv : wfJ v = true := by
      have := hl
      simp only [wfL, Bool.and_eq_true] at this
      exact this.1
    have htl : wfL tl = true := by
      have := hl
      simp only [wfL, Bool.and_eq_true] at this
      exact this.2
    have h1 := costJ_le v hv
    have h2 := costL_le tl htl
    cases tl with
    | nil =>
      simp only [costL, serInner, serRest, List.length_append,
        List.length_cons, List.length_nil] at *
      omega
    | cons w tw =>
      have hlen : (serRest (JList.cons w tw)).length
          = (serInner (JList.cons w tw)).length + 1 := by
        simp [serRest, serInner]
      simp only [costL, serInner, List.length_append] at *
      omega
termination_by sizeOf l
/-- Step count of object content against its serialized length. -/
theorem costF_le (l : JFields) (hl : wfF l = true) :
    costF l ≤ 2 * (serFields l).length + 1 := by
  cases l with
  | fnil => simp [costF, serFields]
  | fcons k v tl =>
    have hv : wfJ v = true := by
      have := hl
      simp only [wfF, Bool.and_eq_true] at this
      exact this.1.2
    have htl : wfF tl = true := by
      have := hl
      simp only [wfF, Bool.and_eq_true] at this
      exact this.2
    have h1 := costJ_le v hv
    have h2 := costF_le tl htl
    cases tl with
    | fnil =>
      simp only [costF, serFields, serFRest, List.length_append,
        List.length_cons, List.length_nil] at *
      omega
    | fcons k2 v2 tw =>
      have hlen : (serFRest (JFields.fcons k2 v2 tw)).length
          = (serFields (JFields.fcons k2 v2 tw)).length + 1 := by
        simp [serFRest, serFields]
      simp only [costF, serFields, List.length_append, List.length_cons] at *
      omega
termination_by sizeOf l
end

theorem lenL_lt_costL (l : JList) : lenL l + 1 ≤ costL l := by
  cases l with
  | nil => simp [lenL, costL]
  | cons v tl =>
    have ih := lenL_lt_costL tl
    have := costJ_pos v
    simp only [lenL, costL]
    omega
termination_by sizeOf l

theorem lenF_lt_costF (l : JFields) : lenF l + 1 ≤ costF l := by
  cases l with
  | fnil => simp [lenF, costF]
  | fcons k v tl =>
    have ih := lenF_lt_costF tl
    have := costJ_pos v
    simp only [lenF, costF]
    omega
termination_by sizeOf l

/-- Running the skip loop at depth one over a well-formed array's content
with any sufficient fuel. -/
theorem dropLoop_run_arr (l : JList) (hl : wfL l = true) (st : List State)
    (hst : st ≠ []) (rest : Bytes) (hsep : sepOk rest = true) (fuel : Nat)
    (hfuel : costL l ≤ fuel) :
    dropLoop listStack fuel 1 ⟨serInner l ++ rest, State.array :: st, none⟩
      = some ⟨sepOut rest, st, none⟩ := by
  obtain ⟨f, rfl⟩ : ∃ f, fuel = f + costL l := ⟨fuel - costL l, by omega⟩
  have h := dropEL l hl f 0 st rest hst hsep
  rw [show (0 : Nat) + 1 = 1 from rfl] at h
  rw [h, dropLoop_zero]

/-- Running the skip loop at depth one over a well-formed object's content
with any sufficient fuel. -/
theorem dropLoop_run_obj (l : JFields) (hl : wfF l = true) (st : List State)
    (hst : st ≠ []) (rest : Bytes) (hsep : sepOk rest = true) (fuel : Nat)
    (hfuel : costF l ≤ fuel) :
    dropLoop listStack fuel 1 ⟨serFields l ++ rest, State.object :: st, none⟩
      = some ⟨sepOut rest, st, none⟩ := by
  obtain ⟨f, rfl⟩ : ∃ f, fuel = f + costF l := ⟨fuel - costF l, by omega⟩
  have h := dropEF l hl f 0 st rest hst hsep
  rw [show (0 : Nat) + 1 = 1 from rfl] at h
  rw [h, dropLoop_zero]

/-- The skip loop over the root array's content: the final close runs no
separator routine and empties the stack. -/
theorem dropELroot (l : JList) (hl : wfL l = true) (f dc : Nat) (after : Bytes) :
    dropLoop listStack (f + costL l) (dc + 1)
        ⟨serInner l ++ after, [State.array], none⟩
      = dropLoop listStack f dc ⟨after, [], none⟩ := by
  cases l with
  | nil =>
    show dropLoop listStack (f + 1) (dc + 1) ⟨93 :: after, [State.array], none⟩ = _
    conv_lhs => unfold dropLoop
    rw [singleStep_arr_close_root after]
  | cons v tl =>
    have hv : wfJ v = true := by
      have := hl
      simp only [wfL, Bool.and_eq_true] at this
      exact this.1
    have htl : wfL tl = true := by
      have := hl
      simp only [wfL, Bool.and_eq_true] at this
      exact this.2
    obtain ⟨c, r, hser, hws, h93, _, _⟩ := serHead v hv
    show dropLoop listStack ((f + (costJ v + costL tl)) + 1) (dc + 1)
      ⟨(ser v ++ serRest tl) ++ after, [State.array], none⟩ = _
    conv_lhs => unfold dropLoop
    rw [show (ser v ++ serRest tl) ++ after = c :: (r ++ (serRest tl ++ after))
      from by simp [hser]]
    rw [singleStep_arr_value c _ h93 []]
    simp only []
    rw [show c :: (r ++ (serRest tl ++ after)) = ser v ++ (serRest tl ++ after)
      from by simp [hser]]
    rw [show f + (costJ v + costL tl) = (f + costL tl) + costJ v from by omega]
    rw [dropE v hv (f + costL tl) dc [State.array] (serRest tl ++ after)
      (by simp) (serRest_sep tl htl after).1]
    rw [(serRest_sep tl htl after).2]
    exact dropELroot tl htl f dc after
termination_by sizeOf l

/-- The skip loop over the root object's content. -/
theorem dropEFroot (l : JFields) (hl : wfF l = true) (f dc : Nat) (after : Bytes) :
    dropLoop listStack (f + costF l) (dc + 1)
        ⟨serFields l ++ after, [State.object], none⟩
      = dropLoop listStack f dc ⟨after, [], none⟩ := by
  cases l with
  | fnil =>
    show dropLoop listStack (f + 1) (dc + 1) ⟨125 :: after, [State.object], none⟩ = _
    conv_lhs => unfold dropLoop
    rw [singleStep_obj_close_root after]
  | fcons k v tl =>
    have hk : ∀ c ∈ k, strOkByte c = true := by
      have := hl
      simp only [wfF, Bool.and_eq_true, List.all_eq_true] at this
      exact this.1.1
    have hv : wfJ v = true := by
      have := hl
      simp only [wfF, Bool.and_eq_true] at this
      exact this.1.2
    have htl : wfF tl = true := by
      have := hl
      simp only [wfF, Bool.and_eq_true] at this
      exact this.2
    show dropLoop listStack ((f + (costJ v + costF tl)) + 1) (dc + 1)
      ⟨(34 :: (k ++ 34 :: 58 :: (ser v ++ serFRest tl))) ++ after,
        [State.object], none⟩ = _
    rw [show (34 :: (k ++ 34 :: 58 :: (ser v ++ serFRest tl))) ++ after
      = 34 :: (k ++ 34 :: 58 :: (ser v ++ (serFRest tl ++ after))) from by simp]
    conv_lhs => unfold dropLoop
    rw [singleStep_obj_field k hk v hv (serFRest tl ++ after) []]
    simp only []
    rw [show f + (costJ v + costF tl) = (f + costF tl) + costJ v from by omega]
    rw [dropE v hv (f + costF tl) dc [State.object] (serFRest tl ++ after)
      (by simp) (serFRest_sep tl after).1]
    rw [(serFRest_sep tl after).2]
    exact dropEFroot tl htl f dc after
termination_by sizeOf l

/-- Dropping an unconsumed value at an element position lands the
deserializer exactly where full consumption would: past the value and its
separator, with the parent frame on top and no error. -/
theorem dropValue_elem (v : J) (hv : wfJ v = true) (st : List State)
    (hst : st ≠ []) (rest : Bytes) (hsep : sepOk rest = true) :
    dropValue listStack ⟨ser v ++ rest, State.unknown :: st, none⟩
      = ⟨sepOut rest, st, none⟩ := by
  cases v with
  | jarr l =>
    have hl : wfL l = true := by simpa [wfJ] using hv
    unfold dropValue
    rw [if_neg (by simp)]
    rw [speek_cons]
    simp only []
    rw [singleStep_open_arr l hl st rest]
    simp only []
    have hcost := costL_le l hl
    have hle : costL l ≤ defaultFuel (serInner l ++ rest) := by
      unfold defaultFuel
      simp only [List.length_append]
      omega
    rw [dropLoop_run_arr l hl st hst rest hsep _ hle]
    rfl
  | jobj l =>
    have hl : wfF l = true := by simpa [wfJ] using hv
    unfold dropValue
    rw [if_neg (by simp)]
    rw [speek_cons]
    simp only []
    rw [singleStep_open_obj l st rest]
    simp only []
    have hcost := costF_le l hl
    have hle : costF l ≤ defaultFuel (serFields l ++ rest) := by
      unfold defaultFuel
      simp only [List.length_append]
      omega
    rw [dropLoop_run_obj l hl st hst rest hsep _ hle]
    rfl
  | jnum neg ds =>
    unfold dropValue
    rw [if_neg (by simp)]
    rw [speek_cons]
    simp only []
    rw [show singleStep listStack (ser (J.jnum neg ds) ++ rest) (State.unknown :: st)
      = (.ok .unknownAdvanced, sepOut rest, st)
      from singleStep_unknown_step (J.jnum neg ds) hv st rest hsep]
  | jtrue =>
    unfold dropValue
    rw [if_neg (by simp)]
    rw [speek_cons]
    simp only []
    rw [show singleStep listStack (ser J.jtrue ++ rest) (State.unknown :: st)
      = (.ok .unknownAdvanced, sepOut rest, st)
      from singleStep_unknown_step J.jtrue hv st rest hsep]
  | jfalse =>
    unfold dropValue
    rw [if_neg (by simp)]
    rw [speek_cons]
    simp only []
    rw [show singleStep listStack (ser J.jfalse ++ rest) (State.unknown :: st)
      = (.ok .unknownAdvanced, sepOut rest, st)
      from singleStep_unknown_step J.jfalse hv st rest hsep]
  | jnull =>
    unfold dropValue
    rw [if_neg (by simp)]
    rw [speek_cons]
    simp only []
    rw [show singleStep listStack (ser J.jnull ++ rest) (State.unknown :: st)
      = (.ok .unknownAdvanced, sepOut rest, st)
      from singleStep_unknown_step J.jnull hv st rest hsep]
  | jstr s =>
    unfold dropValue
    rw [if_neg (by simp)]
    rw [speek_cons]
    simp only []
    rw [show singleStep listStack (ser (J.jstr s) ++ rest) (State.unknown :: st)
      = (.ok (.unknownString s), sepOut rest, st)
      from singleStep_unknown_step (J.jstr s) hv st rest hsep]

/-- Dropping the unconsumed root array consumes exactly its serialization:
no separator routine runs after the root close. -/
theorem dropValue_rootArr (l : JList) (hl : wfL l = true) (after : Bytes) :
    dropValue listStack ⟨ser (J.jarr l) ++ after, [State.unknown], none⟩
      = ⟨after, [], none⟩ := by
  unfold dropValue
  rw [if_neg (by simp)]
  rw [speek_cons]
  simp only []
  rw [singleStep_open_arr l hl [] after]
  simp only []
  have hcost := costL_le l hl
  obtain ⟨f, hf⟩ : ∃ f, defaultFuel (serInner l ++ after) = f + costL l := by
    refine ⟨defaultFuel (serInner l ++ after) - costL l, ?_⟩
    unfold defaultFuel
    simp only [List.length_append]
    omega
  rw [hf]
  have h := dropELroot l hl f 0 after
  rw [show (0 : Nat) + 1 = 1 from rfl] at h
  rw [h, dropLoop_zero]
  rfl

/-- Dropping the unconsumed root object consumes exactly its
serialization. -/
theorem dropValue_rootObj (l : JFields) (hl : wfF l = true) (after : Bytes) :
    dropValue listStack ⟨ser (J.jobj l) ++ after, [State.unknown], none⟩
      = ⟨after, [], none⟩ := by
  unfold dropValue
  rw [if_neg (by simp)]
  rw [speek_cons]
  simp only []
  rw [singleStep_open_obj l [] after]
  simp only []
  have hcost := costF_le l hl
  obtain ⟨f, hf⟩ : ∃ f, defaultFuel (serFields l ++ after) = f + costF l := by
    refine ⟨defaultFuel (serFields l ++ after) - costF l, ?_⟩
    unfold defaultFuel
    simp only [List.length_append]
    omega
  rw [hf]
  have h := dropEFroot l hl f 0 after
  rw [show (0 : Nat) + 1 = 1 from rfl] at h
  rw [h, dropLoop_zero]
  rfl

/-- The array-iterator disposal loop from any traversal midpoint: each
remaining element is yielded and dropped (skipped), and the close ends the
loop at the canonical parent-aligned state. -/
theorem arrayIterLoop_run (l : JList) (hl : wfL l = true) (st : List State)
    (hst : st ≠ []) (rest : Bytes) (hsep : sepOk rest = true) (fuel : Nat)
    (hfuel : lenL l + 1 ≤ fuel) :
    arrayIterDropLoop listStack fuel
        ⟨serInner l ++ rest, State.array :: st, none⟩ false
      = ⟨sepOut rest, st, none⟩ := by
  obtain ⟨f, rfl⟩ : ∃ f, fuel = f + 1 := ⟨fuel - 1, by omega⟩
  cases l with
  | nil =>
    show arrayIterDropLoop listStack (f + 1)
      ⟨93 :: rest, State.array :: st, none⟩ false = _
    conv_lhs => unfold arrayIterDropLoop
    conv_lhs => unfold arrayNext
    simp only [Bool.false_eq_true, if_false]
    rw [singleStep_arr_close st hst rest hsep]
  | cons v tl =>
    have hv : wfJ v = true := by
      have := hl
      simp only [wfL, Bool.and_eq_true] at this
      exact this.1
    have htl : wfL tl = true := by
      have := hl
      simp only [wfL, Bool.and_eq_true] at this
      exact this.2
    obtain ⟨c, r, hser, hws, h93, _, _⟩ := serHead v hv
    show arrayIterDropLoop listStack (f + 1)
      ⟨(ser v ++ serRest tl) ++ rest, State.array :: st, none⟩ false = _
    conv_lhs => unfold arrayIterDropLoop
    conv_lhs => unfold arrayNext
    simp only [Bool.false_eq_true, if_false]
    rw [show (ser v ++ serRest tl) ++ rest = c :: (r ++ (serRest tl ++ rest))
      from by simp [hser]]
    rw [singleStep_arr_value c _ h93 st]
    simp only []
    rw [show c :: (r ++ (serRest tl ++ rest)) = ser v ++ (serRest tl ++ rest)
      from by simp [hser]]
    rw [dropValue_elem v hv (State.array :: st) (by simp) (serRest tl ++ rest)
      (serRest_sep tl htl rest).1]
    rw [(serRest_sep tl htl rest).2]
    exact arrayIterLoop_run tl htl st hst rest hsep f
      (by simp only [lenL] at hfuel; omega)
termination_by sizeOf l

/-- The field-iterator disposal loop from any traversal midpoint. -/
theorem fieldIterLoop_run (l : JFields) (hl : wfF l = true) (st : List State)
    (hst : st ≠ []) (rest : Bytes) (hsep : sepOk rest = true) (fuel : Nat)
    (hfuel : lenF l + 1 ≤ fuel) :
    fieldIterDropLoop listStack fuel
        ⟨serFields l ++ rest, State.object :: st, none⟩ false
      = ⟨sepOut rest, st, none⟩ := by
  obtain ⟨f, rfl⟩ : ∃ f, fuel = f + 1 := ⟨fuel - 1, by omega⟩
  cases l with
  | fnil =>
    show fieldIterDropLoop listStack (f + 1)
      ⟨125 :: rest, State.object :: st, none⟩ false = _
    conv_lhs => unfold fieldIterDropLoop
    conv_lhs => unfold fieldNext
    simp only [Bool.false_eq_true, if_false]
    rw [singleStep_obj_close st hst rest hsep]
  | fcons k v tl =>
    have hk : ∀ c ∈ k, strOkByte c = true := by
      have := hl
      simp only [wfF, Bool.and_eq_true, List.all_eq_true] at this
      exact this.1.1
    have hv : wfJ v = true := by
      have := hl
      simp only [wfF, Bool.and_eq_true] at this
      exact this.1.2
    have htl : wfF tl = true := by
      have := hl
      simp only [wfF, Bool.and_eq_true] at this
      exact this.2
    show fieldIterDropLoop listStack (f + 1)
      ⟨(34 :: (k ++ 34 :: 58 :: (ser v ++ serFRest tl))) ++ rest,
        State.object :: st, none⟩ false = _
    rw [show (34 :: (k ++ 34 :: 58 :: (ser v ++ serFRest tl))) ++ rest
      = 34 :: (k ++ 34 :: 58 :: (ser v ++ (serFRest tl ++ rest))) from by simp]
    conv_lhs => unfold fieldIterDropLoop
    conv_lhs => unfold fieldNext
    simp only [Bool.false_eq_true, if_false]
    rw [singleStep_obj_field k hk v hv (serFRest tl ++ rest) st]
    simp only []
    rw [dropValue_elem v hv (State.object :: st) (by simp) (serFRest tl ++ rest)
      (serFRest_sep tl rest).1]
    rw [(serFRest_sep tl rest).2]
    exact fieldIterLoop_run tl htl st hst rest hsep f
      (by simp only [lenF] at hfuel; omega)
termination_by sizeOf l

/-- Dropping an array iterator mid-traversal (with the default fuel). -/
theorem arrayIterDrop_mid (l : JList) (hl : wfL l = true) (st : List State)
    (hst : st ≠ []) (rest : Bytes) (hsep : sepOk rest = true) :
    arrayIterDrop listStack ⟨serInner l ++ rest, State.array :: st, none⟩ false
      = ⟨sepOut rest, st, none⟩ := by
  unfold arrayIterDrop
  rw [if_neg (by simp)]
  refine arrayIterLoop_run l hl st hst rest hsep _ ?_
  have h1 := lenL_lt_costL l
  have h2 := costL_le l hl
  show lenL l + 1 ≤ defaultFuel (serInner l ++ rest)
  unfold defaultFuel
  simp only [List.length_append]
  omega

/-- Dropping a field iterator mid-traversal (with the default fuel). -/
theorem fieldIterDrop_mid (l : JFields) (hl : wfF l = true) (st : List State)
    (hst : st ≠ []) (rest : Bytes) (hsep : sepOk rest = true) :
    fieldIterDrop listStack ⟨serFields l ++ rest, State.object :: st, none⟩ false
      = ⟨sepOut rest, st, none⟩ := by
  unfold fieldIterDrop
  rw [if_neg (by simp)]
  refine fieldIterLoop_run l hl st hst rest hsep _ ?_
  have h1 := lenF_lt_costF l
  have h2 := costF_le l hl
  show lenF l + 1 ≤ defaultFuel (serFields l ++ rest)
  unfold defaultFuel
  simp only [List.length_append]
  omega

/-- C1: disposing a cursor early is equivalent to full consumption.  For
every well-formed canonical document value `v` placed at an element
position (stack top `Unknown` over a nonempty parent stack, followed by a
well-shaped separator), dropping the unconsumed `Value` advances the byte
source past `v`'s entire serialization and the separator, restoring the
parent frame with no error — the canonical state full consumption reaches.
Dropping the root value consumes exactly its serialization.  Dropping an
`ArrayIterator` or `FieldIterator` at any traversal midpoint (any
remaining element spine `l`) reaches the same canonical parent state,
independent of the midpoint — so every subsequent read of sibling and
parent values is computed from the same deserializer state, yielding
exactly the results full consumption would have. -/
theorem value_drop_equiv :
    (∀ (v : J) (st : List State) (rest : Bytes),
        wfJ v = true → st ≠ [] → sepOk rest = true →
        dropValue listStack ⟨ser v ++ rest, State.unknown :: st, none⟩
          = ⟨sepOut rest, st, none⟩)
    ∧ (∀ (l : JList) (after : Bytes), wfL l = true →
        dropValue listStack ⟨ser (J.jarr l) ++ after, [State.unknown], none⟩
          = ⟨after, [], none⟩)
    ∧ (∀ (l : JFields) (after : Bytes), wfF l = true →
        dropValue listStack ⟨ser (J.jobj l) ++ after, [State.unknown], none⟩
          = ⟨after, [], none⟩)
    ∧ (∀ (l : JList) (st : List State) (rest : Bytes),
        wfL l = true → st ≠ [] → sepOk rest = true →
        arrayIterDrop listStack ⟨serInner l ++ rest, State.array :: st, none⟩ false
          = ⟨sepOut rest, st, none⟩)
    ∧ (∀ (l : JFields) (st : List State) (rest : Bytes),
        wfF l = true → st ≠ [] → sepOk rest = true →
        fieldIterDrop listStack ⟨serFields l ++ rest, State.object :: st, none⟩ false
          = ⟨sepOut rest, st, none⟩)
    ∧ (∀ (α : Type) (read : Deser (List State) → α) (v : J) (st : List State)
        (rest : Bytes), wfJ v = true → st ≠ [] → sepOk rest = true →
        read (dropValue listStack ⟨ser v ++ rest, State.unknown :: st, none⟩)
          = read ⟨sepOut rest, st, none⟩) := by
  refine ⟨?_, ?_, ?_, ?_, ?_, ?_⟩
  · intro v st rest hv hst hsep
    exact dropValue_elem v hv st hst rest hsep
  · intro l after hl
    exact dropValue_rootArr l hl after
  · intro l after hl
    exact dropValue_rootObj l hl after
  · intro l st rest hl hst hsep
    exact arrayIterDrop_mid l hl st hst rest hsep
  · intro l st rest hl hst hsep
    exact fieldIterDrop_mid l hl st hst rest hsep
  · intro α read v st rest hv hst hsep
    rw [dropValue_elem v hv st hst rest hsep]

theorem value_drop_equiv_witness :
    wfJ (J.jarr (JList.cons J.jtrue JList.nil)) = true ∧
    ([State.object] : List State) ≠ [] ∧
    sepOk [125] = true ∧
    dropValue listStack
        ⟨ser (J.jarr (JList.cons J.jtrue JList.nil)) ++ [125],
          State.unknown :: [State.object], none⟩
      = ⟨sepOut [125], [State.object], none⟩ :=
  ⟨rfl, by decide, rfl,
    value_drop_equiv.1 (J.jarr (JList.cons J.jtrue JList.nil)) [State.object]
      [125] rfl (by decide) rfl⟩

end CoreJson
